import Mathlib

/-! Related-tasks handler (`handler.go`).

A shallow embedding of the task handler: the task table behind the handler's
mutex, the constructor `NewHandler` with its validation passes, the locked
accessors `tryStart` and `setDone`, and the scheduling loop `startAllTasks`
/ `Run` as an interleaving of atomic steps of the goroutines.

Go values are rendered as follows: `error` is `Option String` (`none` is
`nil`), a possibly-nil function value is an `Option` of a function, the map
`map[string]task` is an association list with at most one entry per key, and
the counter of the `sync.WaitGroup` is an `Int`.
-/

namespace Tasks

/-- Input description of one task (`type Task struct`). -/
structure Task where
  Id : String
  WaitFor : List String
  Skip : Bool
  deriving DecidableEq, Repr

/-- Runtime state of one task (`type task struct`). -/
structure task where
  waitFor : List String
  started : Bool
  done : Bool
  deriving DecidableEq, Repr

/-- The zero value of `task`, which Go yields when a key is read that the map
does not hold. -/
def task.zero : task := ⟨[], false, false⟩

/-- The map `map[string]task`: a list of key/value entries. -/
abbrev Table := List (String × task)

/-- Map read `h.tasks[id]` with the `ok` flag: `none` when the key is absent. -/
def Table.get : Table → String → Option task
  | [], _ => none
  | (k, v) :: r, id => if k = id then some v else Table.get r id

/-- Map read `h.tasks[id]` without the flag: the zero value when absent. -/
def Table.getD (tb : Table) (id : String) : task :=
  match tb.get id with
  | some t => t
  | none => task.zero

/-- Map write `h.tasks[id] = t`: replaces the entry of an existing key and adds
an entry for a new one. -/
def Table.set : Table → String → task → Table
  | [], id, t => [(id, t)]
  | (k, v) :: r, id, t => if k = id then (k, t) :: r else (k, v) :: Table.set r id t

/-- The keys of the map. -/
def Table.keys (tb : Table) : List String := tb.map Prod.fst

/-- The handler (`type Handler struct`); the mutex is not a field, every
operation that takes it is one atomic step. -/
structure Handler where
  handlerFunc : String → Option String
  tasks : Table
  errors : List String
  wg : Int

/-- The dependency loop of `tryStart`: `false` as soon as one awaited task is
not done (an awaited id that is not in the map reads as the zero value). -/
def allDone (tb : Table) : List String → Bool
  | [] => true
  | w :: ws => if !(tb.getD w).done then false else allDone tb ws

/-- The method `tryStart`, on the task table: the new table and the result. -/
def tryStart (tb : Table) (id : String) : Table × Bool :=
  match tb.get id with
  | none => (tb, false)
  | some t =>
    if t.done then (tb, false)
    else if t.started then (tb, false)
    else if !allDone tb t.waitFor then (tb, false)
    else (tb.set id { t with started := true }, true)

/-- The method `setDone`, on the task table. -/
def setDone (tb : Table) (id : String) : Table :=
  let q := tb.getD id
  tb.set id { q with done := true }

/-- The inner loop of the constructor over `t.WaitFor`: does the task wait for
its own id. -/
def waitsForItself (t : Task) : Bool :=
  t.WaitFor.any (fun w => decide (t.Id = w))

/-- The first loop of `NewHandler`, with the table, `canStart` and
`waitForItself` as loop state; `Except.error` is the early return of the
duplicate check. -/
def buildTasks : List Task → Table → Bool → List String →
    Except String (Table × Bool × List String)
  | [], tb, canStart, wfi => .ok (tb, canStart, wfi)
  | t :: rest, tb, canStart, wfi =>
    if (tb.get t.Id).isSome then
      .error ("multiple tasks with id '" ++ t.Id ++ "'")
    else if waitsForItself t then
      buildTasks rest tb canStart (wfi ++ [t.Id])
    else
      buildTasks rest (tb.set t.Id ⟨t.WaitFor, t.Skip, t.Skip⟩)
        (if !canStart then (if t.WaitFor.length = 0 then true else canStart) else canStart)
        wfi

/-- The inner loop of the last pass of `NewHandler`: adds to the set
`notExisting` every awaited id that is not a key of the table. -/
def missingOf (tb : Table) : List String → List String → List String
  | [], acc => acc
  | w :: ws, acc =>
    if (tb.get w).isSome then missingOf tb ws acc
    else missingOf tb ws (if w ∈ acc then acc else acc ++ [w])

/-- The last pass of `NewHandler` over the entries of the table. The set
`notExisting` is kept as a duplicate-free list in order of discovery, the
entries being visited in the order of the list (Go leaves both orders open). -/
def notExisting (tb : Table) : List (String × task) → List String → List String
  | [], acc => acc
  | (_, t) :: r, acc => notExisting tb r (missingOf tb t.waitFor acc)

/-- The constructor `NewHandler`: the pair of results `(*Handler, error)`. -/
def NewHandler (handlerFunc : Option (String → Option String)) (tasks : List Task) :
    Option Handler × Option String :=
  match handlerFunc with
  | none => (none, some "no task handlerFunc function provided")
  | some f =>
    match buildTasks tasks [] false [] with
    | .error e => (none, some e)
    | .ok (tb, canStart, waitForItself) =>
      if !canStart then
        (none, some "tasks must include at least one task that has not to wait for other tasks")
      else if waitForItself.length > 0 then
        (none, some ("tasks cannot wit for themselves, please check task(s) '" ++
          String.intercalate "','" waitForItself ++ "'"))
      else
        let ne := notExisting tb tb []
        if ne.length > 0 then
          (none, some ("the following tasks do not exist but are referred to in waitFor of other tasks : " ++
            String.intercalate ", " ne))
        else
          (some ⟨f, tb, [], 0⟩, none)

/-- The table entry the constructor writes for a task. -/
def entryOf (t : Task) : String × task := (t.Id, ⟨t.WaitFor, t.Skip, t.Skip⟩)

/-- The conditions under which the constructor accepts a task list. -/
def WellFormed (ts : List Task) : Prop :=
  (ts.map Task.Id).Nodup ∧
  (∀ t ∈ ts, t.Id ∉ t.WaitFor) ∧
  (∃ t ∈ ts, t.WaitFor = []) ∧
  (∀ t ∈ ts, ∀ w ∈ t.WaitFor, ∃ u ∈ ts, u.Id = w)

/-- The message of the duplicate check. -/
def duplicateMsg (id : String) : String := "multiple tasks with id '" ++ id ++ "'"

/-! ## Runs of the task table

The goroutines reach the table only through the locked methods, so what
happens to the table in a run is a sequence of calls of `tryStart` and
`setDone`, each atomic. -/

/-- A call of one of the two locked methods that write the table. -/
inductive Op where
  | tryStart (id : String)
  | setDone (id : String)
  deriving DecidableEq, Repr

/-- The ids for which `tryStart` returned `true` during a sequence of calls,
in the order of the calls. -/
def startedBy (tb : Table) : List Op → List String
  | [] => []
  | .tryStart id :: ops =>
    if (tryStart tb id).2 then id :: startedBy (tryStart tb id).1 ops
    else startedBy (tryStart tb id).1 ops
  | .setDone id :: ops => startedBy (setDone tb id) ops

/-- The events of a run that change the table: `start id` is a call
`tryStart(id)` that returned `true`, after which `startAllTasks` launches the
unit that invokes the callback for `id`; `finish id` is the call `setDone(id)`
in the deferred function of that unit, after its callback returned. -/
inductive Ev where
  | start (id : String)
  | finish (id : String)
  deriving DecidableEq, Repr

/-- The table together with the ids of the launched units whose `setDone` has
not run yet. -/
structure RState where
  table : Table
  running : List String
  deriving DecidableEq, Repr

/-- One event: `none` when the event cannot occur in the state. -/
def stepR (s : RState) : Ev → Option RState
  | .start id =>
    if (tryStart s.table id).2 then some ⟨(tryStart s.table id).1, id :: s.running⟩ else none
  | .finish id =>
    if id ∈ s.running then some ⟨setDone s.table id, s.running.erase id⟩ else none

/-- A run: the events one after the other. -/
def runR (s : RState) : List Ev → Option RState
  | [] => some s
  | e :: es =>
    match stepR s e with
    | some s' => runR s' es
    | none => none

/-- The state in which `Run` finds the handler. -/
def initR (h : Handler) : RState := ⟨h.tasks, []⟩

/-- No unit is running and `tryStart` would fail for every id. -/
def Drained (s : RState) : Prop :=
  s.running = [] ∧ ∀ id, (tryStart s.table id).2 = false

/-- What holds of the state after a run from the table `tb0` with no unit
running. -/
structure RInv (tb0 : Table) (evs : List Ev) (s : RState) : Prop where
  keys : s.table.keys = tb0.keys
  waitFor : ∀ id, (s.table.getD id).waitFor = (tb0.getD id).waitFor
  started : ∀ id, (s.table.getD id).started =
    ((tb0.getD id).started || decide (Ev.start id ∈ evs))
  done : ∀ id, (s.table.getD id).done = ((tb0.getD id).done || decide (Ev.finish id ∈ evs))
  nodup : s.running.Nodup
  running : ∀ id ∈ s.running, id ∈ tb0.keys ∧ Ev.start id ∈ evs ∧
    (s.table.getD id).done = false
  finished : ∀ id, Ev.finish id ∈ evs → Ev.start id ∈ evs
  idle : ∀ id, Ev.start id ∈ evs → (s.table.getD id).done = false → id ∈ s.running
  fresh : ∀ id, Ev.start id ∈ evs → (tb0.getD id).started = false

/-! ## The goroutines of `Run`

`Run` is executed by the calling goroutine and by one goroutine per launched
task. A state of the run holds the handler and, for each goroutine, the place
in its code where it stands; one step is one access to the handler (or the
launch of a goroutine) by one goroutine, so that a run is an interleaving of
such steps. The accesses that the code makes under the mutex are atomic by the
mutex. Two kinds of access are made without it, and the runs below are those in
which they do not collide:

* `h.errors = append(h.errors, err)` (lines 130 and 138) is one step here; in
  the code two such appends that overlap can lose one of the errors. No claim
  below states that a given error is in the list: what is used of the list is
  whether it is empty, and that its entries are errors of the callback;
* `for id := range h.all()` (line 116) iterates the map itself, `all`
  returning it and not a copy; each iteration is one step here and names the
  key it visits among those still to visit, the order being left to the run.
  When an iteration overlaps a write of the map by another goroutine (line 58
  or 69) the Go runtime aborts the program; `mapRace` describes the states in
  which the write of `setDone` can overlap an iteration, and a step from such
  a state stands for the run in which the two accesses do not overlap.

What is proved of every run is therefore proved of every run of the program up
to such an abort. The callback is a function of the id that returns; `execute`
looks the id up and calls it in one step, the callback having no access to the
handler. -/

/-- The method `execute`: the callback is invoked when the id is a key of the
table. -/
def execute (h : Handler) (id : String) : Option String :=
  match h.tasks.get id with
  | none => some ("task with id '" ++ id ++ "' does not exist")
  | some _ => h.handlerFunc id

/-- A place inside a call of `startAllTasks`: at the head of the loop with the
keys still to visit, before `h.wg.Add(1)` for a task that `tryStart` accepted,
or before the `go` statement for it. -/
inductive Scan where
  | loop (todo : List String)
  | add (id : String) (todo : List String)
  | spawn (id : String) (todo : List String)
  deriving DecidableEq, Repr

/-- A place in the goroutine that `startAllTasks` launches for a task: before
`h.execute`, before recording the error that `execute` returned, before
`h.setDone` in the deferred function, inside the call of `startAllTasks` of the
deferred function, before recording the error that this call returned, after
the `return` that follows that recording, before `h.wg.Done()`, and after the
end that follows `h.wg.Done()`. -/
inductive UnitPc where
  | exec
  | failed (e : String)
  | deferred
  | scan (sc : Scan)
  | report (e : String)
  | stopped
  | signal
  | exited
  deriving DecidableEq, Repr

/-- A launched goroutine: the captured id `idScoped` and where it stands. -/
structure Routine where
  id : String
  pc : UnitPc
  deriving DecidableEq, Repr

/-- A place in `Run`: inside its call of `startAllTasks`, blocked in
`h.wg.Wait()`, or returned with a result. -/
inductive MainPc where
  | scan (sc : Scan)
  | wait
  | returned (r : Option String)
  deriving DecidableEq, Repr

/-- A state of a run of `Run`. -/
structure State where
  h : Handler
  main : MainPc
  units : List Routine

/-- One step inside `startAllTasks`: the handler after the step, the goroutines
it launches, and either the next place in the loop or, past the loop, the value
returned (`h.errors[0]` when the error list is not empty). -/
def scanStep (h : Handler) (sc : Scan) (key : String) :
    Option (Handler × List Routine × (Scan ⊕ Option String)) :=
  match sc with
  | .loop [] => some (h, [], .inr h.errors.head?)
  | .loop (k :: ks) =>
    if key ∈ k :: ks then
      if (tryStart h.tasks key).2 then
        some ({ h with tasks := (tryStart h.tasks key).1 }, [],
          .inl (.add key ((k :: ks).erase key)))
      else
        some ({ h with tasks := (tryStart h.tasks key).1 }, [],
          .inl (.loop ((k :: ks).erase key)))
    else none
  | .add id todo => some ({ h with wg := h.wg + 1 }, [], .inl (.spawn id todo))
  | .spawn id todo => some (h, [⟨id, .exec⟩], .inl (.loop todo))

/-- Who takes a step: the goroutine of `Run` or the launched goroutine number
`i`; `key` is the key visited when the step is a loop iteration. -/
inductive Act where
  | main (key : String)
  | unit (i : Nat) (key : String)
  deriving DecidableEq, Repr

/-- A step of the goroutine of `Run`. -/
def stepMain (s : State) (key : String) : Option State :=
  match s.main with
  | .scan sc =>
    match scanStep s.h sc key with
    | none => none
    | some (h1, new, .inl sc1) => some ⟨h1, .scan sc1, s.units ++ new⟩
    | some (h1, new, .inr (some e)) => some ⟨h1, .returned (some e), s.units ++ new⟩
    | some (h1, new, .inr none) => some ⟨h1, .wait, s.units ++ new⟩
  | .wait => if s.h.wg = 0 then some { s with main := .returned none } else none
  | .returned _ => none

/-- A step of the launched goroutine number `i`. -/
def stepUnit (s : State) (i : Nat) (key : String) : Option State :=
  match s.units[i]? with
  | none => none
  | some u =>
    match u.pc with
    | .exec =>
      match execute s.h u.id with
      | some e => some { s with units := s.units.set i ⟨u.id, .failed e⟩ }
      | none => some { s with units := s.units.set i ⟨u.id, .deferred⟩ }
    | .failed e =>
      some ⟨{ s.h with errors := s.h.errors ++ [e] }, s.main, s.units.set i ⟨u.id, .deferred⟩⟩
    | .deferred =>
      some ⟨{ s.h with tasks := setDone s.h.tasks u.id }, s.main,
        s.units.set i ⟨u.id, .scan (.loop (setDone s.h.tasks u.id).keys)⟩⟩
    | .scan sc =>
      match scanStep s.h sc key with
      | none => none
      | some (h1, new, .inl sc1) => some ⟨h1, s.main, s.units.set i ⟨u.id, .scan sc1⟩ ++ new⟩
      | some (h1, new, .inr (some e)) =>
        some ⟨h1, s.main, s.units.set i ⟨u.id, .report e⟩ ++ new⟩
      | some (h1, new, .inr none) => some ⟨h1, s.main, s.units.set i ⟨u.id, .signal⟩ ++ new⟩
    | .report e =>
      some ⟨{ s.h with errors := s.h.errors ++ [e] }, s.main, s.units.set i ⟨u.id, .stopped⟩⟩
    | .stopped => none
    | .signal =>
      some ⟨{ s.h with wg := s.h.wg - 1 }, s.main, s.units.set i ⟨u.id, .exited⟩⟩
    | .exited => none

/-- One step of a run: `none` when the goroutine cannot move. -/
def step (s : State) : Act → Option State
  | .main key => stepMain s key
  | .unit i key => stepUnit s i key

/-- A run: the steps one after the other. -/
def run (s : State) : List Act → Option State
  | [] => some s
  | a :: as =>
    match step s a with
    | some s1 => run s1 as
    | none => none

/-- The state in which `Run` is called on a handler. -/
def initState (h : Handler) : State := ⟨h, .scan (.loop h.tasks.keys), []⟩

/-- The steps inside `startAllTasks`, as a relation: the end of the loop, an
iteration in which `tryStart` fails, one in which it succeeds, the call of
`h.wg.Add(1)`, and the `go` statement. -/
inductive ScanRel (h : Handler) : Scan → Handler → List Routine → (Scan ⊕ Option String) → Prop
  | fin : ScanRel h (.loop []) h [] (.inr h.errors.head?)
  | skip (todo : List String) (key : String) : key ∈ todo → (tryStart h.tasks key).2 = false →
      ScanRel h (.loop todo) h [] (.inl (.loop (todo.erase key)))
  | start (todo : List String) (key : String) : key ∈ todo → (tryStart h.tasks key).2 = true →
      ScanRel h (.loop todo) { h with tasks := (tryStart h.tasks key).1 } []
        (.inl (.add key (todo.erase key)))
  | add (id : String) (todo : List String) :
      ScanRel h (.add id todo) { h with wg := h.wg + 1 } [] (.inl (.spawn id todo))
  | spawn (id : String) (todo : List String) :
      ScanRel h (.spawn id todo) h [⟨id, .exec⟩] (.inl (.loop todo))

/-- The steps of the goroutine of `Run`, as a relation. -/
inductive MainRel (h : Handler) : MainPc → Handler → MainPc → List Routine → Prop
  | scan (sc sc1 : Scan) (h1 : Handler) (new : List Routine) :
      ScanRel h sc h1 new (.inl sc1) → MainRel h (.scan sc) h1 (.scan sc1) new
  | retErr (sc : Scan) (h1 : Handler) (new : List Routine) (e : String) :
      ScanRel h sc h1 new (.inr (some e)) → MainRel h (.scan sc) h1 (.returned (some e)) new
  | toWait (sc : Scan) (h1 : Handler) (new : List Routine) :
      ScanRel h sc h1 new (.inr none) → MainRel h (.scan sc) h1 .wait new
  | woke : h.wg = 0 → MainRel h .wait h (.returned none) []

/-- The steps of a launched goroutine, as a relation. -/
inductive UnitRel (h : Handler) : Routine → Handler → Routine → List Routine → Prop
  | execErr (id e : String) : execute h id = some e →
      UnitRel h ⟨id, .exec⟩ h ⟨id, .failed e⟩ []
  | execOk (id : String) : execute h id = none → UnitRel h ⟨id, .exec⟩ h ⟨id, .deferred⟩ []
  | record (id e : String) :
      UnitRel h ⟨id, .failed e⟩ { h with errors := h.errors ++ [e] } ⟨id, .deferred⟩ []
  | setDone (id : String) :
      UnitRel h ⟨id, .deferred⟩ { h with tasks := setDone h.tasks id }
        ⟨id, .scan (.loop (Table.keys (Tasks.setDone h.tasks id)))⟩ []
  | scan (id : String) (sc sc1 : Scan) (h1 : Handler) (new : List Routine) :
      ScanRel h sc h1 new (.inl sc1) → UnitRel h ⟨id, .scan sc⟩ h1 ⟨id, .scan sc1⟩ new
  | scanErr (id : String) (sc : Scan) (h1 : Handler) (new : List Routine) (e : String) :
      ScanRel h sc h1 new (.inr (some e)) → UnitRel h ⟨id, .scan sc⟩ h1 ⟨id, .report e⟩ new
  | scanOk (id : String) (sc : Scan) (h1 : Handler) (new : List Routine) :
      ScanRel h sc h1 new (.inr none) → UnitRel h ⟨id, .scan sc⟩ h1 ⟨id, .signal⟩ new
  | report (id e : String) :
      UnitRel h ⟨id, .report e⟩ { h with errors := h.errors ++ [e] } ⟨id, .stopped⟩ []
  | signal (id : String) :
      UnitRel h ⟨id, .signal⟩ { h with wg := h.wg - 1 } ⟨id, .exited⟩ []

/-- One step of a run, as a relation between states. -/
inductive StepRel (s : State) : State → Prop
  | main (h1 : Handler) (m1 : MainPc) (new : List Routine) :
      MainRel s.h s.main h1 m1 new → StepRel s ⟨h1, m1, s.units ++ new⟩
  | unit (i : Nat) (u u1 : Routine) (h1 : Handler) (new : List Routine) :
      s.units[i]? = some u → UnitRel s.h u h1 u1 new →
      StepRel s ⟨h1, s.main, s.units.set i u1 ++ new⟩

/-- The id for which a call of `startAllTasks` has a launch under way. -/
def Scan.pending : Scan → List String
  | .loop _ => []
  | .add id _ => [id]
  | .spawn id _ => [id]

/-- The launches for which `h.wg.Add(1)` was called and the `go` statement was
not yet executed. -/
def Scan.spawning : Scan → Nat
  | .spawn _ _ => 1
  | _ => 0

/-- The count of pending launches at the place where a call of `startAllTasks`
continues, none when it has returned. -/
def outSpawning : (Scan ⊕ Option String) → Nat
  | .inl sc => sc.spawning
  | .inr _ => 0

/-- A sum over the goroutines of a state. -/
def tot (wm : MainPc → Nat) (wu : Routine → Nat) (s : State) : Nat :=
  wm s.main + (s.units.map wu).sum

/-- The share of the goroutine of `Run` in the wait counter. -/
def wgMain : MainPc → Nat
  | .scan sc => sc.spawning
  | _ => 0

/-- The share of a launched goroutine in the wait counter: one until it has
called `h.wg.Done()`, and one more for a launch it has counted. -/
def wgUnit (u : Routine) : Nat :=
  match u.pc with
  | .exited => 0
  | .scan sc => 1 + sc.spawning
  | _ => 1

/-- What holds of every state of a run of a handler with callback `f` and
initial table `tb0`. -/
structure Inv (f : String → Option String) (tb0 : Table) (s : State) : Prop where
  func : s.h.handlerFunc = f
  keys : s.h.tasks.keys = tb0.keys
  waitFor : ∀ id, (s.h.tasks.getD id).waitFor = (tb0.getD id).waitFor
  unitKeys : ∀ u ∈ s.units, u.id ∈ tb0.keys ∧
    ∀ sc, u.pc = .scan sc → ∀ id ∈ sc.pending, id ∈ tb0.keys
  mainKeys : ∀ sc, s.main = .scan sc → ∀ id ∈ sc.pending, id ∈ tb0.keys
  wg : s.h.wg = (tot wgMain wgUnit s : Nat)
  failed : ∀ u ∈ s.units, ∀ e, u.pc = .failed e → f u.id = some e
  errs : ∀ e ∈ s.h.errors, ∃ id, f id = some e
  report : ∀ u ∈ s.units, ∀ e, u.pc = .report e → e ∈ s.h.errors
  mainret : ∀ e, s.main = .returned (some e) → e ∈ s.h.errors
  stopped : ∀ u ∈ s.units, u.pc = .stopped → s.h.errors ≠ []

/-- The number of steps a launched goroutine takes at most, in a table of `n`
keys, not counting the goroutines it launches. -/
def unitCost (n : Nat) : Nat := 3 * n + 5

/-- The steps left in a call of `startAllTasks`, with the cost of the launch
under way. -/
def costScan (n : Nat) : Scan → Nat
  | .loop todo => 3 * todo.length + 1
  | .add _ todo => 3 * todo.length + 3 + unitCost n
  | .spawn _ todo => 3 * todo.length + 2 + unitCost n

/-- The steps left to the goroutine of `Run`. -/
def costMain (n : Nat) : MainPc → Nat
  | .scan sc => costScan n sc + 1
  | .wait => 1
  | .returned _ => 0

/-- The steps left to a launched goroutine. -/
def costUnit (n : Nat) (u : Routine) : Nat :=
  match u.pc with
  | .exec => unitCost n
  | .failed _ => 3 * n + 4
  | .deferred => 3 * n + 3
  | .scan sc => costScan n sc + 1
  | .report _ => 1
  | .stopped => 0
  | .signal => 1
  | .exited => 0

/-- The steps left where a call of `startAllTasks` continues. -/
def costOut (n : Nat) : (Scan ⊕ Option String) → Nat
  | .inl sc => costScan n sc + 1
  | .inr _ => 1

/-- The number of entries of the table that are not started. -/
def notStarted : Table → Nat
  | [] => 0
  | (_, t) :: r => (if t.started then 0 else 1) + notStarted r

/-- A bound on the number of steps left in a run: the steps left to the
goroutines there are and to those still to be launched. -/
def potential (n : Nat) (s : State) : Nat :=
  unitCost n * notStarted s.h.tasks + tot (costMain n) (costUnit n) s

/-- Whether a call of `startAllTasks` has a launch of `id` under way. -/
def Scan.owns (id : String) (sc : Scan) : Nat :=
  if id ∈ sc.pending then 1 else 0

/-- The launches of `id` under way where a call of `startAllTasks` continues. -/
def outOwns (id : String) : (Scan ⊕ Option String) → Nat
  | .inl sc => sc.owns id
  | .inr _ => 0

/-- The launches of `id` under way in the goroutine of `Run`. -/
def ownMain (id : String) : MainPc → Nat
  | .scan sc => sc.owns id
  | _ => 0

/-- The launches of `id` under way in a launched goroutine, if it is in a call
of `startAllTasks`. -/
def pcOwns (id : String) : UnitPc → Nat
  | .scan sc => sc.owns id
  | _ => 0

/-- A launched goroutine stands before the end of its call of `setDone`. -/
def UnitPc.early : UnitPc → Bool
  | .exec => true
  | .failed _ => true
  | .deferred => true
  | _ => false

/-- What a launched goroutine counts for `id`: one if it is the goroutine of
`id`, and the launch of `id` it has under way. -/
def ownUnit (id : String) (u : Routine) : Nat :=
  (if u.id = id then 1 else 0) + pcOwns id u.pc

/-- What a launched goroutine counts for `id` as long as `setDone(id)` has not
run. -/
def preUnit (id : String) (u : Routine) : Nat :=
  (if u.id = id ∧ u.pc.early = true then 1 else 0) + pcOwns id u.pc

/-- What holds, in addition to `Inv`, of every state of a run: a task has at
most one goroutine or launch under way, it is started when it has one and not
done as long as its `setDone` has not run, it is done afterwards, and, the
appends being single steps here, an error of its callback is in the error list
once it was recorded (of which only that the list is then not empty is used in
the claims). -/
structure Inv2 (f : String → Option String) (s : State) : Prop where
  own : ∀ id, tot (ownMain id) (ownUnit id) s ≤ 1 ∧
    (1 ≤ tot (ownMain id) (ownUnit id) s → (s.h.tasks.getD id).started = true)
  pre : ∀ id, 1 ≤ tot (ownMain id) (preUnit id) s → (s.h.tasks.getD id).done = false
  post : ∀ u ∈ s.units, u.pc.early = false → (s.h.tasks.getD u.id).done = true
  recorded : ∀ u ∈ s.units, ∀ e, f u.id = some e → u.pc ≠ .exec → (∀ e1, u.pc ≠ .failed e1) →
    e ∈ s.h.errors

/-! ## Sample inputs -/

/-- The ids for which the callback was invoked during a run, in the order of
the invocations. -/
def startsOf : List Ev → List String
  | [] => []
  | .start id :: es => id :: startsOf es
  | .finish _ :: es => startsOf es

/-- The chain of three tasks: `b` waits for `a` and `c` waits for `b`. -/
def chainTasks (a b c : String) : List Task :=
  [⟨a, [], false⟩, ⟨b, [a], false⟩, ⟨c, [b], false⟩]

/-- A root and two tasks that wait for each other. -/
def cyclicTasks : List Task :=
  [⟨"A", [], false⟩, ⟨"B", ["C"], false⟩, ⟨"C", ["B"], false⟩]



/-- A task list of three tasks: a root, a dependent task and a skipped one. -/
def sampleTasks : List Task :=
  [⟨"A", [], false⟩, ⟨"B", ["A"], false⟩, ⟨"S", ["A"], true⟩]

/-- A callback that succeeds on every id. -/
def okFunc : String → Option String := fun _ => none

/-- The chain `A`, `B`, `C` after `A` was started and has finished. -/
def chainAfterA : RState :=
  ⟨[("A", ⟨[], true, true⟩), ("B", ⟨["A"], false, false⟩), ("C", ⟨["B"], false, false⟩)], []⟩

/-- The cyclic task list after `A` was started and has finished. -/
def cyclicAfterA : RState :=
  ⟨[("A", ⟨[], true, true⟩), ("B", ⟨["C"], false, false⟩), ("C", ⟨["B"], false, false⟩)], []⟩

/-- The sample task list after `A` was started and has finished, `B` was started
and has finished. -/
def sampleAtEnd : RState :=
  ⟨[("A", ⟨[], true, true⟩), ("B", ⟨["A"], true, true⟩), ("S", ⟨["A"], true, true⟩)], []⟩

/-- A callback that fails on the id `A` and succeeds on every other id. -/
def failOnA : String → Option String := fun id => if id = "A" then some "boom" else none

/-- A root `A` and a task `B` that waits for it. -/
def pairTasks : List Task := [⟨"A", [], false⟩, ⟨"B", ["A"], false⟩]

/-- A complete run of `Run` on the pair `A`, `B`: the goroutine of `Run` starts
`A` and then waits, the goroutine of `A` starts `B`, and both signal. -/
def pairActs : List Act :=
  [.main "A", .main "", .main "", .main "B", .main "",
   .unit 0 "", .unit 0 "", .unit 0 "A", .unit 0 "B", .unit 0 "", .unit 0 "", .unit 0 "",
   .unit 0 "",
   .unit 1 "", .unit 1 "", .unit 1 "B", .unit 1 "A", .unit 1 "", .unit 1 "",
   .main ""]

/-- The state at the end of `pairActs`. -/
def pairDone : State :=
  ⟨⟨okFunc, [("A", ⟨[], true, true⟩), ("B", ⟨["A"], true, true⟩)], [], 0⟩,
    .returned none, [⟨"A", .exited⟩, ⟨"B", .exited⟩]⟩

/-- A run on the pair `A`, `B` with the callback that fails on `A`: `A` is
launched, its callback fails, the error is recorded, and the deferred `setDone`
runs. -/
def pairFailActs : List Act :=
  [.main "A", .main "", .main "", .unit 0 "", .unit 0 "", .unit 0 ""]

/-- The state at the end of `pairFailActs`. -/
def pairFailed : State :=
  ⟨⟨failOnA, [("A", ⟨[], true, true⟩), ("B", ⟨["A"], false, false⟩)], ["boom"], 1⟩,
    .scan (.loop ["B"]), [⟨"A", .scan (.loop ["A", "B"])⟩]⟩

/-- The state after `pairFailActs` but for its last step. -/
def pairFailing : State :=
  ⟨⟨failOnA, [("A", ⟨[], true, false⟩), ("B", ⟨["A"], false, false⟩)], ["boom"], 1⟩,
    .scan (.loop ["B"]), [⟨"A", .deferred⟩]⟩

/-- The continuation of `pairFailActs` in which the goroutine of `A` launches
`B` and the callback of `B` runs. -/
def pairFailMore : List Act :=
  [.unit 0 "B", .unit 0 "", .unit 0 "", .unit 1 ""]

/-- The state at the end of `pairFailActs ++ pairFailMore`. -/
def pairFailedB : State :=
  ⟨⟨failOnA, [("A", ⟨[], true, true⟩), ("B", ⟨["A"], true, false⟩)], ["boom"], 2⟩,
    .scan (.loop ["B"]), [⟨"A", .scan (.loop ["A"])⟩, ⟨"B", .deferred⟩]⟩

/-- A complete run on the single task `A` with the callback that fails on `A`:
`Run` reaches `Wait`, then the callback fails. -/
def soloActs : List Act :=
  [.main "A", .main "", .main "", .main "",
   .unit 0 "", .unit 0 "", .unit 0 "", .unit 0 "A", .unit 0 "", .unit 0 ""]

/-- The state at the end of `soloActs`. -/
def soloStuck : State :=
  ⟨⟨failOnA, [("A", ⟨[], true, true⟩)], ["boom", "boom"], 1⟩, .wait, [⟨"A", .stopped⟩]⟩

/-! ## The messages of the constructor -/

/-- The error of the constructor when no task can start. -/
def noRootMsg : String :=
  "tasks must include at least one task that has not to wait for other tasks"

/-- The error of the constructor for tasks that wait for themselves. -/
def selfWaitMsg (ids : List String) : String :=
  "tasks cannot wit for themselves, please check task(s) '" ++
    String.intercalate "','" ids ++ "'"

/-- The error of the constructor for awaited ids that are not tasks. -/
def missingMsg (ids : List String) : String :=
  "the following tasks do not exist but are referred to in waitFor of other tasks : " ++
    String.intercalate ", " ids

/-- Some task has the id of an earlier task that does not wait for itself,
that is, of an earlier task that the first loop of the constructor inserted. -/
def DupInserted (ts : List Task) : Prop :=
  ∃ pre t1 mid t2 post, ts = pre ++ t1 :: (mid ++ t2 :: post) ∧ t1.Id = t2.Id ∧
    t1.Id ∉ t1.WaitFor

/-! ## More sample inputs -/

/-- A root `A`, a skipped task `S` that waits for `A`, and `B` that waits for
`S`. -/
def skipTasks : List Task :=
  [⟨"A", [], false⟩, ⟨"S", ["A"], true⟩, ⟨"B", ["S"], false⟩]

/-- A run on `skipTasks`: `Run` launches `A` and `B`, and the callback of `B`
runs. -/
def skipActs : List Act :=
  [.main "A", .main "", .main "", .main "B", .main "", .main "", .unit 1 ""]

/-- The state at the end of `skipActs`. -/
def skipState : State :=
  ⟨⟨okFunc, [("A", ⟨[], true, false⟩), ("S", ⟨["A"], true, true⟩),
      ("B", ⟨["S"], true, false⟩)], [], 2⟩,
    .scan (.loop ["S"]), [⟨"A", .exec⟩, ⟨"B", .deferred⟩]⟩

/-- Two roots `A` and `D`. -/
def rootsTasks : List Task := [⟨"A", [], false⟩, ⟨"D", [], false⟩]

/-- A run on `rootsTasks` with the callback that fails on `A`: `Run` launches
both tasks and reaches `Wait`, and the callback of `A` returns its error. -/
def rootsActs : List Act :=
  [.main "A", .main "", .main "", .main "D", .main "", .main "", .main "", .unit 0 ""]

/-- The state at the end of `rootsActs`. -/
def rootsFailed : State :=
  ⟨⟨failOnA, [("A", ⟨[], true, false⟩), ("D", ⟨[], true, false⟩)], [], 2⟩,
    .wait, [⟨"A", .failed "boom"⟩, ⟨"D", .exec⟩]⟩

/-- The continuation of `rootsActs` in which the goroutine of `D` runs up to
`h.wg.Done()` and the goroutine of `A` records its error. -/
def rootsMore : List Act :=
  [.unit 1 "", .unit 1 "", .unit 1 "A", .unit 1 "D", .unit 1 "", .unit 0 ""]

/-- The state at the end of `rootsActs ++ rootsMore`. -/
def rootsRecorded : State :=
  ⟨⟨failOnA, [("A", ⟨[], true, false⟩), ("D", ⟨[], true, true⟩)], ["boom"], 2⟩,
    .wait, [⟨"A", .deferred⟩, ⟨"D", .signal⟩]⟩

/-- The state after the next step of the goroutine of `D`. -/
def rootsAfter : State :=
  ⟨⟨failOnA, [("A", ⟨[], true, false⟩), ("D", ⟨[], true, true⟩)], ["boom"], 1⟩,
    .wait, [⟨"A", .deferred⟩, ⟨"D", .exited⟩]⟩

/-! ## The unlocked range over the map -/

/-- The place of a call of `startAllTasks` is the head of the `range` of line
116: the next step reads the map through its iterator, without the mutex. -/
def Scan.atRange : Scan → Bool
  | .loop _ => true
  | _ => false

/-- A launched goroutine is about to write the map in `setDone` (line 69) while
another goroutine, that of `Run` or a launched one, stands at the head of its
`range` over the same map (line 116). The write takes the mutex and the
iteration does not, so that nothing orders the two accesses. -/
def mapRace (s : State) : Prop :=
  ∃ (j : Nat) (u : Routine), s.units[j]? = some u ∧ u.pc = UnitPc.deferred ∧
    ((∃ sc : Scan, s.main = MainPc.scan sc ∧ sc.atRange = true) ∨
     ∃ (i : Nat) (v : Routine) (sc : Scan), i ≠ j ∧ s.units[i]? = some v ∧
       v.pc = UnitPc.scan sc ∧ sc.atRange = true)

/-- A run on `rootsTasks` with the callback that succeeds: `Run` launches `A`
and is at the head of its loop with `D` still to visit, and the callback of `A`
has returned. -/
def rootsRaceActs : List Act :=
  [.main "A", .main "", .main "", .unit 0 ""]

/-- The state at the end of `rootsRaceActs`. -/
def rootsRacing : State :=
  ⟨⟨okFunc, [("A", ⟨[], true, false⟩), ("D", ⟨[], false, false⟩)], [], 1⟩,
    .scan (.loop ["D"]), [⟨"A", .deferred⟩]⟩

/-! ## The task table -/

theorem Table.get_isSome_iff (tb : Table) (id : String) :
    (tb.get id).isSome ↔ id ∈ tb.keys := by
  induction tb with
  | nil => simp [Table.get, Table.keys]
  | cons e r ih =>
    obtain ⟨k, v⟩ := e
    by_cases h : k = id
    · simp [Table.get, Table.keys, h]
    · have h2 : ¬ id = k := fun e => h e.symm
      simp [Table.get, Table.keys, h, h2] at ih ⊢
      exact ih

theorem Table.get_eq_none_iff (tb : Table) (id : String) :
    tb.get id = none ↔ id ∉ tb.keys := by
  rw [← Table.get_isSome_iff]
  cases tb.get id <;> simp

theorem Table.get_set (tb : Table) (id : String) (t : task) (j : String) :
    (tb.set id t).get j = if id = j then some t else tb.get j := by
  induction tb with
  | nil => simp [Table.set, Table.get]
  | cons e r ih =>
    obtain ⟨k, v⟩ := e
    by_cases h : k = id
    · subst h
      by_cases hj : k = j <;> simp [Table.set, Table.get, hj]
    · by_cases hj : k = j
      · subst hj
        have h2 : ¬ id = k := fun e => h e.symm
        simp [Table.set, Table.get, h, h2]
      · simp [Table.set, Table.get, h, hj, ih]

theorem Table.keys_set_of_mem (tb : Table) (id : String) (t : task) (h : id ∈ tb.keys) :
    (tb.set id t).keys = tb.keys := by
  induction tb with
  | nil => simp [Table.keys] at h
  | cons e r ih =>
    obtain ⟨k, v⟩ := e
    by_cases hk : k = id
    · simp [Table.set, Table.keys, hk]
    · have : id ∈ Table.keys r := by
        simp [Table.keys] at h ⊢
        rcases h with h | h
        · exact absurd h.symm hk
        · exact h
      simp [Table.set, hk]
      simpa [Table.keys] using ih this

theorem Table.set_of_not_mem (tb : Table) (id : String) (t : task) (h : id ∉ tb.keys) :
    tb.set id t = tb ++ [(id, t)] := by
  induction tb with
  | nil => simp [Table.set]
  | cons e r ih =>
    obtain ⟨k, v⟩ := e
    simp [Table.keys] at h
    have hk : ¬ k = id := fun e => h.1 e.symm
    simp [Table.set, hk]
    exact ih (by simpa [Table.keys] using h.2)

theorem Table.getD_set (tb : Table) (id : String) (t : task) (j : String) :
    (tb.set id t).getD j = if id = j then t else tb.getD j := by
  unfold Table.getD
  rw [Table.get_set]
  by_cases h : id = j <;> simp [h]

/-! ## The constructor -/

theorem waitsForItself_iff (t : Task) : waitsForItself t = true ↔ t.Id ∈ t.WaitFor := by
  simp [waitsForItself, List.any_eq_true]

theorem waitsForItself_eq_false_iff (t : Task) :
    waitsForItself t = false ↔ t.Id ∉ t.WaitFor := by
  rw [← waitsForItself_iff]
  cases waitsForItself t <;> simp

theorem canStart_update (cs : Bool) (l : List String) :
    (if !cs then (if l.length = 0 then true else cs) else cs) = (cs || decide (l = [])) := by
  cases cs <;> cases l <;> simp

theorem buildTasks_ok_wfi (ts : List Task) (tb : Table) (cs : Bool) (wfi : List String)
    (r : Table × Bool × List String) (h : buildTasks ts tb cs wfi = .ok r) :
    r.2.2 = wfi ++ (ts.filter waitsForItself).map Task.Id := by
  induction ts generalizing tb cs wfi with
  | nil =>
    simp [buildTasks] at h
    subst h
    simp
  | cons t rest ih =>
    unfold buildTasks at h
    by_cases h1 : (tb.get t.Id).isSome
    · simp [h1] at h
    · by_cases h2 : waitsForItself t
      · simp only [h1, h2, if_true, if_false] at h
        rw [ih _ _ _ h]
        simp [h2]
      · simp only [h1, h2, if_false] at h
        rw [ih _ _ _ h]
        simp [h2]

theorem buildTasks_ok_noself (ts : List Task) (tb : Table) (cs : Bool) (wfi : List String)
    (r : Table × Bool × List String) (hs : ∀ t ∈ ts, waitsForItself t = false)
    (h : buildTasks ts tb cs wfi = .ok r) :
    r.1 = tb ++ ts.map entryOf ∧
    r.2.1 = (cs || ts.any (fun t => decide (t.WaitFor = []))) ∧
    (∀ t ∈ ts, t.Id ∉ tb.keys) ∧ (ts.map Task.Id).Nodup := by
  induction ts generalizing tb cs wfi with
  | nil =>
    simp [buildTasks] at h
    subst h
    simp
  | cons t rest ih =>
    unfold buildTasks at h
    have ht : waitsForItself t = false := hs t (by simp)
    by_cases h1 : (tb.get t.Id).isSome
    · simp [h1] at h
    · simp only [h1, ht, if_false, Bool.false_eq_true, canStart_update] at h
      have hk : t.Id ∉ tb.keys := by rwa [← Table.get_isSome_iff]
      rw [Table.set_of_not_mem _ _ _ hk] at h
      obtain ⟨e1, e2, e3, e4⟩ := ih _ _ _ (fun x hx => hs x (by simp [hx])) h
      refine ⟨?_, ?_, ?_, ?_⟩
      · rw [e1]; simp [entryOf]
      · rw [e2]; simp [Bool.or_assoc]
      · intro x hx
        simp at hx
        rcases hx with rfl | hx
        · exact hk
        · have := e3 x hx
          simp [Table.keys] at this ⊢
          exact fun a => (this).1 a
      · simp only [List.map_cons, List.nodup_cons]
        refine ⟨?_, e4⟩
        intro hmem
        simp at hmem
        obtain ⟨x, hx, hxe⟩ := hmem
        have := e3 x hx
        simp [Table.keys, hxe] at this

theorem buildTasks_good (ts : List Task) (tb : Table) (cs : Bool) (wfi : List String)
    (hs : ∀ t ∈ ts, waitsForItself t = false)
    (hk : ∀ t ∈ ts, t.Id ∉ tb.keys) (hn : (ts.map Task.Id).Nodup) :
    buildTasks ts tb cs wfi =
      .ok (tb ++ ts.map entryOf, (cs || ts.any (fun t => decide (t.WaitFor = []))), wfi) := by
  induction ts generalizing tb cs wfi with
  | nil => simp [buildTasks]
  | cons t rest ih =>
    unfold buildTasks
    have ht : waitsForItself t = false := hs t (by simp)
    have hkt : t.Id ∉ tb.keys := hk t (by simp)
    have h1 : ¬ (tb.get t.Id).isSome = true := by rwa [Table.get_isSome_iff]
    simp only [h1, ht, if_false, Bool.false_eq_true, canStart_update]
    rw [Table.set_of_not_mem _ _ _ hkt]
    simp only [List.map_cons, List.nodup_cons] at hn
    rw [ih _ _ _ (fun x hx => hs x (by simp [hx]))]
    · simp [entryOf, Bool.or_assoc]
    · intro x hx
      have h3 := hk x (by simp [hx])
      simp [Table.keys] at h3 ⊢
      refine ⟨h3, ?_⟩
      intro e
      apply hn.1
      simp
      exact ⟨x, hx, e⟩
    · exact hn.2

theorem missingOf_eq_of_present (tb : Table) (ws acc : List String)
    (h : ∀ w ∈ ws, w ∈ tb.keys) : missingOf tb ws acc = acc := by
  induction ws generalizing acc with
  | nil => rfl
  | cons w ws ih =>
    have hw : (tb.get w).isSome = true := (Table.get_isSome_iff tb w).2 (h w (by simp))
    simp [missingOf, hw]
    exact ih _ (fun x hx => h x (by simp [hx]))

theorem subset_missingOf (tb : Table) (ws acc : List String) :
    ∀ x ∈ acc, x ∈ missingOf tb ws acc := by
  induction ws generalizing acc with
  | nil => intro x hx; exact hx
  | cons w ws ih =>
    intro x hx
    unfold missingOf
    split
    · exact ih _ x hx
    · apply ih
      split
      · exact hx
      · simp [hx]

theorem mem_missingOf (tb : Table) (ws acc : List String) (w : String)
    (hw : w ∈ ws) (hk : w ∉ tb.keys) : w ∈ missingOf tb ws acc := by
  induction ws generalizing acc with
  | nil => simp at hw
  | cons v ws ih =>
    unfold missingOf
    simp at hw
    rcases hw with rfl | hw
    · have : ¬ (tb.get w).isSome = true := by rwa [Table.get_isSome_iff]
      simp only [this, if_false, Bool.false_eq_true]
      apply subset_missingOf
      split
      · assumption
      · simp
    · split
      · exact ih _ hw
      · exact ih _ hw

theorem subset_notExisting (tb : Table) (l : List (String × task)) (acc : List String) :
    ∀ x ∈ acc, x ∈ notExisting tb l acc := by
  induction l generalizing acc with
  | nil => intro x hx; exact hx
  | cons e r ih =>
    obtain ⟨k, t⟩ := e
    intro x hx
    exact ih _ x (subset_missingOf tb _ _ x hx)

theorem mem_notExisting (tb : Table) (l : List (String × task)) (acc : List String)
    (e : String × task) (he : e ∈ l) (w : String) (hw : w ∈ e.2.waitFor)
    (hk : w ∉ tb.keys) : w ∈ notExisting tb l acc := by
  induction l generalizing acc with
  | nil => simp at he
  | cons e1 r ih =>
    obtain ⟨k, t⟩ := e1
    simp at he
    rcases he with rfl | he
    · exact subset_notExisting tb r _ w (mem_missingOf tb _ _ w hw hk)
    · exact ih _ he

theorem notExisting_eq_of_present (tb : Table) (l : List (String × task)) (acc : List String)
    (h : ∀ e ∈ l, ∀ w ∈ e.2.waitFor, w ∈ tb.keys) : notExisting tb l acc = acc := by
  induction l generalizing acc with
  | nil => rfl
  | cons e r ih =>
    obtain ⟨k, t⟩ := e
    simp only [notExisting]
    rw [missingOf_eq_of_present tb _ _ (h (k, t) (by simp))]
    exact ih _ (fun e he => h e (by simp [he]))

theorem keys_map_entryOf (ts : List Task) :
    Table.keys (ts.map entryOf) = ts.map Task.Id := by
  simp [Table.keys, entryOf]

theorem NewHandler_of_wellFormed (f : String → Option String) (ts : List Task)
    (h : WellFormed ts) :
    NewHandler (some f) ts = (some ⟨f, ts.map entryOf, [], 0⟩, none) := by
  obtain ⟨h1, h2, h3, h4⟩ := h
  have hb := buildTasks_good ts [] false []
    (fun t ht => (waitsForItself_eq_false_iff t).2 (h2 t ht)) (by simp [Table.keys]) h1
  have hcs : ts.any (fun t => decide (t.WaitFor = [])) = true := by
    obtain ⟨t, ht, he⟩ := h3
    simp only [List.any_eq_true]
    exact ⟨t, ht, by simp [he]⟩
  have hne : notExisting (ts.map entryOf) (ts.map entryOf) [] = [] := by
    apply notExisting_eq_of_present
    intro e he w hw
    rw [keys_map_entryOf]
    simp at he
    obtain ⟨t, ht, rfl⟩ := he
    obtain ⟨u, hu, rfl⟩ := h4 t ht w hw
    simp
    exact ⟨u, hu, rfl⟩
  simp [NewHandler, hb, hcs, hne]

theorem wellFormed_of_NewHandler (f : Option (String → Option String)) (ts : List Task)
    (h : Handler) (e : Option String) (hr : NewHandler f ts = (some h, e)) :
    WellFormed ts ∧ e = none ∧ ∃ g, f = some g ∧ h = ⟨g, ts.map entryOf, [], 0⟩ := by
  unfold NewHandler at hr
  cases f with
  | none => simp at hr
  | some g =>
    simp only at hr
    cases hb : buildTasks ts [] false [] with
    | error e => simp [hb] at hr
    | ok r =>
      obtain ⟨tb, cs, wfi⟩ := r
      simp only [hb] at hr
      by_cases hcs : cs = true
      swap
      · simp [hcs] at hr
      by_cases hw : wfi.length > 0
      · simp [hcs, hw] at hr
      by_cases hne : (notExisting tb tb []).length > 0
      · simp [hcs, hw, hne] at hr
      simp only [hcs, hw, hne, if_false, Bool.not_true, Bool.false_eq_true] at hr
      have hwfi := buildTasks_ok_wfi _ _ _ _ _ hb
      simp only [List.nil_append] at hwfi
      have hw0 : wfi = [] := by
        cases wfi with
        | nil => rfl
        | cons a l => simp at hw
      rw [hw0] at hwfi
      have hs : ∀ t ∈ ts, waitsForItself t = false := by
        intro t ht
        by_contra hc
        have hc2 : waitsForItself t = true := by simpa using hc
        have : t.Id ∈ (ts.filter waitsForItself).map Task.Id := by
          simp
          exact ⟨t, ⟨ht, hc2⟩, rfl⟩
        rw [← hwfi] at this
        simp at this
      obtain ⟨e1, e2, _, e4⟩ := buildTasks_ok_noself _ _ _ _ _ hs hb
      simp only [List.nil_append, Bool.false_or] at e1 e2
      have hne0 : notExisting tb tb [] = [] := by
        cases hx : notExisting tb tb [] with
        | nil => rfl
        | cons a l => simp [hx] at hne
      refine ⟨⟨e4, ?_, ?_, ?_⟩, ?_, g, rfl, ?_⟩
      · intro t ht
        exact (waitsForItself_eq_false_iff t).1 (hs t ht)
      · rw [hcs] at e2
        have := e2.symm
        simp only [List.any_eq_true] at this
        obtain ⟨t, ht, he⟩ := this
        exact ⟨t, ht, by simpa using he⟩
      · intro t ht w hw2
        by_contra hc
        have hk : w ∉ tb.keys := by
          rw [e1, keys_map_entryOf]
          simp
          intro u hu he
          exact hc ⟨u, hu, he⟩
        have := mem_notExisting tb tb [] (entryOf t) (by rw [e1]; simp; exact ⟨t, ht, rfl⟩) w
          (by simpa [entryOf] using hw2) hk
        rw [hne0] at this
        simp at this
      · simp at hr
        exact hr.2.symm
      · simp at hr
        rw [← hr.1, e1]

theorem Table.mem_keys_set (tb : Table) (id : String) (t : task) (j : String) :
    j ∈ (tb.set id t).keys ↔ j = id ∨ j ∈ tb.keys := by
  rw [← Table.get_isSome_iff, ← Table.get_isSome_iff, Table.get_set]
  by_cases h : id = j
  · simp [h]
  · have h2 : ¬ j = id := fun e => h e.symm
    simp [h, h2]

theorem get_map_entryOf (ts : List Task) (hn : (ts.map Task.Id).Nodup) (t : Task)
    (ht : t ∈ ts) : Table.get (ts.map entryOf) t.Id = some ⟨t.WaitFor, t.Skip, t.Skip⟩ := by
  induction ts with
  | nil => simp at ht
  | cons x rest ih =>
    simp only [List.map_cons, List.nodup_cons] at hn
    simp at ht
    rcases ht with rfl | ht
    · simp [Table.get, entryOf]
    · have hne : ¬ x.Id = t.Id := by
        intro e
        apply hn.1
        rw [e]
        exact List.mem_map_of_mem _ ht
      simp only [List.map_cons, Table.get, entryOf, hne, if_false]
      exact ih hn.2 ht

theorem NewHandler_cases (f : Option (String → Option String)) (ts : List Task) :
    (∃ h, NewHandler f ts = (some h, none)) ∨ (∃ e, NewHandler f ts = (none, some e)) := by
  unfold NewHandler
  cases f with
  | none => exact Or.inr ⟨_, rfl⟩
  | some g =>
    simp only
    cases buildTasks ts [] false [] with
    | error e => exact Or.inr ⟨_, rfl⟩
    | ok r =>
      obtain ⟨tb, cs, wfi⟩ := r
      simp only
      split
      · exact Or.inr ⟨_, rfl⟩
      · split
        · exact Or.inr ⟨_, rfl⟩
        · split
          · exact Or.inr ⟨_, rfl⟩
          · exact Or.inl ⟨_, rfl⟩

theorem buildTasks_error_names (ts : List Task) (tb : Table) (cs : Bool) (wfi : List String)
    (e : String) (h : buildTasks ts tb cs wfi = .error e) :
    ∃ id, e = duplicateMsg id ∧
      ((id ∈ tb.keys ∧ 1 ≤ (ts.map Task.Id).count id) ∨ 2 ≤ (ts.map Task.Id).count id) := by
  induction ts generalizing tb cs wfi with
  | nil => simp [buildTasks] at h
  | cons t rest ih =>
    unfold buildTasks at h
    by_cases h1 : (tb.get t.Id).isSome
    · simp only [h1, if_true] at h
      refine ⟨t.Id, ?_, Or.inl ⟨(Table.get_isSome_iff _ _).1 h1, ?_⟩⟩
      · cases h; rfl
      · simp
    · by_cases h2 : waitsForItself t
      · simp only [h1, h2, if_true, if_false] at h
        obtain ⟨id, he, hc⟩ := ih _ _ _ h
        refine ⟨id, he, ?_⟩
        simp only [List.map_cons, List.count_cons]
        rcases hc with ⟨hk, hc⟩ | hc
        · exact Or.inl ⟨hk, by omega⟩
        · exact Or.inr (by omega)
      · simp only [h1, h2, if_false] at h
        obtain ⟨id, he, hc⟩ := ih _ _ _ h
        refine ⟨id, he, ?_⟩
        simp only [List.map_cons, List.count_cons]
        rcases hc with ⟨hk, hc⟩ | hc
        · rw [Table.mem_keys_set] at hk
          rcases hk with rfl | hk
          · right
            simp only [beq_self_eq_true, if_true]
            omega
          · exact Or.inl ⟨hk, by omega⟩
        · exact Or.inr (by omega)

theorem buildTasks_error_of_dup (ts : List Task) (tb : Table) (cs : Bool) (wfi : List String)
    (h : (∃ t ∈ ts, t.Id ∈ tb.keys) ∨
      (∃ pre t1 mid t2 post, ts = pre ++ t1 :: (mid ++ t2 :: post) ∧ t1.Id = t2.Id ∧
        t1.Id ∉ t1.WaitFor)) :
    ∃ e, buildTasks ts tb cs wfi = .error e := by
  induction ts generalizing tb cs wfi with
  | nil =>
    rcases h with ⟨t, ht, _⟩ | ⟨pre, t1, mid, t2, post, he, _⟩
    · simp at ht
    · simp at he
  | cons t rest ih =>
    unfold buildTasks
    by_cases h1 : (tb.get t.Id).isSome
    · simp [h1]
    · have hk : t.Id ∉ tb.keys := by rwa [← Table.get_isSome_iff]
      by_cases h2 : waitsForItself t
      · simp only [h1, h2, if_true, if_false]
        apply ih
        rcases h with ⟨x, hx, hxk⟩ | ⟨pre, t1, mid, t2, post, he, hid, hns⟩
        · left
          simp at hx
          rcases hx with rfl | hx
          · exact absurd hxk hk
          · exact ⟨x, hx, hxk⟩
        · right
          cases pre with
          | nil =>
            simp at he
            obtain ⟨rfl, _⟩ := he
            exact absurd ((waitsForItself_iff t).1 h2) hns
          | cons p pre =>
            simp at he
            exact ⟨pre, t1, mid, t2, post, by simp [he.2], hid, hns⟩
      · simp only [h1, h2, if_false]
        apply ih
        rcases h with ⟨x, hx, hxk⟩ | ⟨pre, t1, mid, t2, post, he, hid, hns⟩
        · left
          simp at hx
          rcases hx with rfl | hx
          · exact absurd hxk hk
          · exact ⟨x, hx, (Table.mem_keys_set _ _ _ _).2 (Or.inr hxk)⟩
        · cases pre with
          | nil =>
            simp at he
            obtain ⟨rfl, hr⟩ := he
            left
            refine ⟨t2, by simp [hr], (Table.mem_keys_set _ _ _ _).2 (Or.inl hid.symm)⟩
          | cons p pre =>
            simp at he
            right
            exact ⟨pre, t1, mid, t2, post, by simp [he.2], hid, hns⟩

/-! ## Claims on the constructor -/

/-- C1: `NewHandler` returns either a handler and no error, or no handler and
an error; it returns a handler exactly when the callback is not nil, the ids
are pairwise distinct, no task waits for its own id, some task has an empty
`WaitFor`, and every awaited id is the id of a task of the list. -/
theorem NewHandler_accepts_iff (f : Option (String → Option String)) (ts : List Task) :
    (((NewHandler f ts).1.isSome = true ∧ (NewHandler f ts).2 = none) ∨
      ((NewHandler f ts).1 = none ∧ (NewHandler f ts).2.isSome = true)) ∧
    ((NewHandler f ts).1.isSome = true ↔
      (f.isSome = true ∧ (ts.map Task.Id).Nodup ∧ (∀ t ∈ ts, t.Id ∉ t.WaitFor) ∧
        (∃ t ∈ ts, t.WaitFor = []) ∧
        (∀ t ∈ ts, ∀ w ∈ t.WaitFor, ∃ u ∈ ts, u.Id = w))) := by
  constructor
  · rcases NewHandler_cases f ts with ⟨h, e⟩ | ⟨e, he⟩
    · left; simp [e]
    · right; simp [he]
  · constructor
    · intro h
      cases hr : NewHandler f ts with
      | mk a b =>
        rw [hr] at h
        cases a with
        | none => simp at h
        | some hd =>
          obtain ⟨hw, _, g, hg, _⟩ := wellFormed_of_NewHandler f ts hd b hr
          exact ⟨by simp [hg], hw⟩
    · rintro ⟨hf, hw⟩
      cases f with
      | none => simp at hf
      | some g => simp [NewHandler_of_wellFormed g ts hw]

/-- C2: when `NewHandler` succeeds, the keys of the task table are exactly the
ids of the input tasks, and the entry of each input task holds its `WaitFor`
and has `started` and `done` both equal to its `Skip` flag. -/
theorem NewHandler_table (f : Option (String → Option String)) (ts : List Task)
    (h : Handler) (e : Option String) (hr : NewHandler f ts = (some h, e)) :
    (∀ id, id ∈ h.tasks.keys ↔ ∃ t ∈ ts, t.Id = id) ∧
    (∀ t ∈ ts, h.tasks.get t.Id = some ⟨t.WaitFor, t.Skip, t.Skip⟩) := by
  obtain ⟨hw, _, g, _, hh⟩ := wellFormed_of_NewHandler f ts h e hr
  subst hh
  constructor
  · intro id
    simp [keys_map_entryOf]
  · intro t ht
    exact get_map_entryOf ts hw.1 t ht

theorem NewHandler_table_witness :
    NewHandler (some okFunc) sampleTasks =
      (some ⟨okFunc, sampleTasks.map entryOf, [], 0⟩, none) ∧
    ((∀ id, id ∈ Table.keys (sampleTasks.map entryOf) ↔ ∃ t ∈ sampleTasks, t.Id = id) ∧
     (∀ t ∈ sampleTasks,
        Table.get (sampleTasks.map entryOf) t.Id = some ⟨t.WaitFor, t.Skip, t.Skip⟩)) :=
  ⟨by rfl, NewHandler_table (some okFunc) sampleTasks
    ⟨okFunc, sampleTasks.map entryOf, [], 0⟩ none (by rfl)⟩

/-- C10 (as stated, refuted): two tasks share the id `X`, the first of them
waits for itself, and the constructor reports the self-wait error, not the
duplicate-identity error. -/
theorem NewHandler_duplicate_counterexample :
    ([⟨"X", ["X"], false⟩, ⟨"X", [], false⟩].map Task.Id).count "X" = 2 ∧
    NewHandler (some okFunc) [⟨"X", ["X"], false⟩, ⟨"X", [], false⟩] =
      (none, some "tasks cannot wit for themselves, please check task(s) 'X'") ∧
    ∀ id, NewHandler (some okFunc) [⟨"X", ["X"], false⟩, ⟨"X", [], false⟩] ≠
      (none, some (duplicateMsg id)) := by
  have h : NewHandler (some okFunc) [⟨"X", ["X"], false⟩, ⟨"X", [], false⟩] =
      (none, some "tasks cannot wit for themselves, please check task(s) 'X'") := by rfl
  refine ⟨by decide, h, ?_⟩
  intro id hc
  rw [h] at hc
  simp only [Prod.mk.injEq, Option.some.injEq, true_and] at hc
  have := congrArg String.data hc
  simp [duplicateMsg] at this

/-- C10 (amended): when a task has the id of an earlier task that does not wait
for itself, `NewHandler` fails with the duplicate-identity error, and the id
the message names occurs at least twice among the ids of the list. -/
theorem NewHandler_duplicate (f : String → Option String) (pre mid post : List Task)
    (t1 t2 : Task) (hid : t1.Id = t2.Id) (hns : t1.Id ∉ t1.WaitFor) :
    ∃ id, 2 ≤ ((pre ++ t1 :: (mid ++ t2 :: post)).map Task.Id).count id ∧
      NewHandler (some f) (pre ++ t1 :: (mid ++ t2 :: post)) =
        (none, some ("multiple tasks with id '" ++ id ++ "'")) := by
  obtain ⟨e, he⟩ := buildTasks_error_of_dup (pre ++ t1 :: (mid ++ t2 :: post)) [] false []
    (Or.inr ⟨pre, t1, mid, t2, post, rfl, hid, hns⟩)
  obtain ⟨id, hm, hc⟩ := buildTasks_error_names _ _ _ _ _ he
  refine ⟨id, ?_, ?_⟩
  · rcases hc with ⟨hk, _⟩ | hc
    · simp [Table.keys] at hk
    · exact hc
  · simp [NewHandler, he, hm, duplicateMsg]

theorem NewHandler_duplicate_witness :
    ∃ id, 2 ≤ (([] ++ (⟨"X", [], false⟩ : Task) ::
        ([] ++ (⟨"X", ["X"], true⟩ : Task) :: [])).map Task.Id).count id ∧
      NewHandler (some okFunc) ([] ++ (⟨"X", [], false⟩ : Task) ::
        ([] ++ (⟨"X", ["X"], true⟩ : Task) :: [])) =
        (none, some ("multiple tasks with id '" ++ id ++ "'")) :=
  NewHandler_duplicate okFunc [] [] [] ⟨"X", [], false⟩ ⟨"X", ["X"], true⟩ rfl (by decide)

/-! ## The locked methods -/

theorem tryStart_true_iff (tb : Table) (id : String) :
    (tryStart tb id).2 = true ↔
      ∃ t, tb.get id = some t ∧ t.done = false ∧ t.started = false ∧
        allDone tb t.waitFor = true := by
  unfold tryStart
  cases h : tb.get id with
  | none => simp
  | some t =>
    cases hd : t.done <;> cases hs : t.started <;> cases ha : allDone tb t.waitFor <;>
      simp [hd, hs, ha]

theorem tryStart_table (tb : Table) (id : String) :
    (tryStart tb id).1 =
      if (tryStart tb id).2 then tb.set id { tb.getD id with started := true } else tb := by
  unfold tryStart Table.getD
  cases h : tb.get id with
  | none => simp
  | some t =>
    cases hd : t.done <;> cases hs : t.started <;> cases ha : allDone tb t.waitFor <;>
      simp [hd, hs, ha]

theorem allDone_iff (tb : Table) (ws : List String) :
    allDone tb ws = true ↔ ∀ w ∈ ws, (tb.getD w).done = true := by
  induction ws with
  | nil => simp [allDone]
  | cons w ws ih =>
    unfold allDone
    cases h : (tb.getD w).done <;> simp [h, ih]

theorem Table.getD_of_get (tb : Table) (id : String) (t : task) (h : tb.get id = some t) :
    tb.getD id = t := by
  simp [Table.getD, h]

theorem Table.mem_keys_of_get (tb : Table) (id : String) (t : task) (h : tb.get id = some t) :
    id ∈ tb.keys := by
  rw [← Table.get_isSome_iff, h]; rfl

theorem tryStart_true_mem (tb : Table) (id : String) (h : (tryStart tb id).2 = true) :
    id ∈ tb.keys := by
  obtain ⟨t, ht, _⟩ := (tryStart_true_iff tb id).1 h
  exact Table.mem_keys_of_get tb id t ht

theorem tryStart_keys (tb : Table) (id : String) : (tryStart tb id).1.keys = tb.keys := by
  rw [tryStart_table]
  split
  · rename_i h
    exact Table.keys_set_of_mem _ _ _ (tryStart_true_mem tb id h)
  · rfl

theorem tryStart_getD (tb : Table) (id j : String) :
    (tryStart tb id).1.getD j =
      if (tryStart tb id).2 = true ∧ id = j then { tb.getD j with started := true }
      else tb.getD j := by
  rw [tryStart_table]
  by_cases h : (tryStart tb id).2 = true
  · simp only [h, if_true, true_and, Table.getD_set]
    by_cases hj : id = j
    · subst hj; simp
    · simp [hj]
  · simp [h]

theorem setDone_getD (tb : Table) (id j : String) :
    (setDone tb id).getD j = if id = j then { tb.getD j with done := true } else tb.getD j := by
  unfold setDone
  simp only [Table.getD_set]
  by_cases hj : id = j
  · subst hj; simp
  · simp [hj]

theorem setDone_keys (tb : Table) (id : String) (h : id ∈ tb.keys) :
    (setDone tb id).keys = tb.keys :=
  Table.keys_set_of_mem _ _ _ h

/-! ## At most one start per task -/

theorem not_mem_startedBy_of_started (tb : Table) (ops : List Op) (id : String)
    (h : (tb.getD id).started = true) : id ∉ startedBy tb ops := by
  induction ops generalizing tb with
  | nil => simp [startedBy]
  | cons op ops ih =>
    cases op with
    | tryStart j =>
      have hn : (((tryStart tb j).1).getD id).started = true := by
        rw [tryStart_getD]
        split <;> simp [h]
      unfold startedBy
      split
      · rename_i ht
        simp only [List.mem_cons, not_or]
        refine ⟨?_, ih _ hn⟩
        rintro rfl
        obtain ⟨t, hg, _, hs, _⟩ := (tryStart_true_iff tb id).1 ht
        rw [Table.getD_of_get tb id t hg, hs] at h
        simp at h
      · exact ih _ hn
    | setDone j =>
      unfold startedBy
      apply ih
      rw [setDone_getD]
      split <;> simp [h]

theorem startedBy_nodup (tb : Table) (ops : List Op) : (startedBy tb ops).Nodup := by
  induction ops generalizing tb with
  | nil => simp [startedBy]
  | cons op ops ih =>
    cases op with
    | tryStart j =>
      unfold startedBy
      split
      · rename_i ht
        refine List.nodup_cons.2 ⟨?_, ih _⟩
        apply not_mem_startedBy_of_started
        rw [tryStart_getD]
        simp [ht]
      · exact ih _
    | setDone j =>
      unfold startedBy
      exact ih _

/-- C4: over any sequence of calls of `tryStart` and `setDone` on the table of
a handler built by `NewHandler`, `tryStart` returns `true` at most once for
each id. -/
theorem tryStart_true_at_most_once (f : Option (String → Option String)) (ts : List Task)
    (h : Handler) (_hr : NewHandler f ts = (some h, none)) (ops : List Op) (id : String) :
    (startedBy h.tasks ops).count id ≤ 1 :=
  List.nodup_iff_count_le_one.1 (startedBy_nodup h.tasks ops) id

theorem tryStart_true_at_most_once_witness :
    NewHandler (some okFunc) sampleTasks =
      (some ⟨okFunc, sampleTasks.map entryOf, [], 0⟩, none) ∧
    startedBy (sampleTasks.map entryOf)
      [.tryStart "A", .tryStart "A", .setDone "A", .tryStart "B", .tryStart "A"] = ["A", "B"] ∧
    (startedBy (sampleTasks.map entryOf)
      [.tryStart "A", .tryStart "A", .setDone "A", .tryStart "B", .tryStart "A"]).count "A" ≤ 1 :=
  ⟨by rfl, by decide, tryStart_true_at_most_once (some okFunc) sampleTasks
    ⟨okFunc, sampleTasks.map entryOf, [], 0⟩ (by rfl) _ "A"⟩

/-! ## Invariants of the runs of the table -/

theorem runR_snoc (s : RState) (evs : List Ev) (e : Ev) :
    runR s (evs ++ [e]) = (runR s evs).bind (fun s1 => stepR s1 e) := by
  induction evs generalizing s with
  | nil =>
    simp only [List.nil_append, runR, Option.some_bind]
    cases stepR s e <;> rfl
  | cons x xs ih =>
    simp only [List.cons_append, runR]
    cases stepR s x with
    | none => rfl
    | some s1 => exact ih s1

theorem runR_snoc_some (s s2 : RState) (evs : List Ev) (e : Ev)
    (h : runR s (evs ++ [e]) = some s2) :
    ∃ s1, runR s evs = some s1 ∧ stepR s1 e = some s2 := by
  rw [runR_snoc] at h
  cases h1 : runR s evs with
  | none => simp [h1] at h
  | some s1 => exact ⟨s1, rfl, by simpa [h1] using h⟩

theorem stepR_start (s s2 : RState) (id : String) (h : stepR s (.start id) = some s2) :
    (tryStart s.table id).2 = true ∧ s2 = ⟨(tryStart s.table id).1, id :: s.running⟩ := by
  unfold stepR at h
  by_cases ht : (tryStart s.table id).2 = true
  · simp only [ht, if_true, Option.some.injEq] at h
    exact ⟨ht, h.symm⟩
  · simp [ht] at h

theorem stepR_finish (s s2 : RState) (id : String) (h : stepR s (.finish id) = some s2) :
    id ∈ s.running ∧ s2 = ⟨setDone s.table id, s.running.erase id⟩ := by
  unfold stepR at h
  by_cases ht : id ∈ s.running
  · simp only [ht, if_true, Option.some.injEq] at h
    exact ⟨ht, h.symm⟩
  · simp [ht] at h

theorem rinv_of_run (tb0 : Table) (evs : List Ev) (s : RState)
    (h : runR ⟨tb0, []⟩ evs = some s) : RInv tb0 evs s := by
  induction evs using List.reverseRecOn generalizing s with
  | nil =>
    simp only [runR, Option.some.injEq] at h
    subst h
    constructor <;> simp
  | append_singleton evs e ih =>
    obtain ⟨s1, h1, h2⟩ := runR_snoc_some _ _ _ _ h
    have I := ih s1 h1
    cases e with
    | start id =>
      obtain ⟨ht, rfl⟩ := stepR_start _ _ _ h2
      obtain ⟨t, hg, hd, hs, _⟩ := (tryStart_true_iff _ _).1 ht
      have hgd := Table.getD_of_get _ _ _ hg
      constructor
      · simp only [tryStart_keys]; exact I.keys
      · intro j
        simp only [tryStart_getD]
        split <;> simp [I.waitFor]
      · intro j
        simp only [tryStart_getD, ht, true_and]
        by_cases hj : id = j
        · subst hj; simp
        · have hj2 : ¬ j = id := fun e => hj e.symm
          simp [hj, hj2, I.started]
      · intro j
        simp only [tryStart_getD]
        split <;> simp [I.done]
      · refine List.nodup_cons.2 ⟨?_, I.nodup⟩
        intro hm
        have h3 := I.started id
        rw [hgd, hs] at h3
        have h4 := (I.running id hm).2.1
        simp [h4] at h3
      · intro j hj
        simp only [List.mem_cons] at hj
        simp only [tryStart_getD, ht, true_and]
        rcases hj with rfl | hj
        · refine ⟨?_, by simp, ?_⟩
          · rw [← I.keys]; exact tryStart_true_mem _ _ ht
          · simp [hgd, hd]
        · obtain ⟨a, b, c⟩ := I.running j hj
          refine ⟨a, by simp [b], ?_⟩
          split <;> simp [c]
      · intro j hj
        simp only [List.mem_append, List.mem_singleton, reduceCtorEq, or_false] at hj
        simp [I.finished j hj]
      · intro j hj hdj
        simp only [tryStart_getD, ht, true_and] at hdj
        simp only [List.mem_append, List.mem_singleton, Ev.start.injEq] at hj
        simp only [List.mem_cons]
        by_cases hji : id = j
        · exact Or.inl hji.symm
        · right
          rcases hj with hj | hj
          · apply I.idle j hj
            simpa [hji] using hdj
          · exact absurd hj.symm hji
      · intro j hj
        simp only [List.mem_append, List.mem_singleton, Ev.start.injEq] at hj
        rcases hj with hj | rfl
        · exact I.fresh j hj
        · have h3 := I.started j
          rw [hgd, hs] at h3
          cases h5 : (Table.getD tb0 j).started
          · rfl
          · simp [h5] at h3
    | finish id =>
      obtain ⟨hm, rfl⟩ := stepR_finish _ _ _ h2
      obtain ⟨hk, hst, hdn⟩ := I.running id hm
      constructor
      · simp only
        rw [setDone_keys _ _ (by rw [I.keys]; exact hk)]
        exact I.keys
      · intro j
        simp only [setDone_getD]
        split <;> simp [I.waitFor]
      · intro j
        simp only [setDone_getD]
        split <;> simp [I.started]
      · intro j
        simp only [setDone_getD]
        by_cases hj : id = j
        · subst hj; simp
        · have hj2 : ¬ j = id := fun e => hj e.symm
          simp [hj, hj2, I.done]
      · exact I.nodup.erase id
      · intro j hj
        have hj1 : j ∈ s1.running := List.mem_of_mem_erase hj
        have hne : ¬ id = j := by
          rintro rfl
          exact (List.Nodup.not_mem_erase I.nodup) hj
        obtain ⟨a, b, c⟩ := I.running j hj1
        refine ⟨a, by simp [b], ?_⟩
        simp only [setDone_getD, hne, if_false]
        exact c
      · intro j hj
        simp only [List.mem_append, List.mem_singleton, Ev.finish.injEq] at hj
        rcases hj with hj | rfl
        · simp [I.finished j hj]
        · simp [hst]
      · intro j hj hdj
        simp only [List.mem_append, List.mem_singleton, reduceCtorEq, or_false] at hj
        simp only [setDone_getD] at hdj
        by_cases hji : id = j
        · simp [hji] at hdj
        · simp only [hji, if_false] at hdj
          have := I.idle j hj hdj
          exact (List.mem_erase_of_ne (fun e => hji e.symm)).2 this
      · intro j hj
        simp only [List.mem_append, List.mem_singleton, reduceCtorEq, or_false] at hj
        exact I.fresh j hj

theorem getD_map_entryOf (ts : List Task) (hn : (ts.map Task.Id).Nodup) (t : Task)
    (ht : t ∈ ts) : Table.getD (ts.map entryOf) t.Id = ⟨t.WaitFor, t.Skip, t.Skip⟩ :=
  Table.getD_of_get _ _ _ (get_map_entryOf ts hn t ht)

theorem start_enabled_facts (tb0 : Table) (evs : List Ev) (s : RState) (I : RInv tb0 evs s)
    (id : String) (ht : (tryStart s.table id).2 = true) :
    id ∈ tb0.keys ∧ Ev.start id ∉ evs ∧ (tb0.getD id).done = false ∧
    ∀ w ∈ (tb0.getD id).waitFor, (s.table.getD w).done = true ∧
      ((tb0.getD w).done = true ∨ (Ev.finish w ∈ evs ∧ Ev.start w ∈ evs)) := by
  obtain ⟨t, hg, hd, hs, ha⟩ := (tryStart_true_iff _ _).1 ht
  have hgd := Table.getD_of_get _ _ _ hg
  refine ⟨?_, ?_, ?_, ?_⟩
  · rw [← I.keys]; exact tryStart_true_mem _ _ ht
  · intro hm
    have h3 := I.started id
    rw [hgd, hs] at h3
    simp [hm] at h3
  · have h3 := I.done id
    rw [hgd, hd] at h3
    cases h5 : (Table.getD tb0 id).done
    · rfl
    · simp [h5] at h3
  · intro w hw
    rw [← I.waitFor, hgd] at hw
    have hdw := (allDone_iff _ _).1 ha w hw
    refine ⟨hdw, ?_⟩
    have h3 := I.done w
    rw [hdw] at h3
    cases h5 : (Table.getD tb0 w).done
    · right
      have : Ev.finish w ∈ evs := by simpa [h5] using h3.symm
      exact ⟨this, I.finished w this⟩
    · left; rfl

theorem startsOf_append (xs ys : List Ev) : startsOf (xs ++ ys) = startsOf xs ++ startsOf ys := by
  induction xs with
  | nil => rfl
  | cons e es ih => cases e <;> simp [startsOf, ih]

theorem mem_startsOf (evs : List Ev) (id : String) : id ∈ startsOf evs ↔ Ev.start id ∈ evs := by
  induction evs with
  | nil => simp [startsOf]
  | cons e es ih => cases e <;> simp [startsOf, ih]

theorem chain_order (a b c : String) (hn : ((chainTasks a b c).map Task.Id).Nodup)
    (evs : List Ev) (s : RState)
    (hrun : runR ⟨(chainTasks a b c).map entryOf, []⟩ evs = some s) :
    startsOf evs = [] ∨ startsOf evs = [a] ∨ startsOf evs = [a, b] ∨
      startsOf evs = [a, b, c] := by
  induction evs using List.reverseRecOn generalizing s with
  | nil => left; rfl
  | append_singleton evs e ih =>
    obtain ⟨s1, h1, h2⟩ := runR_snoc_some _ _ _ _ hrun
    have I := rinv_of_run _ _ _ h1
    have ih1 := ih s1 h1
    rw [startsOf_append]
    cases e with
    | finish id => simpa [startsOf] using ih1
    | start id =>
      obtain ⟨ht, _⟩ := stepR_start _ _ _ h2
      obtain ⟨hk, hns, _, hw⟩ := start_enabled_facts _ _ _ I id ht
      have hga := getD_map_entryOf _ hn ⟨a, [], false⟩ (by simp [chainTasks])
      have hgb := getD_map_entryOf _ hn ⟨b, [a], false⟩ (by simp [chainTasks])
      have hgc := getD_map_entryOf _ hn ⟨c, [b], false⟩ (by simp [chainTasks])
      simp only at hga hgb hgc
      rw [← mem_startsOf] at hns
      simp only [chainTasks, List.map_cons, List.map_nil, List.nodup_cons, List.mem_cons,
        List.mem_singleton, List.not_mem_nil, not_or, List.nodup_nil, or_false, and_true,
        not_false_eq_true] at hn
      obtain ⟨⟨hab, hac⟩, hbc⟩ := hn
      have hk2 : id = a ∨ id = b ∨ id = c := by
        rw [keys_map_entryOf] at hk
        simpa [chainTasks] using hk
      simp only [startsOf, List.append_nil]
      rcases hk2 with rfl | rfl | rfl
      · rcases ih1 with e | e | e | e <;> rw [e] at hns ⊢ <;> simp at hns ⊢
      · have h5 := hw a (by rw [hgb]; simp)
        rw [hga] at h5
        simp only [Bool.false_eq_true, false_or] at h5
        have h6 := (mem_startsOf _ _).2 h5.2.2
        rcases ih1 with e | e | e | e <;> rw [e] at hns h6 ⊢ <;> simp at hns h6 ⊢
      · have h5 := hw b (by rw [hgc]; simp)
        rw [hgb] at h5
        simp only [Bool.false_eq_true, false_or] at h5
        have h6 := (mem_startsOf _ _).2 h5.2.2
        rcases ih1 with e | e | e | e <;> rw [e] at hns h6 ⊢ <;> simp at hns h6 ⊢
        · exact absurd h6.symm hab

theorem get_of_mem_keys (tb : Table) (id : String) (h : id ∈ tb.keys) :
    tb.get id = some (tb.getD id) := by
  have := (Table.get_isSome_iff tb id).2 h
  unfold Table.getD
  cases hg : tb.get id with
  | none => simp [hg] at this
  | some t => rfl

/-! ## Claims on the order of execution -/

/-- C3: in a run of a handler built by `NewHandler`, when `tryStart` returns
`true` for a task (its callback is then invoked), every id the task waits for
is done in the table, and every awaited task that is not skipped has been
started and has finished (its callback returned and its `setDone` ran) earlier
in the run; on the chain where `b` waits for `a` and `c` waits for `b` the
callback invocations of every run form a prefix of `a, b, c`. -/
theorem callback_after_dependencies (f : Option (String → Option String)) (ts : List Task)
    (h : Handler) (hr : NewHandler f ts = (some h, none)) (evs : List Ev) (s : RState)
    (hrun : runR (initR h) evs = some s) :
    (∀ t ∈ ts, (tryStart s.table t.Id).2 = true → ∀ w ∈ t.WaitFor,
      (s.table.getD w).done = true ∧
      ∀ u ∈ ts, u.Id = w → u.Skip = false → Ev.start w ∈ evs ∧ Ev.finish w ∈ evs) ∧
    (∀ a b c, ts = chainTasks a b c → startsOf evs <+: [a, b, c]) := by
  obtain ⟨hw, _, g, _, rfl⟩ := wellFormed_of_NewHandler f ts h none hr
  simp only [initR] at hrun
  have I := rinv_of_run _ _ _ hrun
  constructor
  · intro t ht hst w hwt
    obtain ⟨_, _, _, h4⟩ := start_enabled_facts _ _ _ I t.Id hst
    rw [getD_map_entryOf ts hw.1 t ht] at h4
    obtain ⟨h5, h6⟩ := h4 w hwt
    refine ⟨h5, ?_⟩
    intro u hu hue hus
    subst hue
    rw [getD_map_entryOf ts hw.1 u hu] at h6
    simp only [hus, Bool.false_eq_true, false_or] at h6
    exact ⟨h6.2, h6.1⟩
  · intro a b c hts
    subst hts
    rcases chain_order a b c hw.1 evs s hrun with e | e | e | e <;> rw [e] <;>
      simp [List.prefix_iff_eq_take]

theorem callback_after_dependencies_witness :
    runR (initR ⟨okFunc, (chainTasks "A" "B" "C").map entryOf, [], 0⟩)
      [Ev.start "A", Ev.finish "A"] = some chainAfterA ∧
    (tryStart chainAfterA.table "B").2 = true ∧
    ((∀ t ∈ chainTasks "A" "B" "C", (tryStart chainAfterA.table t.Id).2 = true →
      ∀ w ∈ t.WaitFor, (chainAfterA.table.getD w).done = true ∧
        ∀ u ∈ chainTasks "A" "B" "C", u.Id = w → u.Skip = false →
          Ev.start w ∈ [Ev.start "A", Ev.finish "A"] ∧
          Ev.finish w ∈ [Ev.start "A", Ev.finish "A"]) ∧
     (∀ a b c, chainTasks "A" "B" "C" = chainTasks a b c →
      startsOf [Ev.start "A", Ev.finish "A"] <+: [a, b, c])) :=
  ⟨by decide, by decide,
    callback_after_dependencies (some okFunc) (chainTasks "A" "B" "C")
      ⟨okFunc, (chainTasks "A" "B" "C").map entryOf, [], 0⟩ (by rfl)
      [Ev.start "A", Ev.finish "A"] chainAfterA (by decide)⟩

/-- C6: in a run of a handler built by `NewHandler`, `tryStart` returns `false`
for every task with `Skip = true` and no callback invocation of it occurs; and
in the initial state `tryStart` returns `true` for every task with
`Skip = false` all of whose awaited ids are ids of skipped tasks. -/
theorem skip_never_started (f : Option (String → Option String)) (ts : List Task)
    (h : Handler) (hr : NewHandler f ts = (some h, none)) (evs : List Ev) (s : RState)
    (hrun : runR (initR h) evs = some s) (t : Task) (ht : t ∈ ts) :
    (t.Skip = true → (tryStart s.table t.Id).2 = false ∧ Ev.start t.Id ∉ evs) ∧
    (t.Skip = false → (∀ w ∈ t.WaitFor, ∃ u ∈ ts, u.Id = w ∧ u.Skip = true) →
      (tryStart h.tasks t.Id).2 = true) := by
  obtain ⟨hw, _, g, _, rfl⟩ := wellFormed_of_NewHandler f ts h none hr
  simp only [initR] at hrun
  have I := rinv_of_run _ _ _ hrun
  have hg := getD_map_entryOf ts hw.1 t ht
  constructor
  · intro hs
    constructor
    · cases h5 : (tryStart s.table t.Id).2
      · rfl
      · obtain ⟨_, _, h3, _⟩ := start_enabled_facts _ _ _ I t.Id h5
        rw [hg] at h3
        simp [hs] at h3
    · intro hm
      have := I.fresh _ hm
      rw [hg] at this
      simp [hs] at this
  · intro hs hall
    rw [tryStart_true_iff]
    refine ⟨_, get_map_entryOf ts hw.1 t ht, hs, hs, ?_⟩
    rw [allDone_iff]
    intro w hwt
    obtain ⟨u, hu, rfl, hus⟩ := hall w hwt
    simp only at hwt ⊢
    rw [getD_map_entryOf ts hw.1 u hu]
    exact hus

theorem skip_never_started_witness :
    ((true = true → (tryStart (Table.set (sampleTasks.map entryOf) "A" ⟨[], true, false⟩) "S").2
        = false ∧ Ev.start "S" ∉ [Ev.start "A"]) ∧
     (true = false → (∀ w ∈ ["A"], ∃ u ∈ sampleTasks, u.Id = w ∧ u.Skip = true) →
        (tryStart (sampleTasks.map entryOf) "S").2 = true)) ∧
    (tryStart (sampleTasks.map entryOf) "A").2 = true :=
  ⟨skip_never_started (some okFunc) sampleTasks ⟨okFunc, sampleTasks.map entryOf, [], 0⟩
    (by rfl) [Ev.start "A"] ⟨Table.set (sampleTasks.map entryOf) "A" ⟨[], true, false⟩, ["A"]⟩
    (by decide) ⟨"S", ["A"], true⟩ (by decide), by decide⟩

/-! ## Claims on completion -/

theorem tryStart_false_of_not_mem (tb : Table) (id : String) (h : id ∉ tb.keys) :
    (tryStart tb id).2 = false := by
  cases h5 : (tryStart tb id).2
  · rfl
  · exact absurd (tryStart_true_mem tb id h5) h

/-- C5 (as stated, refuted): `NewHandler` accepts a root `A` and two tasks `B`
and `C` that wait for each other; after `A` has run the work has drained, and
neither `B` nor `C` was started. -/
theorem drained_counterexample :
    NewHandler (some okFunc) cyclicTasks =
      (some ⟨okFunc, cyclicTasks.map entryOf, [], 0⟩, none) ∧
    runR (initR ⟨okFunc, cyclicTasks.map entryOf, [], 0⟩) [Ev.start "A", Ev.finish "A"] =
      some cyclicAfterA ∧
    Drained cyclicAfterA ∧
    (⟨"B", ["C"], false⟩ : Task) ∈ cyclicTasks ∧
    (cyclicAfterA.table.getD "B").started = false ∧
    (cyclicAfterA.table.getD "B").done = false := by
  refine ⟨by rfl, by decide, ⟨rfl, ?_⟩, by decide, by decide, by decide⟩
  intro id
  by_cases h : id ∈ cyclicAfterA.table.keys
  · have h2 : id = "A" ∨ id = "B" ∨ id = "C" := by
      simpa [cyclicAfterA, Table.keys] using h
    rcases h2 with rfl | rfl | rfl <;> decide
  · exact tryStart_false_of_not_mem _ _ h

/-- C5 (amended): for a task list that `NewHandler` accepts and whose
dependency relation is acyclic (every awaited id has a smaller rank than the
task that waits for it), in every drained state of a run (no unit running, no
task eligible) every task with `Skip = false` has been started by the run and
is started and done; this holds whatever the callback returns. -/
theorem drained_all_done (f : Option (String → Option String)) (ts : List Task)
    (h : Handler) (hr : NewHandler f ts = (some h, none))
    (rank : String → Nat) (hrank : ∀ t ∈ ts, ∀ w ∈ t.WaitFor, rank w < rank t.Id)
    (evs : List Ev) (s : RState) (hrun : runR (initR h) evs = some s) (hd : Drained s) :
    ∀ t ∈ ts, t.Skip = false →
      Ev.start t.Id ∈ evs ∧ (s.table.getD t.Id).started = true ∧
        (s.table.getD t.Id).done = true := by
  obtain ⟨hw, _, g, _, rfl⟩ := wellFormed_of_NewHandler f ts h none hr
  simp only [initR] at hrun
  have I := rinv_of_run _ _ _ hrun
  obtain ⟨hrn, hdr⟩ := hd
  have hdone : ∀ n, ∀ t ∈ ts, rank t.Id < n → (s.table.getD t.Id).done = true := by
    intro n
    induction n with
    | zero => intro t _ hlt; omega
    | succ n ih =>
      intro t ht hlt
      have hg0 := getD_map_entryOf ts hw.1 t ht
      have hk : t.Id ∈ s.table.keys := by
        rw [I.keys, keys_map_entryOf]
        exact List.mem_map_of_mem _ ht
      have hget := get_of_mem_keys _ _ hk
      by_contra hnd
      have hnd2 : (s.table.getD t.Id).done = false := by simpa using hnd
      have hns : (s.table.getD t.Id).started = false := by
        cases h5 : (s.table.getD t.Id).started
        · rfl
        · have h6 := I.started t.Id
          rw [h5, hg0] at h6
          have h7 := I.done t.Id
          rw [hnd2, hg0] at h7
          cases hsk : t.Skip
          · have hst : Ev.start t.Id ∈ evs := by simpa [hsk] using h6.symm
            have := I.idle _ hst hnd2
            rw [hrn] at this
            simp at this
          · simp [hsk] at h7
      have hall : allDone s.table (s.table.getD t.Id).waitFor = true := by
        rw [allDone_iff]
        intro w hwt
        rw [I.waitFor, hg0] at hwt
        obtain ⟨u, hu, rfl⟩ := hw.2.2.2 t ht w hwt
        apply ih u hu
        have := hrank t ht _ hwt
        omega
      have := (tryStart_true_iff s.table t.Id).2 ⟨_, hget, hnd2, hns, hall⟩
      rw [hdr] at this
      simp at this
  intro t ht hsk
  have hdn := hdone (rank t.Id + 1) t ht (by omega)
  have hg0 := getD_map_entryOf ts hw.1 t ht
  have h7 := I.done t.Id
  rw [hdn, hg0] at h7
  have hfin : Ev.finish t.Id ∈ evs := by simpa [hsk] using h7.symm
  have hst := I.finished _ hfin
  refine ⟨hst, ?_, hdn⟩
  rw [I.started]
  simp [hst]

theorem drained_all_done_witness :
    runR (initR ⟨okFunc, sampleTasks.map entryOf, [], 0⟩)
      [Ev.start "A", Ev.finish "A", Ev.start "B", Ev.finish "B"] = some sampleAtEnd ∧
    Drained sampleAtEnd ∧
    ∀ t ∈ sampleTasks, t.Skip = false →
      Ev.start t.Id ∈ [Ev.start "A", Ev.finish "A", Ev.start "B", Ev.finish "B"] ∧
        (sampleAtEnd.table.getD t.Id).started = true ∧
        (sampleAtEnd.table.getD t.Id).done = true :=
  have hd : Drained sampleAtEnd := by
    refine ⟨rfl, ?_⟩
    intro id
    by_cases h : id ∈ sampleAtEnd.table.keys
    · have h2 : id = "A" ∨ id = "B" ∨ id = "S" := by
        simpa [sampleAtEnd, Table.keys] using h
      rcases h2 with rfl | rfl | rfl <;> decide
    · exact tryStart_false_of_not_mem _ _ h
  ⟨by decide, hd, drained_all_done (some okFunc) sampleTasks
    ⟨okFunc, sampleTasks.map entryOf, [], 0⟩ (by rfl)
    (fun id => if id = "A" then 0 else 1) (by decide)
    [Ev.start "A", Ev.finish "A", Ev.start "B", Ev.finish "B"] sampleAtEnd (by decide) hd⟩

/-! ## The steps of the goroutines -/

theorem tryStart_false_table (tb : Table) (id : String) (h : (tryStart tb id).2 = false) :
    (tryStart tb id).1 = tb := by
  rw [tryStart_table]; simp [h]

theorem scanStep_rel (h : Handler) (sc : Scan) (key : String) (h1 : Handler)
    (new : List Routine) (out : Scan ⊕ Option String)
    (hs : scanStep h sc key = some (h1, new, out)) : ScanRel h sc h1 new out := by
  cases sc with
  | loop todo =>
    cases todo with
    | nil =>
      simp only [scanStep, Option.some.injEq, Prod.mk.injEq] at hs
      obtain ⟨rfl, rfl, rfl⟩ := hs
      exact ScanRel.fin
    | cons k ks =>
      simp only [scanStep] at hs
      by_cases hm : key ∈ k :: ks
      · by_cases ht : (tryStart h.tasks key).2 = true
        · simp only [hm, ht, if_true, Option.some.injEq, Prod.mk.injEq] at hs
          obtain ⟨rfl, rfl, rfl⟩ := hs
          exact ScanRel.start _ _ hm ht
        · have ht2 : (tryStart h.tasks key).2 = false := by simpa using ht
          simp only [hm, ht2, if_true, Bool.false_eq_true, if_false, Option.some.injEq,
            Prod.mk.injEq, tryStart_false_table _ _ ht2] at hs
          obtain ⟨rfl, rfl, rfl⟩ := hs
          exact ScanRel.skip _ _ hm ht2
      · simp [hm] at hs
  | add id todo =>
    simp only [scanStep, Option.some.injEq, Prod.mk.injEq] at hs
    obtain ⟨rfl, rfl, rfl⟩ := hs
    exact ScanRel.add _ _
  | spawn id todo =>
    simp only [scanStep, Option.some.injEq, Prod.mk.injEq] at hs
    obtain ⟨rfl, rfl, rfl⟩ := hs
    exact ScanRel.spawn _ _

theorem step_rel (s s1 : State) (a : Act) (hs : step s a = some s1) : StepRel s s1 := by
  cases a with
  | main key =>
    simp only [step, stepMain] at hs
    cases hm : s.main with
    | scan sc =>
      simp only [hm] at hs
      cases hsc : scanStep s.h sc key with
      | none => simp [hsc] at hs
      | some r =>
        obtain ⟨h1, new, out⟩ := r
        have hr := scanStep_rel _ _ _ _ _ _ hsc
        simp only [hsc] at hs
        cases out with
        | inl sc1 =>
          simp only [Option.some.injEq] at hs
          subst hs
          exact StepRel.main _ _ _ (by rw [hm]; exact MainRel.scan _ _ _ _ hr)
        | inr r =>
          cases r with
          | none =>
            simp only [Option.some.injEq] at hs
            subst hs
            exact StepRel.main _ _ _ (by rw [hm]; exact MainRel.toWait _ _ _ hr)
          | some e =>
            simp only [Option.some.injEq] at hs
            subst hs
            exact StepRel.main _ _ _ (by rw [hm]; exact MainRel.retErr _ _ _ _ hr)
    | wait =>
      simp only [hm] at hs
      by_cases hw : s.h.wg = 0
      · simp only [hw, if_true, Option.some.injEq] at hs
        subst hs
        have := StepRel.main (s := s) s.h (.returned none) [] (by rw [hm]; exact MainRel.woke hw)
        simpa using this
      · simp [hw] at hs
    | returned r => simp [hm] at hs
  | unit i key =>
    simp only [step, stepUnit] at hs
    cases hu : s.units[i]? with
    | none => simp [hu] at hs
    | some u =>
      obtain ⟨id, pc⟩ := u
      simp only [hu] at hs
      cases pc with
      | exec =>
        simp only at hs
        cases he : execute s.h id with
        | none =>
          simp only [he, Option.some.injEq] at hs
          subst hs
          have := StepRel.unit (s := s) i _ _ _ _ hu (UnitRel.execOk id he)
          simpa using this
        | some e =>
          simp only [he, Option.some.injEq] at hs
          subst hs
          have := StepRel.unit (s := s) i _ _ _ _ hu (UnitRel.execErr id e he)
          simpa using this
      | failed e =>
        simp only [Option.some.injEq] at hs
        subst hs
        have := StepRel.unit (s := s) i _ _ _ _ hu (UnitRel.record id e)
        simpa using this
      | deferred =>
        simp only [Option.some.injEq] at hs
        subst hs
        have := StepRel.unit (s := s) i _ _ _ _ hu (UnitRel.setDone id)
        simpa using this
      | scan sc =>
        simp only at hs
        cases hsc : scanStep s.h sc key with
        | none => simp [hsc] at hs
        | some r =>
          obtain ⟨h1, new, out⟩ := r
          have hr := scanStep_rel _ _ _ _ _ _ hsc
          simp only [hsc] at hs
          cases out with
          | inl sc1 =>
            simp only [Option.some.injEq] at hs
            subst hs
            exact StepRel.unit i _ _ _ _ hu (UnitRel.scan _ _ _ _ _ hr)
          | inr r =>
            cases r with
            | none =>
              simp only [Option.some.injEq] at hs
              subst hs
              exact StepRel.unit i _ _ _ _ hu (UnitRel.scanOk _ _ _ _ hr)
            | some e =>
              simp only [Option.some.injEq] at hs
              subst hs
              exact StepRel.unit i _ _ _ _ hu (UnitRel.scanErr _ _ _ _ _ hr)
      | report e =>
        simp only [Option.some.injEq] at hs
        subst hs
        have := StepRel.unit (s := s) i _ _ _ _ hu (UnitRel.report id e)
        simpa using this
      | stopped => simp at hs
      | signal =>
        simp only [Option.some.injEq] at hs
        subst hs
        have := StepRel.unit (s := s) i _ _ _ _ hu (UnitRel.signal id)
        simpa using this
      | exited => simp at hs

theorem sum_map_set (wu : Routine → Nat) (us : List Routine) (i : Nat) (u u1 : Routine)
    (h : us[i]? = some u) :
    ((us.set i u1).map wu).sum + wu u = (us.map wu).sum + wu u1 := by
  induction us generalizing i with
  | nil => simp at h
  | cons x xs ih =>
    cases i with
    | zero =>
      simp at h
      subst h
      simp
      omega
    | succ j =>
      simp at h
      have := ih j h
      simp only [List.set_cons_succ, List.map_cons, List.sum_cons]
      omega

theorem mem_of_getElem_some (us : List Routine) (i : Nat) (u : Routine) (h : us[i]? = some u) :
    u ∈ us := by
  rw [List.getElem?_eq_some] at h
  obtain ⟨hi, rfl⟩ := h
  exact List.getElem_mem hi

theorem mem_set_append (us new : List Routine) (i : Nat) (u1 x : Routine)
    (h : x ∈ us.set i u1 ++ new) : x = u1 ∨ x ∈ us ∨ x ∈ new := by
  rw [List.mem_append] at h
  rcases h with h | h
  · rcases List.mem_or_eq_of_mem_set h with h | h
    · exact Or.inr (Or.inl h)
    · exact Or.inl h
  · exact Or.inr (Or.inr h)

/-- What a step inside `startAllTasks` leaves unchanged and what it adds. -/
theorem scanRel_facts (h h1 : Handler) (sc : Scan) (new : List Routine)
    (out : Scan ⊕ Option String) (hr : ScanRel h sc h1 new out) :
    h1.handlerFunc = h.handlerFunc ∧ h1.tasks.keys = h.tasks.keys ∧ h1.errors = h.errors ∧
    (∀ id, (h1.tasks.getD id).waitFor = (h.tasks.getD id).waitFor) ∧
    (∀ u ∈ new, u.pc = .exec ∧ u.id ∈ sc.pending) ∧
    (∀ sc1, out = .inl sc1 → ∀ id ∈ sc1.pending, id ∈ sc.pending ∨ id ∈ h.tasks.keys) ∧
    (∀ r, out = .inr r → r = h.errors.head?) ∧
    (h1.wg + (sc.spawning : Nat) = h.wg + ((new.length + outSpawning out : Nat) : Int)) ∧
    (new.map wgUnit).sum = new.length := by
  cases hr with
  | fin => simp [Scan.pending, Scan.spawning, outSpawning]
  | skip todo key hm ht => simp [Scan.pending, Scan.spawning, outSpawning]
  | start todo key hm ht =>
    refine ⟨rfl, tryStart_keys _ _, rfl, ?_, by simp, ?_, by simp,
      by simp [Scan.spawning, outSpawning], by simp⟩
    · intro id
      simp only [tryStart_getD]
      split <;> rfl
    · intro sc1 he id hid
      simp only [Sum.inl.injEq] at he
      subst he
      simp only [Scan.pending, List.mem_singleton] at hid
      subst hid
      exact Or.inr (tryStart_true_mem _ _ ht)
  | add id todo => simp [Scan.pending, Scan.spawning, outSpawning]
  | spawn id todo => simp [Scan.pending, Scan.spawning, outSpawning, wgUnit]

theorem head_mem_of_some (l : List String) (e : String) (h : some e = l.head?) : e ∈ l := by
  cases l with
  | nil => simp at h
  | cons a t =>
    simp at h
    simp [h]

theorem inv_main_scan (f : String → Option String) (tb0 : Table) (s : State)
    (I : Inv f tb0 s) (sc : Scan) (hm : s.main = .scan sc) (h1 : Handler)
    (new : List Routine) (out : Scan ⊕ Option String) (hr : ScanRel s.h sc h1 new out)
    (m1 : MainPc) (h1s : ∀ sc1, m1 = .scan sc1 → out = .inl sc1)
    (h1r : ∀ e, m1 = .returned (some e) → out = .inr (some e))
    (h1w : wgMain m1 = outSpawning out) :
    Inv f tb0 ⟨h1, m1, s.units ++ new⟩ := by
  obtain ⟨e1, e2, e3, e4, e5, e6, e7, e8, e9⟩ := scanRel_facts _ _ _ _ _ hr
  constructor
  · exact e1.trans I.func
  · exact e2.trans I.keys
  · intro id; exact (e4 id).trans (I.waitFor id)
  · intro u hu
    simp only [List.mem_append] at hu
    rcases hu with hu | hu
    · exact I.unitKeys u hu
    · obtain ⟨hp, hi⟩ := e5 u hu
      refine ⟨I.mainKeys sc hm _ hi, ?_⟩
      intro sc1 hsc
      rw [hp] at hsc
      cases hsc
  · intro sc1 hsc id hid
    simp only at hsc
    rcases e6 sc1 (h1s sc1 hsc) id hid with h | h
    · exact I.mainKeys sc hm id h
    · rw [← I.keys]; exact h
  · have hw := I.wg
    simp only [tot, hm, wgMain] at hw
    simp only [tot, List.map_append, List.sum_append, e9, h1w]
    omega
  · intro u hu e hpc
    simp only [List.mem_append] at hu
    rcases hu with hu | hu
    · exact I.failed u hu e hpc
    · rw [(e5 u hu).1] at hpc
      cases hpc
  · intro e he
    simp only [e3] at he
    exact I.errs e he
  · intro u hu e hpc
    simp only [List.mem_append] at hu
    simp only [e3]
    rcases hu with hu | hu
    · exact I.report u hu e hpc
    · rw [(e5 u hu).1] at hpc
      cases hpc
  · intro e he
    simp only at he
    simp only [e3]
    exact head_mem_of_some _ _ (e7 _ (h1r e he))
  · intro u hu hpc
    simp only [List.mem_append] at hu
    simp only [e3]
    rcases hu with hu | hu
    · exact I.stopped u hu hpc
    · rw [(e5 u hu).1] at hpc
      cases hpc

theorem inv_unit_scan (f : String → Option String) (tb0 : Table) (s : State)
    (I : Inv f tb0 s) (i : Nat) (id : String) (sc : Scan)
    (hu : s.units[i]? = some ⟨id, .scan sc⟩) (h1 : Handler)
    (new : List Routine) (out : Scan ⊕ Option String) (hr : ScanRel s.h sc h1 new out)
    (pc1 : UnitPc) (h1s : ∀ sc1, pc1 = .scan sc1 → out = .inl sc1)
    (h1f : ∀ e, pc1 ≠ .failed e)
    (h1r : ∀ e, pc1 = .report e → out = .inr (some e))
    (h1t : pc1 ≠ .stopped)
    (h1w : wgUnit ⟨id, pc1⟩ = 1 + outSpawning out) :
    Inv f tb0 ⟨h1, s.main, s.units.set i ⟨id, pc1⟩ ++ new⟩ := by
  obtain ⟨e1, e2, e3, e4, e5, e6, e7, e8, e9⟩ := scanRel_facts _ _ _ _ _ hr
  have hmem := mem_of_getElem_some _ _ _ hu
  have hk := I.unitKeys _ hmem
  constructor
  · exact e1.trans I.func
  · exact e2.trans I.keys
  · intro id; exact (e4 id).trans (I.waitFor id)
  · intro x hx
    rcases mem_set_append _ _ _ _ _ hx with rfl | hx | hx
    · refine ⟨hk.1, ?_⟩
      intro sc1 hsc j hj
      rcases e6 sc1 (h1s sc1 hsc) j hj with h | h
      · exact hk.2 sc rfl j h
      · rw [← I.keys]; exact h
    · exact I.unitKeys x hx
    · obtain ⟨hp, hi⟩ := e5 x hx
      refine ⟨hk.2 sc rfl _ hi, ?_⟩
      intro sc1 hsc
      rw [hp] at hsc
      cases hsc
  · intro sc1 hsc
    exact I.mainKeys sc1 hsc
  · have hw := I.wg
    have hsum := sum_map_set wgUnit s.units i _ ⟨id, pc1⟩ hu
    simp only [tot] at hw
    simp only [tot, List.map_append, List.sum_append, e9]
    rw [h1w] at hsum
    simp only [wgUnit] at hsum
    omega
  · intro x hx e hpc
    rcases mem_set_append _ _ _ _ _ hx with rfl | hx | hx
    · exact absurd hpc (h1f e)
    · exact I.failed x hx e hpc
    · rw [(e5 x hx).1] at hpc
      cases hpc
  · intro e he
    simp only [e3] at he
    exact I.errs e he
  · intro x hx e hpc
    simp only [e3]
    rcases mem_set_append _ _ _ _ _ hx with rfl | hx | hx
    · exact head_mem_of_some _ _ (e7 _ (h1r e hpc))
    · exact I.report x hx e hpc
    · rw [(e5 x hx).1] at hpc
      cases hpc
  · intro e he
    simp only [e3]
    exact I.mainret e he
  · intro x hx hpc
    simp only [e3]
    rcases mem_set_append _ _ _ _ _ hx with rfl | hx | hx
    · exact absurd hpc h1t
    · exact I.stopped x hx hpc
    · rw [(e5 x hx).1] at hpc
      cases hpc

theorem inv_unit_simple (f : String → Option String) (tb0 : Table) (s : State)
    (I : Inv f tb0 s) (i : Nat) (u : Routine) (hu : s.units[i]? = some u) (h1 : Handler)
    (pc1 : UnitPc) (c1 : h1.handlerFunc = s.h.handlerFunc)
    (c2 : h1.tasks.keys = s.h.tasks.keys)
    (c3 : ∀ id, (h1.tasks.getD id).waitFor = (s.h.tasks.getD id).waitFor)
    (c4 : ∀ e ∈ h1.errors, e ∈ s.h.errors ∨ ∃ id, f id = some e)
    (c4b : ∀ e ∈ s.h.errors, e ∈ h1.errors)
    (c5 : h1.wg + (wgUnit u : Nat) = s.h.wg + (wgUnit ⟨u.id, pc1⟩ : Nat))
    (c6 : ∀ sc, pc1 = .scan sc → sc.pending = [])
    (c7 : ∀ e, pc1 = .failed e → f u.id = some e)
    (c8 : ∀ e, pc1 ≠ .report e)
    (c9 : pc1 = .stopped → h1.errors ≠ []) :
    Inv f tb0 ⟨h1, s.main, s.units.set i ⟨u.id, pc1⟩⟩ := by
  have hmem := mem_of_getElem_some _ _ _ hu
  have hk := I.unitKeys _ hmem
  constructor
  · exact c1.trans I.func
  · exact c2.trans I.keys
  · intro id; exact (c3 id).trans (I.waitFor id)
  · intro x hx
    rcases List.mem_or_eq_of_mem_set hx with hx | rfl
    · exact I.unitKeys x hx
    · refine ⟨hk.1, ?_⟩
      intro sc1 hsc j hj
      rw [c6 sc1 hsc] at hj
      simp at hj
  · intro sc1 hsc
    exact I.mainKeys sc1 hsc
  · have hw := I.wg
    have hsum := sum_map_set wgUnit s.units i _ ⟨u.id, pc1⟩ hu
    simp only [tot] at hw
    simp only [tot]
    omega
  · intro x hx e hpc
    rcases List.mem_or_eq_of_mem_set hx with hx | rfl
    · exact I.failed x hx e hpc
    · exact c7 e hpc
  · intro e he
    rcases c4 e he with h | h
    · exact I.errs e h
    · exact h
  · intro x hx e hpc
    rcases List.mem_or_eq_of_mem_set hx with hx | rfl
    · exact c4b e (I.report x hx e hpc)
    · exact absurd hpc (c8 e)
  · intro e he
    exact c4b e (I.mainret e he)
  · intro x hx hpc
    rcases List.mem_or_eq_of_mem_set hx with hx | rfl
    · have := I.stopped x hx hpc
      intro hn
      cases hl : s.h.errors with
      | nil => exact this hl
      | cons a l =>
        have := c4b a (by simp [hl])
        rw [hn] at this
        simp at this
    · exact c9 hpc

theorem execute_of_mem (h : Handler) (id : String) (hk : id ∈ h.tasks.keys) :
    execute h id = h.handlerFunc id := by
  unfold execute
  rw [get_of_mem_keys _ _ hk]

/-- Every step of a run keeps the invariant. -/
theorem inv_step (f : String → Option String) (tb0 : Table) (s s1 : State)
    (I : Inv f tb0 s) (hs : StepRel s s1) : Inv f tb0 s1 := by
  cases hs with
  | main h1 m1 new hm =>
    cases hm0 : s.main with
    | scan sc =>
      rw [hm0] at hm
      cases hm with
      | scan _ sc1 _ _ hr =>
        exact inv_main_scan f tb0 s I sc hm0 h1 new _ hr _ (by intro x hx; cases hx; rfl)
          (by intro e he; cases he) (by simp [wgMain, outSpawning])
      | retErr _ _ _ e hr =>
        exact inv_main_scan f tb0 s I sc hm0 h1 new _ hr _ (by intro x hx; cases hx)
          (by intro e he; cases he; rfl) (by simp [wgMain, outSpawning])
      | toWait _ _ _ hr =>
        exact inv_main_scan f tb0 s I sc hm0 h1 new _ hr _ (by intro x hx; cases hx)
          (by intro e he; cases he) (by simp [wgMain, outSpawning])
    | wait =>
      rw [hm0] at hm
      cases hm with
      | woke hw =>
        constructor
        · exact I.func
        · exact I.keys
        · exact I.waitFor
        · simpa using I.unitKeys
        · intro sc hsc; cases hsc
        · have := I.wg
          simp only [tot, hm0, wgMain] at this
          simpa [tot, wgMain] using this
        · simpa using I.failed
        · exact I.errs
        · simpa using I.report
        · intro e he; cases he
        · simpa using I.stopped
    | returned r =>
      rw [hm0] at hm
      cases hm
  | unit i u u1 h1 new hu hr =>
    have hmem := mem_of_getElem_some _ _ _ hu
    have hk := I.unitKeys _ hmem
    cases hr with
    | execErr id e he =>
      have := inv_unit_simple f tb0 s I i _ hu s.h (.failed e) rfl rfl (fun _ => rfl)
        (fun e he => Or.inl he) (fun e he => he) (by simp [wgUnit]) (by intro sc h; cases h)
        (by
          intro e1 he1
          cases he1
          rw [execute_of_mem _ _ (by rw [I.keys]; exact hk.1), I.func] at he
          exact he)
        (by intro e h; cases h) (by intro h; cases h)
      simpa using this
    | execOk id he =>
      have := inv_unit_simple f tb0 s I i _ hu s.h .deferred rfl rfl (fun _ => rfl)
        (fun e he => Or.inl he) (fun e he => he) (by simp [wgUnit]) (by intro sc h; cases h)
        (by intro e h; cases h) (by intro e h; cases h) (by intro h; cases h)
      simpa using this
    | record id e =>
      have hf := I.failed _ hmem e rfl
      have := inv_unit_simple f tb0 s I i _ hu { s.h with errors := s.h.errors ++ [e] }
        .deferred rfl rfl (fun _ => rfl)
        (by
          intro e1 he1
          simp only [List.mem_append, List.mem_singleton] at he1
          rcases he1 with h | rfl
          · exact Or.inl h
          · exact Or.inr ⟨_, hf⟩)
        (by intro e1 he1; simp [he1]) (by simp [wgUnit]) (by intro sc h; cases h)
        (by intro e h; cases h) (by intro e h; cases h) (by intro h; cases h)
      simpa using this
    | setDone id =>
      have hk2 : id ∈ s.h.tasks.keys := by rw [I.keys]; exact hk.1
      have := inv_unit_simple f tb0 s I i _ hu { s.h with tasks := setDone s.h.tasks id }
        (.scan (.loop (Table.keys (setDone s.h.tasks id)))) rfl (setDone_keys _ _ hk2)
        (by
          intro j
          simp only [setDone_getD]
          split <;> rfl)
        (fun e he => Or.inl he) (fun e he => he) (by simp [wgUnit, Scan.spawning])
        (by intro sc h; cases h; rfl)
        (by intro e h; cases h) (by intro e h; cases h) (by intro h; cases h)
      simpa using this
    | scan id sc sc1 _ _ hsr =>
      exact inv_unit_scan f tb0 s I i id sc hu h1 new _ hsr _ (by intro x hx; cases hx; rfl)
        (by intro e he; cases he) (by intro e he; cases he) (by intro h; cases h)
        (by simp [wgUnit, outSpawning])
    | scanErr id sc _ _ e hsr =>
      exact inv_unit_scan f tb0 s I i id sc hu h1 new _ hsr _ (by intro x hx; cases hx)
        (by intro e he; cases he) (by intro e he; cases he; rfl) (by intro h; cases h)
        (by simp [wgUnit, outSpawning])
    | scanOk id sc _ _ hsr =>
      exact inv_unit_scan f tb0 s I i id sc hu h1 new _ hsr _ (by intro x hx; cases hx)
        (by intro e he; cases he) (by intro e he; cases he) (by intro h; cases h)
        (by simp [wgUnit, outSpawning])
    | report id e =>
      have hf := I.report _ hmem e rfl
      have := inv_unit_simple f tb0 s I i _ hu { s.h with errors := s.h.errors ++ [e] }
        .stopped rfl rfl (fun _ => rfl)
        (by
          intro e1 he1
          simp only [List.mem_append, List.mem_singleton] at he1
          rcases he1 with h | rfl
          · exact Or.inl h
          · exact Or.inl hf)
        (by intro e1 he1; simp [he1]) (by simp [wgUnit]) (by intro sc h; cases h)
        (by intro e h; cases h) (by intro e h; cases h) (by intro _; simp)
      simpa using this
    | signal id =>
      have := inv_unit_simple f tb0 s I i _ hu { s.h with wg := s.h.wg - 1 }
        .exited rfl rfl (fun _ => rfl)
        (fun e he => Or.inl he) (fun e he => he) (by simp [wgUnit]) (by intro sc h; cases h)
        (by intro e h; cases h) (by intro e h; cases h) (by intro h; cases h)
      simpa using this

/-! ## Runs of the goroutines -/

theorem run_snoc (s : State) (acts : List Act) (a : Act) :
    run s (acts ++ [a]) = (run s acts).bind (fun s1 => step s1 a) := by
  induction acts generalizing s with
  | nil =>
    simp only [List.nil_append, run, Option.some_bind]
    cases step s a <;> rfl
  | cons x xs ih =>
    simp only [List.cons_append, run]
    cases step s x with
    | none => rfl
    | some s1 => exact ih s1

theorem run_snoc_some (s s2 : State) (acts : List Act) (a : Act)
    (h : run s (acts ++ [a]) = some s2) :
    ∃ s1, run s acts = some s1 ∧ step s1 a = some s2 := by
  rw [run_snoc] at h
  cases h1 : run s acts with
  | none => simp [h1] at h
  | some s1 => exact ⟨s1, rfl, by simpa [h1] using h⟩

theorem inv_init (f : String → Option String) (tb0 : Table) :
    Inv f tb0 (initState ⟨f, tb0, [], 0⟩) := by
  constructor <;> simp [initState, tot, wgMain, Scan.spawning, Scan.pending]

theorem inv_of_run (f : String → Option String) (tb0 : Table) (acts : List Act) (s : State)
    (h : run (initState ⟨f, tb0, [], 0⟩) acts = some s) : Inv f tb0 s := by
  induction acts using List.reverseRecOn generalizing s with
  | nil =>
    simp only [run, Option.some.injEq] at h
    subst h
    exact inv_init f tb0
  | append_singleton acts a ih =>
    obtain ⟨s1, h1, h2⟩ := run_snoc_some _ _ _ _ h
    exact inv_step f tb0 s1 s (ih s1 h1) (step_rel _ _ _ h2)

/-! ## Termination -/

theorem notStarted_set (tb : Table) (id : String) (t t1 : task) (h : tb.get id = some t) :
    notStarted (tb.set id t1) + (if t.started then 0 else 1) =
      notStarted tb + (if t1.started then 0 else 1) := by
  induction tb with
  | nil => simp [Table.get] at h
  | cons e r ih =>
    obtain ⟨k, v⟩ := e
    by_cases hk : k = id
    · simp only [Table.get, hk, if_true, Option.some.injEq] at h
      subst h
      simp only [Table.set, hk, if_true, notStarted]
      omega
    · simp only [Table.get, hk, if_false] at h
      have := ih h
      simp only [Table.set, hk, if_false, notStarted]
      omega

theorem notStarted_tryStart (tb : Table) (id : String) (h : (tryStart tb id).2 = true) :
    notStarted (tryStart tb id).1 + 1 = notStarted tb := by
  obtain ⟨t, hg, _, hs, _⟩ := (tryStart_true_iff tb id).1 h
  rw [tryStart_table]
  simp only [h, if_true]
  have := notStarted_set tb id t { tb.getD id with started := true } hg
  simp only [hs, Bool.false_eq_true, if_false, if_true] at this
  omega

theorem notStarted_setDone (tb : Table) (id : String) (h : id ∈ tb.keys) :
    notStarted (setDone tb id) = notStarted tb := by
  have hg := get_of_mem_keys tb id h
  have := notStarted_set tb id (tb.getD id) { tb.getD id with done := true } hg
  unfold setDone
  simp only at this ⊢
  omega

theorem notStarted_le (tb : Table) : notStarted tb ≤ tb.length := by
  induction tb with
  | nil => simp [notStarted]
  | cons e r ih =>
    obtain ⟨k, v⟩ := e
    simp only [notStarted, List.length_cons]
    split <;> omega

theorem scan_cost (n : Nat) (h h1 : Handler) (sc : Scan) (new : List Routine)
    (out : Scan ⊕ Option String) (hr : ScanRel h sc h1 new out) :
    unitCost n * notStarted h1.tasks + costOut n out + (new.map (costUnit n)).sum <
      unitCost n * notStarted h.tasks + costScan n sc + 1 := by
  cases hr with
  | fin => simp [costOut, costScan]
  | skip todo key hm ht =>
    have := List.length_erase_of_mem hm
    have hpos : 0 < todo.length := List.length_pos_of_mem hm
    simp only [costOut, costScan, List.map_nil, List.sum_nil]
    omega
  | start todo key hm ht =>
    have := List.length_erase_of_mem hm
    have hpos : 0 < todo.length := List.length_pos_of_mem hm
    have hns := notStarted_tryStart _ _ ht
    simp only [costOut, costScan, List.map_nil, List.sum_nil]
    rw [← hns, Nat.mul_succ]
    omega
  | add id todo =>
    simp only [costOut, costScan, List.map_nil, List.sum_nil]
    omega
  | spawn id todo =>
    simp only [costOut, costScan, List.map_cons, List.map_nil, List.sum_cons, List.sum_nil,
      costUnit]
    omega

/-- Every step of a run lowers the potential. -/
theorem potential_step (f : String → Option String) (tb0 : Table) (s s1 : State)
    (I : Inv f tb0 s) (hs : StepRel s s1) :
    potential tb0.length s1 < potential tb0.length s := by
  cases hs with
  | main h1 m1 new hm =>
    cases hm0 : s.main with
    | scan sc =>
      rw [hm0] at hm
      cases hm with
      | scan _ sc1 _ _ hr =>
        have := scan_cost tb0.length _ _ _ _ _ hr
        simp only [potential, tot, hm0, costMain, List.map_append, List.sum_append]
        simp only [costOut] at this
        omega
      | retErr _ _ _ e hr =>
        have := scan_cost tb0.length _ _ _ _ _ hr
        simp only [potential, tot, hm0, costMain, List.map_append, List.sum_append]
        simp only [costOut] at this
        omega
      | toWait _ _ _ hr =>
        have := scan_cost tb0.length _ _ _ _ _ hr
        simp only [potential, tot, hm0, costMain, List.map_append, List.sum_append]
        simp only [costOut] at this
        omega
    | wait =>
      rw [hm0] at hm
      cases hm with
      | woke hw =>
        simp only [potential, tot, hm0, costMain, List.append_nil]
        omega
    | returned r =>
      rw [hm0] at hm
      cases hm
  | unit i u u1 h1 new hu hr =>
    have hmem := mem_of_getElem_some _ _ _ hu
    have hk := I.unitKeys _ hmem
    have hsum := sum_map_set (costUnit tb0.length) s.units i u u1 hu
    cases hr with
    | execErr id e he =>
      simp only [potential, tot, List.append_nil]
      simp only [costUnit, unitCost] at hsum
      omega
    | execOk id he =>
      simp only [potential, tot, List.append_nil]
      simp only [costUnit, unitCost] at hsum
      omega
    | record id e =>
      simp only [potential, tot, List.append_nil]
      simp only [costUnit] at hsum
      omega
    | setDone id =>
      have hk2 : id ∈ s.h.tasks.keys := by rw [I.keys]; exact hk.1
      have hlen : (Table.keys (setDone s.h.tasks id)).length = tb0.length := by
        rw [setDone_keys _ _ hk2, I.keys]
        simp [Table.keys]
      simp only [potential, tot, List.append_nil, notStarted_setDone _ _ hk2]
      simp only [costUnit, costScan, hlen] at hsum
      omega
    | scan id sc sc1 _ _ hsr =>
      have := scan_cost tb0.length _ _ _ _ _ hsr
      simp only [potential, tot, List.map_append, List.sum_append]
      simp only [costOut] at this
      simp only [costUnit] at hsum
      omega
    | scanErr id sc _ _ e hsr =>
      have := scan_cost tb0.length _ _ _ _ _ hsr
      simp only [potential, tot, List.map_append, List.sum_append]
      simp only [costOut] at this
      simp only [costUnit] at hsum
      omega
    | scanOk id sc _ _ hsr =>
      have := scan_cost tb0.length _ _ _ _ _ hsr
      simp only [potential, tot, List.map_append, List.sum_append]
      simp only [costOut] at this
      simp only [costUnit] at hsum
      omega
    | report id e =>
      simp only [potential, tot, List.append_nil]
      simp only [costUnit] at hsum
      omega
    | signal id =>
      simp only [potential, tot, List.append_nil]
      simp only [costUnit] at hsum
      omega

theorem run_length_bound (f : String → Option String) (tb0 : Table) (acts : List Act)
    (s : State) (h : run (initState ⟨f, tb0, [], 0⟩) acts = some s) :
    acts.length + potential tb0.length s ≤
      potential tb0.length (initState ⟨f, tb0, [], 0⟩) := by
  induction acts using List.reverseRecOn generalizing s with
  | nil =>
    simp only [run, Option.some.injEq] at h
    subst h
    simp
  | append_singleton acts a ih =>
    obtain ⟨s1, h1, h2⟩ := run_snoc_some _ _ _ _ h
    have := ih s1 h1
    have := potential_step f tb0 s1 s (inv_of_run f tb0 acts s1 h1) (step_rel _ _ _ h2)
    simp only [List.length_append, List.length_singleton]
    omega

theorem potential_init_le (f : String → Option String) (tb0 : Table) :
    potential tb0.length (initState ⟨f, tb0, [], 0⟩) ≤
      (3 * tb0.length + 5) * tb0.length + 3 * tb0.length + 2 := by
  have := notStarted_le tb0
  have h2 : unitCost tb0.length * notStarted tb0 ≤ unitCost tb0.length * tb0.length :=
    Nat.mul_le_mul_left _ this
  simp only [potential, initState, tot, costMain, costScan, List.map_nil, List.sum_nil,
    Table.keys, List.length_map]
  simp only [unitCost] at h2 ⊢
  omega

/-! ## States without a next step -/

theorem scan_enabled (h : Handler) (sc : Scan) : ∃ key, scanStep h sc key ≠ none := by
  cases sc with
  | loop todo =>
    cases todo with
    | nil => exact ⟨"", by simp [scanStep]⟩
    | cons k ks =>
      refine ⟨k, ?_⟩
      simp only [scanStep, List.mem_cons, true_or, if_true]
      split <;> simp
  | add id todo => exact ⟨"", by simp [scanStep]⟩
  | spawn id todo => exact ⟨"", by simp [scanStep]⟩

theorem main_enabled (s : State) (sc : Scan) (hm : s.main = .scan sc) :
    ∃ key, step s (.main key) ≠ none := by
  obtain ⟨key, hk⟩ := scan_enabled s.h sc
  refine ⟨key, ?_⟩
  simp only [step, stepMain, hm]
  cases hsc : scanStep s.h sc key with
  | none => exact absurd hsc hk
  | some r =>
    obtain ⟨h1, new, out⟩ := r
    cases out with
    | inl sc1 => simp
    | inr r => cases r <;> simp

theorem unit_enabled (s : State) (i : Nat) (u : Routine) (hu : s.units[i]? = some u)
    (h1 : u.pc ≠ .stopped) (h2 : u.pc ≠ .exited) : ∃ key, step s (.unit i key) ≠ none := by
  obtain ⟨id, pc⟩ := u
  cases pc with
  | exec =>
    refine ⟨"", ?_⟩
    simp only [step, stepUnit, hu]
    cases execute s.h id <;> simp
  | failed e => exact ⟨"", by simp [step, stepUnit, hu]⟩
  | deferred => exact ⟨"", by simp [step, stepUnit, hu]⟩
  | scan sc =>
    obtain ⟨key, hk⟩ := scan_enabled s.h sc
    refine ⟨key, ?_⟩
    simp only [step, stepUnit, hu]
    cases hsc : scanStep s.h sc key with
    | none => exact absurd hsc hk
    | some r =>
      obtain ⟨h1, new, out⟩ := r
      cases out with
      | inl sc1 => simp
      | inr r => cases r <;> simp
  | report e => exact ⟨"", by simp [step, stepUnit, hu]⟩
  | stopped => exact absurd rfl h1
  | signal => exact ⟨"", by simp [step, stepUnit, hu]⟩
  | exited => exact absurd rfl h2

/-- In a state without a next step every launched goroutine has ended, and the
goroutine of `Run` has returned or is blocked in `Wait` on a counter that is
not zero. -/
theorem stuck_cases (s : State) (hst : ∀ a, step s a = none) :
    (∀ u ∈ s.units, u.pc = .stopped ∨ u.pc = .exited) ∧
    ((s.main = .wait ∧ s.h.wg ≠ 0) ∨ ∃ r, s.main = .returned r) := by
  constructor
  · intro u hu
    obtain ⟨i, hi, rfl⟩ := List.getElem_of_mem hu
    by_contra hc
    simp only [not_or] at hc
    obtain ⟨key, hk⟩ := unit_enabled s i _ (List.getElem?_eq_getElem hi) hc.1 hc.2
    exact hk (hst _)
  · cases hm : s.main with
    | scan sc =>
      obtain ⟨key, hk⟩ := main_enabled s sc hm
      exact absurd (hst _) hk
    | wait =>
      left
      refine ⟨rfl, ?_⟩
      intro hw
      have := hst (.main "")
      simp [step, stepMain, hm, hw] at this
    | returned r => exact Or.inr ⟨r, rfl⟩

theorem sum_wgUnit_zero (us : List Routine) (h : ∀ u ∈ us, u.pc = .exited) :
    (us.map wgUnit).sum = 0 := by
  induction us with
  | nil => rfl
  | cons u r ih =>
    have h1 := h u (by simp)
    have h2 := ih (fun x hx => h x (by simp [hx]))
    simp only [List.map_cons, List.sum_cons, h2, wgUnit, h1]

/-! ## Claims on the result of `Run` -/

/-- The runs in which no unlocked access collides: for a handler built by
`NewHandler` with a callback that returns nil for every id, in every such run
the error list is empty, the wait counter is the number of launched goroutines
that have not called `Done` plus the launches counted and not yet made, no
goroutine ends without calling `Done`, the run has at most `(3n+5)n + 3n + 2`
steps for `n` tasks, `Run` returns nothing but nil, and in a state without a
next step `Run` has returned nil, the counter is zero and every launched
goroutine has called `Done`. -/
theorem run_all_ok (f : String → Option String) (ts : List Task) (h : Handler)
    (hr : NewHandler (some f) ts = (some h, none)) (hf : ∀ id, f id = none)
    (acts : List Act) (s : State) (hrun : run (initState h) acts = some s) :
    s.h.errors = [] ∧
    s.h.wg = ((tot wgMain wgUnit s : Nat) : Int) ∧
    (∀ u ∈ s.units, u.pc ≠ .stopped) ∧
    acts.length ≤ (3 * ts.length + 5) * ts.length + 3 * ts.length + 2 ∧
    (∀ r, s.main = .returned r → r = none) ∧
    ((∀ a, step s a = none) →
      s.main = .returned none ∧ s.h.wg = 0 ∧ ∀ u ∈ s.units, u.pc = .exited) := by
  obtain ⟨hw, _, g, hg, rfl⟩ := wellFormed_of_NewHandler (some f) ts h none hr
  simp only [Option.some.injEq] at hg
  subst hg
  have I := inv_of_run f _ acts s hrun
  have herr : s.h.errors = [] := by
    cases he : s.h.errors with
    | nil => rfl
    | cons e l =>
      obtain ⟨id, hid⟩ := I.errs e (by simp [he])
      rw [hf id] at hid
      cases hid
  have hstop : ∀ u ∈ s.units, u.pc ≠ .stopped := fun u hu hpc => I.stopped u hu hpc herr
  have hret : ∀ r, s.main = .returned r → r = none := by
    intro r hm
    cases r with
    | none => rfl
    | some e =>
      have := I.mainret e hm
      rw [herr] at this
      simp at this
  refine ⟨herr, I.wg, hstop, ?_, hret, ?_⟩
  · have h1 := run_length_bound f _ acts s hrun
    have h2 := potential_init_le f (ts.map entryOf)
    simp only [List.length_map] at h1 h2
    omega
  · intro hst
    obtain ⟨hall, hmain⟩ := stuck_cases s hst
    have hex : ∀ u ∈ s.units, u.pc = .exited := by
      intro u hu
      rcases hall u hu with h | h
      · exact absurd h (hstop u hu)
      · exact h
    have hsum := sum_wgUnit_zero s.units hex
    have hwg := I.wg
    rcases hmain with ⟨hm, hne⟩ | ⟨r, hm⟩
    · simp only [tot, hm, wgMain, hsum] at hwg
      exact absurd hwg hne
    · simp only [tot, hm, wgMain, hsum] at hwg
      rw [hret r hm] at hm
      exact ⟨hm, hwg, hex⟩

theorem run_all_ok_witness :
    run (initState ⟨okFunc, pairTasks.map entryOf, [], 0⟩) pairActs = some pairDone ∧
    (pairDone.h.errors = [] ∧
     pairDone.h.wg = ((tot wgMain wgUnit pairDone : Nat) : Int) ∧
     (∀ u ∈ pairDone.units, u.pc ≠ .stopped) ∧
     pairActs.length ≤ (3 * pairTasks.length + 5) * pairTasks.length + 3 * pairTasks.length + 2 ∧
     (∀ r, pairDone.main = .returned r → r = none) ∧
     ((∀ a, step pairDone a = none) →
       pairDone.main = .returned none ∧ pairDone.h.wg = 0 ∧
         ∀ u ∈ pairDone.units, u.pc = .exited)) :=
  ⟨by rfl, run_all_ok okFunc pairTasks ⟨okFunc, pairTasks.map entryOf, [], 0⟩ (by rfl)
    (fun _ => rfl) pairActs pairDone (by rfl)⟩

/-- C8 (the code at the failing input): two roots `A` and `D` and a callback
that returns nil. `Run` launches `A` and stands at the head of its `range` over
the map with `D` still to visit, while the goroutine of `A`, whose callback has
returned, is about to write the same map in `setDone`: both steps are enabled,
and nothing orders the unlocked iteration and the write. The Go runtime aborts
a run in which the two overlap, so that `Run` does not return nil in every
run. -/
theorem range_overlaps_write :
    NewHandler (some okFunc) rootsTasks =
      (some ⟨okFunc, rootsTasks.map entryOf, [], 0⟩, none) ∧
    (∀ id, okFunc id = none) ∧
    run (initState ⟨okFunc, rootsTasks.map entryOf, [], 0⟩) rootsRaceActs = some rootsRacing ∧
    rootsRacing.main = .scan (.loop ["D"]) ∧
    rootsRacing.units[0]? = some ⟨"A", .deferred⟩ ∧
    (step rootsRacing (.main "D")).isSome = true ∧
    (step rootsRacing (.unit 0 "")).isSome = true ∧
    mapRace rootsRacing :=
  ⟨by rfl, fun _ => rfl, by rfl, by rfl, by rfl, by rfl, by rfl,
    ⟨0, ⟨"A", .deferred⟩, by rfl, rfl, Or.inl ⟨.loop ["D"], rfl, rfl⟩⟩⟩

/-! ## One goroutine per task -/

theorem scanRel_facts2 (h h1 : Handler) (sc : Scan) (new : List Routine)
    (out : Scan ⊕ Option String) (hr : ScanRel h sc h1 new out) :
    (∀ id, (h1.tasks.getD id).done = (h.tasks.getD id).done) ∧
    (∀ id, (h.tasks.getD id).started = true → (h1.tasks.getD id).started = true) ∧
    (∀ id, (new.map (preUnit id)).sum = (new.map (ownUnit id)).sum) ∧
    (∀ id, outOwns id out + (new.map (ownUnit id)).sum = sc.owns id ∨
      (outOwns id out + (new.map (ownUnit id)).sum = sc.owns id + 1 ∧
        (h.tasks.getD id).started = false ∧ (h1.tasks.getD id).started = true ∧
        (h.tasks.getD id).done = false)) := by
  cases hr with
  | fin => simp [outOwns, Scan.owns, Scan.pending]
  | skip todo key hm ht => simp [outOwns, Scan.owns, Scan.pending]
  | start todo key hm ht =>
    obtain ⟨t, hg, hd, hs, _⟩ := (tryStart_true_iff _ _).1 ht
    have hgd := Table.getD_of_get _ _ _ hg
    refine ⟨?_, ?_, by simp, ?_⟩
    · intro id
      simp only [tryStart_getD]
      split <;> rfl
    · intro id hst
      simp only [tryStart_getD]
      split <;> simp [hst]
    · intro id
      by_cases hid : id = key
      · right
        subst hid
        simp only [outOwns, Scan.owns, Scan.pending, List.mem_singleton, if_true, List.map_nil,
          List.sum_nil, List.not_mem_nil, if_false, tryStart_getD, ht, true_and, hgd, hs, hd]
        simp
      · left
        simp [outOwns, Scan.owns, Scan.pending, hid]
  | add id todo => simp [outOwns, Scan.owns, Scan.pending]
  | spawn id todo =>
    refine ⟨fun _ => rfl, fun _ h => h, ?_, ?_⟩
    · intro j
      simp [preUnit, ownUnit, UnitPc.early]
    · intro j
      left
      by_cases hj : id = j
      · subst hj
        simp [outOwns, Scan.owns, Scan.pending, ownUnit, pcOwns]
      · have hj2 : ¬ j = id := fun e => hj e.symm
        simp [outOwns, Scan.owns, Scan.pending, ownUnit, pcOwns, hj, hj2]

theorem preUnit_le_ownUnit (id : String) (u : Routine) : preUnit id u ≤ ownUnit id u := by
  unfold preUnit ownUnit
  by_cases h : u.id = id <;> by_cases h2 : u.pc.early = true <;> simp [h, h2]

theorem sum_pre_le_own (id : String) (us : List Routine) :
    (us.map (preUnit id)).sum ≤ (us.map (ownUnit id)).sum := by
  induction us with
  | nil => simp
  | cons u r ih =>
    have := preUnit_le_ownUnit id u
    simp only [List.map_cons, List.sum_cons]
    omega

theorem le_sum_of_mem (w : Routine → Nat) (us : List Routine) (u : Routine) (h : u ∈ us) :
    w u ≤ (us.map w).sum := by
  induction us with
  | nil => simp at h
  | cons x r ih =>
    simp only [List.mem_cons] at h
    simp only [List.map_cons, List.sum_cons]
    rcases h with rfl | h
    · omega
    · have := ih h
      omega

theorem inv2_main_scan (f : String → Option String) (s : State)
    (J : Inv2 f s) (sc : Scan) (hm : s.main = .scan sc) (h1 : Handler)
    (new : List Routine) (out : Scan ⊕ Option String) (hr : ScanRel s.h sc h1 new out)
    (m1 : MainPc) (h1o : ∀ id, ownMain id m1 = outOwns id out) :
    Inv2 f ⟨h1, m1, s.units ++ new⟩ := by
  obtain ⟨_, _, e3, _, e5, _, _, _, _⟩ := scanRel_facts _ _ _ _ _ hr
  obtain ⟨g1, g2, g3, g4⟩ := scanRel_facts2 _ _ _ _ _ hr
  constructor
  · intro id
    have hJ := J.own id
    simp only [tot, hm, ownMain] at hJ
    simp only [tot, h1o, List.map_append, List.sum_append]
    rcases g4 id with h | ⟨h, hs0, hs1, _⟩
    · refine ⟨by omega, ?_⟩
      intro hpos
      exact g2 id (hJ.2 (by omega))
    · have hz : sc.owns id + (s.units.map (ownUnit id)).sum = 0 := by
        by_contra hc
        have := hJ.2 (by omega)
        rw [hs0] at this
        cases this
      exact ⟨by omega, fun _ => hs1⟩
  · intro id
    have hJ := J.pre id
    simp only [tot, hm, ownMain] at hJ
    simp only [tot, h1o, List.map_append, List.sum_append, g3, g1]
    rcases g4 id with h | ⟨h, _, _, hd0⟩
    · intro hpos
      exact hJ (by omega)
    · exact fun _ => hd0
  · intro u hu hpc
    simp only [List.mem_append] at hu
    simp only [g1]
    rcases hu with hu | hu
    · exact J.post u hu hpc
    · rw [(e5 u hu).1] at hpc
      simp [UnitPc.early] at hpc
  · intro u hu e hfe hne hnf
    simp only [List.mem_append] at hu
    simp only [e3]
    rcases hu with hu | hu
    · exact J.recorded u hu e hfe hne hnf
    · exact absurd (e5 u hu).1 hne

theorem inv2_unit_scan (f : String → Option String) (s : State)
    (J : Inv2 f s) (i : Nat) (uid : String) (sc : Scan)
    (hu : s.units[i]? = some ⟨uid, .scan sc⟩) (h1 : Handler)
    (new : List Routine) (out : Scan ⊕ Option String) (hr : ScanRel s.h sc h1 new out)
    (pc1 : UnitPc) (h1o : ∀ id, pcOwns id pc1 = outOwns id out)
    (h1e : pc1.early = false) :
    Inv2 f ⟨h1, s.main, s.units.set i ⟨uid, pc1⟩ ++ new⟩ := by
  obtain ⟨_, _, e3, _, e5, _, _, _, _⟩ := scanRel_facts _ _ _ _ _ hr
  obtain ⟨g1, g2, g3, g4⟩ := scanRel_facts2 _ _ _ _ _ hr
  have hmem := mem_of_getElem_some _ _ _ hu
  constructor
  · intro id
    have hJ := J.own id
    have hsum := sum_map_set (ownUnit id) s.units i _ ⟨uid, pc1⟩ hu
    simp only [ownUnit, h1o] at hsum
    simp only [pcOwns] at hsum
    simp only [tot] at hJ
    simp only [tot, List.map_append, List.sum_append]
    rcases g4 id with h | ⟨h, hs0, hs1, _⟩
    · refine ⟨by omega, ?_⟩
      intro hpos
      exact g2 id (hJ.2 (by omega))
    · have hz : ownMain id s.main + (s.units.map (ownUnit id)).sum = 0 := by
        by_contra hc
        have := hJ.2 (by omega)
        rw [hs0] at this
        cases this
      exact ⟨by omega, fun _ => hs1⟩
  · intro id
    have hJ := J.pre id
    have hsum := sum_map_set (preUnit id) s.units i _ ⟨uid, pc1⟩ hu
    simp only [preUnit, h1o, h1e] at hsum
    simp only [pcOwns, UnitPc.early, Bool.false_eq_true, and_false, if_false] at hsum
    simp only [tot] at hJ
    simp only [tot, List.map_append, List.sum_append, g3, g1]
    rcases g4 id with h | ⟨h, _, _, hd0⟩
    · intro hpos
      exact hJ (by omega)
    · exact fun _ => hd0
  · intro x hx hpc
    simp only [g1]
    rcases mem_set_append _ _ _ _ _ hx with rfl | hx | hx
    · exact J.post ⟨uid, .scan sc⟩ hmem rfl
    · exact J.post x hx hpc
    · rw [(e5 x hx).1] at hpc
      simp [UnitPc.early] at hpc
  · intro x hx e hfe hne hnf
    simp only [e3]
    rcases mem_set_append _ _ _ _ _ hx with rfl | hx | hx
    · exact J.recorded ⟨uid, .scan sc⟩ hmem e hfe (by simp) (by simp)
    · exact J.recorded x hx e hfe hne hnf
    · exact absurd (e5 x hx).1 hne

theorem inv2_unit_plain (f : String → Option String) (s : State)
    (J : Inv2 f s) (i : Nat) (u : Routine) (hu : s.units[i]? = some u) (h1 : Handler)
    (pc1 : UnitPc) (c1 : h1.tasks = s.h.tasks) (c2 : ∀ e ∈ s.h.errors, e ∈ h1.errors)
    (c3 : ∀ id, pcOwns id u.pc = 0 ∧ pcOwns id pc1 = 0) (c4 : pc1.early = u.pc.early)
    (c5 : ∀ e, f u.id = some e → pc1 ≠ .exec → (∀ e1, pc1 ≠ .failed e1) →
      (u.pc ≠ .exec ∧ (∀ e1, u.pc ≠ .failed e1)) ∨ e ∈ h1.errors) :
    Inv2 f ⟨h1, s.main, s.units.set i ⟨u.id, pc1⟩⟩ := by
  have hmem := mem_of_getElem_some _ _ _ hu
  constructor
  · intro id
    have hJ := J.own id
    have hsum := sum_map_set (ownUnit id) s.units i _ ⟨u.id, pc1⟩ hu
    simp only [ownUnit, (c3 id).1, (c3 id).2] at hsum
    simp only [tot] at hJ
    simp only [tot, c1]
    refine ⟨by omega, ?_⟩
    intro hpos
    exact hJ.2 (by omega)
  · intro id
    have hJ := J.pre id
    have hsum := sum_map_set (preUnit id) s.units i _ ⟨u.id, pc1⟩ hu
    simp only [preUnit, (c3 id).1, (c3 id).2, c4] at hsum
    simp only [tot] at hJ
    simp only [tot, c1]
    intro hpos
    exact hJ (by omega)
  · intro x hx hpc
    simp only [c1]
    rcases List.mem_or_eq_of_mem_set hx with hx | rfl
    · exact J.post x hx hpc
    · simp only at hpc ⊢
      rw [c4] at hpc
      exact J.post u hmem hpc
  · intro x hx e hfe hne hnf
    rcases List.mem_or_eq_of_mem_set hx with hx | rfl
    · exact c2 e (J.recorded x hx e hfe hne hnf)
    · rcases c5 e hfe hne hnf with h | h
      · exact c2 e (J.recorded u hmem e hfe h.1 h.2)
      · exact h

theorem inv2_unit_setDone (f : String → Option String) (s : State)
    (J : Inv2 f s) (i : Nat) (uid : String) (hu : s.units[i]? = some ⟨uid, .deferred⟩) :
    Inv2 f ⟨{ s.h with tasks := setDone s.h.tasks uid }, s.main,
      s.units.set i ⟨uid, .scan (.loop (Table.keys (setDone s.h.tasks uid)))⟩⟩ := by
  have hmem := mem_of_getElem_some _ _ _ hu
  constructor
  · intro id
    have hJ := J.own id
    have hsum := sum_map_set (ownUnit id) s.units i _
      ⟨uid, .scan (.loop (Table.keys (setDone s.h.tasks uid)))⟩ hu
    simp only [ownUnit, pcOwns, Scan.owns, Scan.pending, List.not_mem_nil, if_false] at hsum
    simp only [tot] at hJ
    simp only [tot]
    refine ⟨by omega, ?_⟩
    intro hpos
    simp only [setDone_getD]
    have := hJ.2 (by omega)
    split <;> simp [this]
  · intro id
    have hJ := J.pre id
    have hJo := J.own id
    have hle := sum_pre_le_own id s.units
    have hsum := sum_map_set (preUnit id) s.units i _
      ⟨uid, .scan (.loop (Table.keys (setDone s.h.tasks uid)))⟩ hu
    simp only [preUnit, pcOwns, Scan.owns, Scan.pending, List.not_mem_nil, if_false,
      UnitPc.early, Bool.false_eq_true, and_false, and_true] at hsum
    simp only [tot] at hJ hJo
    simp only [tot, setDone_getD]
    intro hpos
    by_cases hid : uid = id
    · subst hid
      simp only [if_true] at hsum
      omega
    · simp only [hid, if_false] at hsum ⊢
      exact hJ (by omega)
  · intro x hx hpc
    simp only [setDone_getD]
    rcases List.mem_or_eq_of_mem_set hx with hx | rfl
    · have := J.post x hx hpc
      split <;> simp [this]
    · simp
  · intro x hx e hfe hne hnf
    rcases List.mem_or_eq_of_mem_set hx with hx | rfl
    · exact J.recorded x hx e hfe hne hnf
    · exact J.recorded ⟨uid, .deferred⟩ hmem e hfe (by simp) (by simp)

/-- Every step of a run keeps the second invariant. -/
theorem inv2_step (f : String → Option String) (tb0 : Table) (s s1 : State)
    (I : Inv f tb0 s) (J : Inv2 f s) (hs : StepRel s s1) : Inv2 f s1 := by
  cases hs with
  | main h1 m1 new hm =>
    cases hm0 : s.main with
    | scan sc =>
      rw [hm0] at hm
      cases hm with
      | scan _ sc1 _ _ hr => exact inv2_main_scan f s J sc hm0 h1 new _ hr _ (fun _ => rfl)
      | retErr _ _ _ e hr => exact inv2_main_scan f s J sc hm0 h1 new _ hr _ (fun _ => rfl)
      | toWait _ _ _ hr => exact inv2_main_scan f s J sc hm0 h1 new _ hr _ (fun _ => rfl)
    | wait =>
      rw [hm0] at hm
      cases hm with
      | woke hw =>
        constructor
        · intro id
          have := J.own id
          simp only [tot, hm0, ownMain] at this
          simpa [tot, ownMain] using this
        · intro id
          have := J.pre id
          simp only [tot, hm0, ownMain] at this
          simpa [tot, ownMain] using this
        · simpa using J.post
        · simpa using J.recorded
    | returned r =>
      rw [hm0] at hm
      cases hm
  | unit i u u1 h1 new hu hr =>
    have hmem := mem_of_getElem_some _ _ _ hu
    have hk := I.unitKeys _ hmem
    cases hr with
    | execErr id e he =>
      have := inv2_unit_plain f s J i _ hu s.h (.failed e) rfl (fun _ h => h)
        (fun _ => ⟨rfl, rfl⟩) rfl (fun e1 _ _ hnf => absurd rfl (hnf e))
      simpa using this
    | execOk id he =>
      have := inv2_unit_plain f s J i _ hu s.h .deferred rfl (fun _ h => h)
        (fun _ => ⟨rfl, rfl⟩) rfl
        (by
          intro e1 hfe _ _
          rw [execute_of_mem _ _ (by rw [I.keys]; exact hk.1), I.func] at he
          simp only at hfe
          rw [he] at hfe
          cases hfe)
      simpa using this
    | record id e =>
      have hf := I.failed _ hmem e rfl
      have := inv2_unit_plain f s J i _ hu { s.h with errors := s.h.errors ++ [e] } .deferred
        rfl (by intro e1 he1; simp [he1]) (fun _ => ⟨rfl, rfl⟩) rfl
        (by
          intro e1 hfe _ _
          simp only at hfe hf
          rw [hf] at hfe
          cases hfe
          right
          simp)
      simpa using this
    | setDone id =>
      have := inv2_unit_setDone f s J i id hu
      simpa using this
    | scan id sc sc1 _ _ hsr =>
      exact inv2_unit_scan f s J i id sc hu h1 new _ hsr _ (fun _ => rfl) rfl
    | scanErr id sc _ _ e hsr =>
      exact inv2_unit_scan f s J i id sc hu h1 new _ hsr _ (fun _ => rfl) rfl
    | scanOk id sc _ _ hsr =>
      exact inv2_unit_scan f s J i id sc hu h1 new _ hsr _ (fun _ => rfl) rfl
    | report id e =>
      have := inv2_unit_plain f s J i _ hu { s.h with errors := s.h.errors ++ [e] } .stopped
        rfl (by intro e1 he1; simp [he1]) (fun _ => ⟨rfl, rfl⟩) rfl
        (fun _ _ _ _ => Or.inl ⟨by simp, by simp⟩)
      simpa using this
    | signal id =>
      have := inv2_unit_plain f s J i _ hu { s.h with wg := s.h.wg - 1 } .exited
        rfl (fun _ h => h) (fun _ => ⟨rfl, rfl⟩) rfl
        (fun _ _ _ _ => Or.inl ⟨by simp, by simp⟩)
      simpa using this

theorem inv2_of_run (f : String → Option String) (tb0 : Table) (acts : List Act) (s : State)
    (h : run (initState ⟨f, tb0, [], 0⟩) acts = some s) : Inv2 f s := by
  induction acts using List.reverseRecOn generalizing s with
  | nil =>
    simp only [run, Option.some.injEq] at h
    subst h
    constructor <;> simp [initState, tot, ownMain, Scan.owns, Scan.pending]
  | append_singleton acts a ih =>
    obtain ⟨s1, h1, h2⟩ := run_snoc_some _ _ _ _ h
    exact inv2_step f tb0 s1 s (inv_of_run f tb0 acts s1 h1) (ih s1 h1) (step_rel _ _ _ h2)

/-! ## Claims on failing callbacks -/

/-- C7 (as stated, refuted): `B` waits for `A` and the callback fails on `A`;
the error is recorded, the deferred `setDone` marks `A` done all the same,
`tryStart` then returns `true` for `B`, and the callback of `B` is invoked. -/
theorem failed_dependency_counterexample :
    failOnA "A" = some "boom" ∧
    (⟨"B", ["A"], false⟩ : Task) ∈ pairTasks ∧
    NewHandler (some failOnA) pairTasks =
      (some ⟨failOnA, pairTasks.map entryOf, [], 0⟩, none) ∧
    run (initState ⟨failOnA, pairTasks.map entryOf, [], 0⟩) pairFailActs = some pairFailed ∧
    pairFailed.h.errors = ["boom"] ∧
    (pairFailed.h.tasks.getD "A").done = true ∧
    (tryStart pairFailed.h.tasks "B").2 = true ∧
    run pairFailed pairFailMore = some pairFailedB ∧
    pairFailedB.units[1]? = some ⟨"B", .deferred⟩ :=
  ⟨by rfl, by decide, by rfl, by rfl, by rfl, by decide, by decide, by rfl, by rfl⟩

theorem early_cases (pc : UnitPc) (h : pc.early = false) :
    pc ≠ .exec ∧ (∀ e, pc ≠ .failed e) ∧ pc ≠ .deferred := by
  cases pc <;> simp [UnitPc.early] at h ⊢

/-- C7 (amended): in a run of a handler built by `NewHandler`, for the
goroutine of a task `A` on which the callback returns an error `e`: its
`execute` step yields that error; as long as its `setDone` has not run, `A` is
not done and `tryStart` returns `false` for every task that waits for `A`; the
deferred `setDone` marks `A` done all the same; and from then on `A` is done,
so that it holds back no task that waits for it. -/
theorem failed_task_still_done (f : String → Option String) (ts : List Task) (h : Handler)
    (hr : NewHandler (some f) ts = (some h, none))
    (acts : List Act) (s : State) (hrun : run (initState h) acts = some s)
    (i : Nat) (u : Routine) (hu : s.units[i]? = some u) (e : String)
    (hfe : f u.id = some e) :
    (u.pc = .exec → ∀ key s1, step s (.unit i key) = some s1 →
      s1.units[i]? = some ⟨u.id, .failed e⟩) ∧
    (u.pc.early = true → (s.h.tasks.getD u.id).done = false ∧
      ∀ t ∈ ts, u.id ∈ t.WaitFor → (tryStart s.h.tasks t.Id).2 = false) ∧
    (u.pc = .deferred →
      ∀ key s1, step s (.unit i key) = some s1 → (s1.h.tasks.getD u.id).done = true) ∧
    (u.pc.early = false → (s.h.tasks.getD u.id).done = true) := by
  obtain ⟨hw, _, g, hg, rfl⟩ := wellFormed_of_NewHandler (some f) ts h none hr
  simp only [Option.some.injEq] at hg
  subst hg
  have I := inv_of_run f _ acts s hrun
  have J := inv2_of_run f _ acts s hrun
  have hmem := mem_of_getElem_some _ _ _ hu
  have hk := (I.unitKeys u hmem).1
  have hlt : i < s.units.length := by
    rw [List.getElem?_eq_some] at hu
    exact hu.1
  obtain ⟨id, pc⟩ := u
  refine ⟨?_, ?_, ?_, ?_⟩
  · intro hpc key s1 hs
    simp only at hpc hfe hk
    subst hpc
    have hex : execute s.h id = some e := by
      rw [execute_of_mem _ _ (by rw [I.keys]; exact hk), I.func]
      exact hfe
    simp only [step, stepUnit, hu, hex, Option.some.injEq] at hs
    subst hs
    simp [List.getElem?_set_self, hlt]
  · intro hpc
    simp only at hpc hfe hk
    have hpre : 1 ≤ tot (ownMain id) (preUnit id) s := by
      have := le_sum_of_mem (preUnit id) s.units _ hmem
      simp only [preUnit, hpc, and_self, if_true, true_and] at this
      simp only [tot]
      omega
    have hnd := J.pre id hpre
    refine ⟨hnd, ?_⟩
    intro t ht hwt
    cases h5 : (tryStart s.h.tasks t.Id).2
    · rfl
    · obtain ⟨x, hgx, _, _, hall⟩ := (tryStart_true_iff _ _).1 h5
      have hwf := I.waitFor t.Id
      rw [Table.getD_of_get _ _ _ hgx, getD_map_entryOf ts hw.1 t ht] at hwf
      rw [hwf] at hall
      have := (allDone_iff _ _).1 hall id hwt
      rw [hnd] at this
      cases this
  · intro hpc
    simp only at hpc hfe hk
    subst hpc
    intro key s1 hs
    simp only [step, stepUnit, hu, Option.some.injEq] at hs
    subst hs
    simp [setDone_getD]
  · intro hpc
    exact J.post _ hmem hpc

theorem failed_task_still_done_witness :
    run (initState ⟨failOnA, pairTasks.map entryOf, [], 0⟩) pairFailActs.dropLast =
      some pairFailing ∧
    (tryStart pairFailing.h.tasks "B").2 = false ∧
    ((UnitPc.deferred = UnitPc.exec → ∀ key s1, step pairFailing (.unit 0 key) = some s1 →
      s1.units[0]? = some ⟨"A", .failed "boom"⟩) ∧
    (UnitPc.deferred.early = true → (pairFailing.h.tasks.getD "A").done = false ∧
      ∀ t ∈ pairTasks, "A" ∈ t.WaitFor → (tryStart pairFailing.h.tasks t.Id).2 = false) ∧
    (UnitPc.deferred = UnitPc.deferred →
      ∀ key s1, step pairFailing (.unit 0 key) = some s1 →
        (s1.h.tasks.getD "A").done = true) ∧
    (UnitPc.deferred.early = false → (pairFailing.h.tasks.getD "A").done = true)) :=
  ⟨by rfl, by decide,
    failed_task_still_done failOnA pairTasks ⟨failOnA, pairTasks.map entryOf, [], 0⟩
      (by rfl) pairFailActs.dropLast pairFailing (by rfl) 0 ⟨"A", .deferred⟩ (by rfl) "boom"
      (by rfl)⟩

/-- C9 (the code at the failing input): one task `A` whose callback fails after
`Run` has reached `Wait`. The goroutine of `A` records the error twice and ends
without calling `Done`; in the final state the counter is 1, `Run` is blocked
in `Wait`, and no goroutine has a next step: `Run` never returns the error. -/
theorem run_blocks_after_error :
    NewHandler (some failOnA) [⟨"A", [], false⟩] =
      (some ⟨failOnA, [entryOf ⟨"A", [], false⟩], [], 0⟩, none) ∧
    run (initState ⟨failOnA, [entryOf ⟨"A", [], false⟩], [], 0⟩) soloActs = some soloStuck ∧
    soloStuck.main = .wait ∧ soloStuck.h.errors = ["boom", "boom"] ∧ soloStuck.h.wg = 1 ∧
    (∀ u ∈ soloStuck.units, u.pc = .stopped) ∧
    ∀ a, step soloStuck a = none := by
  refine ⟨by rfl, by rfl, rfl, rfl, rfl, by simp [soloStuck], ?_⟩
  intro a
  cases a with
  | main key => rfl
  | unit i key =>
    cases i with
    | zero => rfl
    | succ j => rfl

/-! ## The runs of the goroutines as runs of the table

Every state of a run of the goroutines has the table and the unfinished
launches of a state that the events `start` and `finish` reach. -/

theorem scanRel_table (h h1 : Handler) (sc : Scan) (new : List Routine)
    (out : Scan ⊕ Option String) (hr : ScanRel h sc h1 new out) :
    (h1.tasks = h.tasks ∧ ∀ id, outOwns id out + (new.map (preUnit id)).sum = sc.owns id) ∨
    (∃ key, (tryStart h.tasks key).2 = true ∧ h1.tasks = (tryStart h.tasks key).1 ∧
      ∀ id, outOwns id out + (new.map (preUnit id)).sum =
        sc.owns id + (if id = key then 1 else 0)) := by
  cases hr with
  | fin => left; simp [outOwns, Scan.owns, Scan.pending]
  | skip todo key hm ht => left; simp [outOwns, Scan.owns, Scan.pending]
  | start todo key hm ht =>
    right
    refine ⟨key, ht, rfl, ?_⟩
    intro id
    simp [outOwns, Scan.owns, Scan.pending]
  | add id todo => left; simp [outOwns, Scan.owns, Scan.pending]
  | spawn id todo =>
    left
    refine ⟨rfl, ?_⟩
    intro j
    by_cases hj : id = j
    · subst hj
      simp [outOwns, Scan.owns, Scan.pending, preUnit, pcOwns, UnitPc.early]
    · have hj2 : ¬ j = id := fun e => hj e.symm
      simp [outOwns, Scan.owns, Scan.pending, preUnit, pcOwns, UnitPc.early, hj, hj2]

/-- What a step of a run does to the table and to the unfinished launches:
nothing, a successful `tryStart`, or the `setDone` of a launched task. -/
theorem pre_step (f : String → Option String) (s s1 : State) (J : Inv2 f s)
    (hs : StepRel s s1) :
    (s1.h.tasks = s.h.tasks ∧
      ∀ id, tot (ownMain id) (preUnit id) s1 = tot (ownMain id) (preUnit id) s) ∨
    (∃ key, (tryStart s.h.tasks key).2 = true ∧ s1.h.tasks = (tryStart s.h.tasks key).1 ∧
      ∀ id, tot (ownMain id) (preUnit id) s1 =
        tot (ownMain id) (preUnit id) s + (if id = key then 1 else 0)) ∨
    (∃ uid, 1 ≤ tot (ownMain uid) (preUnit uid) s ∧ s1.h.tasks = setDone s.h.tasks uid ∧
      ∀ id, tot (ownMain id) (preUnit id) s1 =
        if id = uid then 0 else tot (ownMain id) (preUnit id) s) := by
  have scanMain : ∀ sc, s.main = .scan sc → ∀ h1 new out m1,
      ScanRel s.h sc h1 new out → (∀ id, ownMain id m1 = outOwns id out) →
      ((h1.tasks = s.h.tasks ∧ ∀ id, tot (ownMain id) (preUnit id) ⟨h1, m1, s.units ++ new⟩ =
          tot (ownMain id) (preUnit id) s) ∨
       (∃ key, (tryStart s.h.tasks key).2 = true ∧ h1.tasks = (tryStart s.h.tasks key).1 ∧
          ∀ id, tot (ownMain id) (preUnit id) ⟨h1, m1, s.units ++ new⟩ =
            tot (ownMain id) (preUnit id) s + (if id = key then 1 else 0))) := by
    intro sc hm h1 new out m1 hr ho
    rcases scanRel_table _ _ _ _ _ hr with ⟨ht, hc⟩ | ⟨key, hk, ht, hc⟩
    · left
      refine ⟨ht, ?_⟩
      intro id
      have := hc id
      simp only [tot, ho, List.map_append, List.sum_append]
      simp only [hm, ownMain]
      omega
    · right
      refine ⟨key, hk, ht, ?_⟩
      intro id
      have := hc id
      simp only [tot, ho, List.map_append, List.sum_append]
      simp only [hm, ownMain]
      omega
  have scanUnit : ∀ i uid sc, s.units[i]? = some ⟨uid, .scan sc⟩ → ∀ h1 new out pc1,
      ScanRel s.h sc h1 new out → (∀ id, pcOwns id pc1 = outOwns id out) →
      pc1.early = false →
      ((h1.tasks = s.h.tasks ∧
          ∀ id, tot (ownMain id) (preUnit id) ⟨h1, s.main, s.units.set i ⟨uid, pc1⟩ ++ new⟩ =
          tot (ownMain id) (preUnit id) s) ∨
       (∃ key, (tryStart s.h.tasks key).2 = true ∧ h1.tasks = (tryStart s.h.tasks key).1 ∧
          ∀ id, tot (ownMain id) (preUnit id) ⟨h1, s.main, s.units.set i ⟨uid, pc1⟩ ++ new⟩ =
            tot (ownMain id) (preUnit id) s + (if id = key then 1 else 0))) := by
    intro i uid sc hu h1 new out pc1 hr ho he
    have hsum : ∀ id, ((s.units.set i ⟨uid, pc1⟩).map (preUnit id)).sum + sc.owns id =
        (s.units.map (preUnit id)).sum + outOwns id out := by
      intro id
      have := sum_map_set (preUnit id) s.units i _ ⟨uid, pc1⟩ hu
      simp only [preUnit, ho, he] at this
      simp only [pcOwns, UnitPc.early, Bool.false_eq_true, and_false, if_false] at this
      omega
    rcases scanRel_table _ _ _ _ _ hr with ⟨ht, hc⟩ | ⟨key, hk, ht, hc⟩
    · left
      refine ⟨ht, ?_⟩
      intro id
      have := hc id
      have := hsum id
      simp only [tot, List.map_append, List.sum_append]
      omega
    · right
      refine ⟨key, hk, ht, ?_⟩
      intro id
      have := hc id
      have := hsum id
      simp only [tot, List.map_append, List.sum_append]
      omega
  have plain : ∀ i u, s.units[i]? = some u → ∀ h1 pc1, h1.tasks = s.h.tasks →
      (∀ id, pcOwns id u.pc = 0 ∧ pcOwns id pc1 = 0) → pc1.early = u.pc.early →
      (h1.tasks = s.h.tasks ∧
        ∀ id, tot (ownMain id) (preUnit id) ⟨h1, s.main, s.units.set i ⟨u.id, pc1⟩ ++ []⟩ =
          tot (ownMain id) (preUnit id) s) := by
    intro i u hu h1 pc1 ht ho he
    refine ⟨ht, ?_⟩
    intro id
    have := sum_map_set (preUnit id) s.units i _ ⟨u.id, pc1⟩ hu
    simp only [preUnit, (ho id).1, (ho id).2, he] at this
    simp only [tot, List.append_nil]
    omega
  cases hs with
  | main h1 m1 new hm =>
    cases hm0 : s.main with
    | scan sc =>
      rw [hm0] at hm
      cases hm with
      | scan _ sc1 _ _ hr =>
        rcases scanMain sc hm0 _ _ _ (.scan sc1) hr (fun _ => rfl) with h | h
        · exact Or.inl h
        · exact Or.inr (Or.inl h)
      | retErr _ _ _ e hr =>
        rcases scanMain sc hm0 _ _ _ (.returned (some e)) hr (fun _ => rfl) with h | h
        · exact Or.inl h
        · exact Or.inr (Or.inl h)
      | toWait _ _ _ hr =>
        rcases scanMain sc hm0 _ _ _ .wait hr (fun _ => rfl) with h | h
        · exact Or.inl h
        · exact Or.inr (Or.inl h)
    | wait =>
      rw [hm0] at hm
      cases hm with
      | woke hw =>
        left
        refine ⟨rfl, ?_⟩
        intro id
        simp [tot, hm0, ownMain]
    | returned r =>
      rw [hm0] at hm
      cases hm
  | unit i u u1 h1 new hu hr =>
    have hmem := mem_of_getElem_some _ _ _ hu
    cases hr with
    | execErr id e he => exact Or.inl (plain i _ hu _ _ rfl (fun _ => ⟨rfl, rfl⟩) rfl)
    | execOk id he => exact Or.inl (plain i _ hu _ _ rfl (fun _ => ⟨rfl, rfl⟩) rfl)
    | record id e => exact Or.inl (plain i _ hu _ _ rfl (fun _ => ⟨rfl, rfl⟩) rfl)
    | setDone uid =>
      right; right
      have hge : 1 ≤ (s.units.map (preUnit uid)).sum := by
        have := le_sum_of_mem (preUnit uid) s.units _ hmem
        simp only [preUnit, UnitPc.early, and_self, if_true, pcOwns] at this
        omega
      refine ⟨uid, by simp only [tot]; omega, rfl, ?_⟩
      intro id
      have hsum := sum_map_set (preUnit id) s.units i _
        ⟨uid, .scan (.loop (Table.keys (setDone s.h.tasks uid)))⟩ hu
      simp only [preUnit, pcOwns, Scan.owns, Scan.pending, List.not_mem_nil, if_false,
        UnitPc.early, Bool.false_eq_true, and_false, and_true] at hsum
      have hJo := J.own id
      have hle := sum_pre_le_own id s.units
      simp only [tot] at hJo
      simp only [tot, List.append_nil]
      by_cases hid : id = uid
      · subst hid
        simp only [if_true] at hsum ⊢
        have hm1 : ownMain id s.main ≤ 1 := by omega
        omega
      · have hid2 : ¬ uid = id := fun e => hid e.symm
        simp only [hid, hid2, if_false] at hsum ⊢
        omega
    | scan id sc sc1 _ _ hsr =>
      rcases scanUnit i id sc hu _ _ _ (.scan sc1) hsr (fun _ => rfl) rfl with h | h
      · exact Or.inl h
      · exact Or.inr (Or.inl h)
    | scanErr id sc _ _ e hsr =>
      rcases scanUnit i id sc hu _ _ _ (.report e) hsr (fun _ => rfl) rfl with h | h
      · exact Or.inl h
      · exact Or.inr (Or.inl h)
    | scanOk id sc _ _ hsr =>
      rcases scanUnit i id sc hu _ _ _ .signal hsr (fun _ => rfl) rfl with h | h
      · exact Or.inl h
      · exact Or.inr (Or.inl h)
    | report id e => exact Or.inl (plain i _ hu _ _ rfl (fun _ => ⟨rfl, rfl⟩) rfl)
    | signal id => exact Or.inl (plain i _ hu _ _ rfl (fun _ => ⟨rfl, rfl⟩) rfl)

/-- Every state of a run of the goroutines is matched by a state of a run of
`start` and `finish` events with the same table, whose running ids are the ids
with a launch or a goroutine that has not yet run `setDone`. -/
theorem run_refines (f : String → Option String) (tb0 : Table) (acts : List Act) (s : State)
    (h : run (initState ⟨f, tb0, [], 0⟩) acts = some s) :
    ∃ evs r, runR ⟨tb0, []⟩ evs = some r ∧ r.table = s.h.tasks ∧
      ∀ id, id ∈ r.running ↔ 1 ≤ tot (ownMain id) (preUnit id) s := by
  induction acts using List.reverseRecOn generalizing s with
  | nil =>
    simp only [run, Option.some.injEq] at h
    subst h
    exact ⟨[], ⟨tb0, []⟩, rfl, rfl, by simp [initState, tot, ownMain, Scan.owns, Scan.pending]⟩
  | append_singleton acts a ih =>
    obtain ⟨s1, h1, h2⟩ := run_snoc_some _ _ _ _ h
    obtain ⟨evs, r, hr, ht, hm⟩ := ih s1 h1
    have J := inv2_of_run f tb0 acts s1 h1
    rcases pre_step f s1 s J (step_rel _ _ _ h2) with ⟨e1, e2⟩ | ⟨key, hk, e1, e2⟩ |
      ⟨uid, hge, e1, e2⟩
    · refine ⟨evs, r, hr, ht.trans e1.symm, ?_⟩
      intro id
      rw [e2 id]
      exact hm id
    · refine ⟨evs ++ [.start key], ⟨(tryStart r.table key).1, key :: r.running⟩, ?_, ?_, ?_⟩
      · rw [runR_snoc, hr]
        simp only [Option.some_bind, stepR, ht, hk, if_true]
      · rw [ht, e1]
      · intro id
        rw [e2 id, List.mem_cons, hm id]
        by_cases hid : id = key
        · simp [hid]
        · simp [hid]
    · have hmem : uid ∈ r.running := (hm uid).2 hge
      have hnd := (rinv_of_run tb0 evs r hr).nodup
      refine ⟨evs ++ [.finish uid], ⟨setDone r.table uid, r.running.erase uid⟩, ?_, ?_, ?_⟩
      · rw [runR_snoc, hr]
        simp only [Option.some_bind, stepR, hmem, if_true]
      · rw [ht, e1]
      · intro id
        rw [e2 id, hnd.mem_erase_iff, hm id]
        by_cases hid : id = uid
        · simp [hid]
        · simp [hid]

/-! ## Claims on the locked methods and the states of a task -/

theorem getD_done_iff (tb : Table) (w : String) :
    (tb.getD w).done = true ↔ ∃ tw, tb.get w = some tw ∧ tw.done = true := by
  unfold Table.getD
  cases h : tb.get w with
  | none => simp [task.zero]
  | some t => simp

theorem tryStart_get (tb : Table) (id j : String) :
    (tryStart tb id).1.get j =
      if (tryStart tb id).2 = true ∧ j = id then
        (tb.get j).map (fun t => { t with started := true })
      else tb.get j := by
  rw [tryStart_table]
  by_cases h : (tryStart tb id).2 = true
  · obtain ⟨t, hg, _⟩ := (tryStart_true_iff tb id).1 h
    simp only [h, if_true, true_and, Table.get_set]
    by_cases hj : id = j
    · subst hj
      simp [hg, Table.getD_of_get _ _ _ hg]
    · have hj2 : ¬ j = id := fun e => hj e.symm
      simp [hj, hj2]
  · simp [h]

/-- C15: `tryStart(id)` returns `true` exactly when `id` is a key of the table,
its entry is neither done nor started, and every id of its `waitFor` is a key
whose entry is done. The keys are never changed; when the result is `true` the
entry of `id` gets `started = true` and every other entry is as before, and
when it is `false` the table is as before. -/
theorem tryStart_spec (tb : Table) (id : String) :
    ((tryStart tb id).2 = true ↔
      ∃ t, tb.get id = some t ∧ t.done = false ∧ t.started = false ∧
        ∀ w ∈ t.waitFor, ∃ tw, tb.get w = some tw ∧ tw.done = true) ∧
    (tryStart tb id).1.keys = tb.keys ∧
    (∀ j, (tryStart tb id).1.get j =
      if (tryStart tb id).2 = true ∧ j = id then
        (tb.get j).map (fun t => ⟨t.waitFor, true, t.done⟩)
      else tb.get j) ∧
    ((tryStart tb id).2 = false → (tryStart tb id).1 = tb) := by
  refine ⟨?_, tryStart_keys tb id, tryStart_get tb id, ?_⟩
  · rw [tryStart_true_iff]
    constructor
    · rintro ⟨t, hg, hd, hs, ha⟩
      refine ⟨t, hg, hd, hs, ?_⟩
      intro w hw
      exact (getD_done_iff tb w).1 ((allDone_iff _ _).1 ha w hw)
    · rintro ⟨t, hg, hd, hs, ha⟩
      refine ⟨t, hg, hd, hs, ?_⟩
      rw [allDone_iff]
      intro w hw
      exact (getD_done_iff tb w).2 (ha w hw)
  · exact tryStart_false_table tb id

theorem tryStart_spec_witness :
    ((tryStart chainAfterA.table "B").2 = true ↔
      ∃ t, chainAfterA.table.get "B" = some t ∧ t.done = false ∧ t.started = false ∧
        ∀ w ∈ t.waitFor, ∃ tw, chainAfterA.table.get w = some tw ∧ tw.done = true) ∧
    (tryStart chainAfterA.table "B").1.keys = chainAfterA.table.keys ∧
    (∀ j, (tryStart chainAfterA.table "B").1.get j =
      if (tryStart chainAfterA.table "B").2 = true ∧ j = "B" then
        (chainAfterA.table.get j).map (fun t => ⟨t.waitFor, true, t.done⟩)
      else chainAfterA.table.get j) ∧
    ((tryStart chainAfterA.table "B").2 = false →
      (tryStart chainAfterA.table "B").1 = chainAfterA.table) :=
  tryStart_spec chainAfterA.table "B"

theorem getD_entryOf_flags (ts : List Task) (id : String) :
    (Table.getD (ts.map entryOf) id).started = (Table.getD (ts.map entryOf) id).done := by
  induction ts with
  | nil => simp [Table.getD, Table.get, task.zero]
  | cons x rest ih =>
    by_cases hx : x.Id = id
    · simp [Table.getD, Table.get, entryOf, hx]
    · simpa [Table.getD, Table.get, entryOf, hx] using ih

/-- C16: in every state that start and finish steps reach from the table of a
handler built by `NewHandler`, every task is pending (not started, not done),
started (started, not done) or done (started and done); and a step never
resets a `started` or `done` flag and never changes a `waitFor`. -/
theorem task_states (f : Option (String → Option String)) (ts : List Task)
    (h : Handler) (hr : NewHandler f ts = (some h, none)) (evs : List Ev) (s : RState)
    (hrun : runR (initR h) evs = some s) :
    (∀ id, ((s.table.getD id).started = false ∧ (s.table.getD id).done = false) ∨
      ((s.table.getD id).started = true ∧ (s.table.getD id).done = false) ∨
      ((s.table.getD id).started = true ∧ (s.table.getD id).done = true)) ∧
    (∀ e s1, stepR s e = some s1 → ∀ id,
      ((s.table.getD id).started = true → (s1.table.getD id).started = true) ∧
      ((s.table.getD id).done = true → (s1.table.getD id).done = true) ∧
      (s1.table.getD id).waitFor = (s.table.getD id).waitFor) := by
  obtain ⟨_, _, g, _, rfl⟩ := wellFormed_of_NewHandler f ts h none hr
  simp only [initR] at hrun
  have I := rinv_of_run _ _ _ hrun
  constructor
  · intro id
    have h1 := I.started id
    have h2 := I.done id
    have h3 := getD_entryOf_flags ts id
    have h4 := I.finished id
    cases hs : (s.table.getD id).started <;> cases hd : (s.table.getD id).done <;> simp
    rw [hs] at h1
    rw [hd] at h2
    cases h0 : (Table.getD (ts.map entryOf) id).done
    · rw [h0] at h2 h3
      rw [h3] at h1
      have hf : Ev.finish id ∈ evs := by simpa using h2.symm
      have := h4 hf
      simp [this] at h1
    · rw [h0] at h3
      rw [h3] at h1
      simp at h1
  · intro e s1 hs id
    cases e with
    | start j =>
      obtain ⟨_, rfl⟩ := stepR_start _ _ _ hs
      simp only [tryStart_getD]
      split <;> simp
    | finish j =>
      obtain ⟨_, rfl⟩ := stepR_finish _ _ _ hs
      simp only [setDone_getD]
      split <;> simp

theorem task_states_witness :
    (∀ id, ((chainAfterA.table.getD id).started = false ∧
        (chainAfterA.table.getD id).done = false) ∨
      ((chainAfterA.table.getD id).started = true ∧
        (chainAfterA.table.getD id).done = false) ∨
      ((chainAfterA.table.getD id).started = true ∧
        (chainAfterA.table.getD id).done = true)) ∧
    (∀ e s1, stepR chainAfterA e = some s1 → ∀ id,
      ((chainAfterA.table.getD id).started = true → (s1.table.getD id).started = true) ∧
      ((chainAfterA.table.getD id).done = true → (s1.table.getD id).done = true) ∧
      (s1.table.getD id).waitFor = (chainAfterA.table.getD id).waitFor) :=
  task_states (some okFunc) (chainTasks "A" "B" "C")
    ⟨okFunc, (chainTasks "A" "B" "C").map entryOf, [], 0⟩ (by rfl)
    [Ev.start "A", Ev.finish "A"] chainAfterA (by decide)

/-! ## The order of the checks of the constructor -/

theorem not_dupInserted_tail (t : Task) (rest : List Task) (h : ¬ DupInserted (t :: rest)) :
    ¬ DupInserted rest := by
  rintro ⟨pre, t1, mid, t2, post, he, hid, hns⟩
  exact h ⟨t :: pre, t1, mid, t2, post, by simp [he], hid, hns⟩

theorem buildTasks_ok_of_not_dup (ts : List Task) (tb : Table) (cs : Bool)
    (wfi : List String) (hnd : ¬ DupInserted ts) (hk : ∀ t ∈ ts, t.Id ∉ tb.keys) :
    buildTasks ts tb cs wfi =
      .ok (tb ++ (ts.filter (fun t => !waitsForItself t)).map entryOf,
        (cs || ts.any (fun t => decide (t.WaitFor = []))),
        wfi ++ (ts.filter waitsForItself).map Task.Id) := by
  induction ts generalizing tb cs wfi with
  | nil => simp [buildTasks]
  | cons t rest ih =>
    unfold buildTasks
    have hkt : t.Id ∉ tb.keys := hk t (by simp)
    have h1 : ¬ (tb.get t.Id).isSome = true := by rwa [Table.get_isSome_iff]
    have hnd2 := not_dupInserted_tail t rest hnd
    by_cases h2 : waitsForItself t = true
    · have hne : t.WaitFor ≠ [] := by
        intro he
        have := (waitsForItself_iff t).1 h2
        rw [he] at this
        simp at this
      simp only [h1, h2, if_true, if_false]
      rw [ih _ _ _ hnd2 (fun x hx => hk x (by simp [hx]))]
      simp [h2, hne]
    · have h2f : waitsForItself t = false := by simpa using h2
      simp only [h1, h2f, if_false, Bool.false_eq_true, canStart_update]
      rw [Table.set_of_not_mem _ _ _ hkt]
      rw [ih _ _ _ hnd2]
      · simp [h2f, entryOf, Bool.or_assoc]
      · intro x hx
        have h3 := hk x (by simp [hx])
        simp only [Table.keys, List.map_append, List.map_cons, List.map_nil, List.mem_append,
          List.mem_singleton, not_or] at h3 ⊢
        refine ⟨h3, ?_⟩
        intro e
        obtain ⟨mid, post, hsplit⟩ := List.append_of_mem hx
        exact hnd ⟨[], t, mid, x, post, by simp [hsplit], e.symm,
          (waitsForItself_eq_false_iff t).1 h2f⟩

theorem buildTasks_cons (t : Task) (rest : List Task) (tb : Table) (cs : Bool)
    (wfi : List String) :
    buildTasks (t :: rest) tb cs wfi =
      if (tb.get t.Id).isSome then
        .error ("multiple tasks with id '" ++ t.Id ++ "'")
      else if waitsForItself t then
        buildTasks rest tb cs (wfi ++ [t.Id])
      else
        buildTasks rest (tb.set t.Id ⟨t.WaitFor, t.Skip, t.Skip⟩)
          (if !cs then (if t.WaitFor.length = 0 then true else cs) else cs)
          wfi := by
  rw [buildTasks]

theorem buildTasks_append (pre rest : List Task) (tb : Table) (cs : Bool) (wfi : List String)
    (r : Table × Bool × List String) (h : buildTasks pre tb cs wfi = .ok r) :
    buildTasks (pre ++ rest) tb cs wfi = buildTasks rest r.1 r.2.1 r.2.2 := by
  induction pre generalizing tb cs wfi with
  | nil =>
    simp only [buildTasks, Except.ok.injEq] at h
    subst h
    rfl
  | cons t pre ih =>
    rw [buildTasks_cons] at h
    simp only [List.cons_append]
    rw [buildTasks_cons]
    by_cases h1 : (tb.get t.Id).isSome = true
    · simp [h1] at h
    · by_cases h2 : waitsForItself t = true
      · simp only [h1, h2, if_true, if_false] at h ⊢
        exact ih _ _ _ h
      · simp only [h1, h2, if_false] at h ⊢
        exact ih _ _ _ h

theorem mem_missingOf_iff (tb : Table) (ws acc : List String) (x : String) :
    x ∈ missingOf tb ws acc ↔ x ∈ acc ∨ (x ∈ ws ∧ x ∉ tb.keys) := by
  induction ws generalizing acc with
  | nil => simp [missingOf]
  | cons w ws ih =>
    unfold missingOf
    by_cases hw : (tb.get w).isSome = true
    · have hk : w ∈ tb.keys := (Table.get_isSome_iff tb w).1 hw
      simp only [hw, if_true, ih, List.mem_cons]
      constructor
      · rintro (h | ⟨h, h2⟩)
        · exact Or.inl h
        · exact Or.inr ⟨Or.inr h, h2⟩
      · rintro (h | ⟨h | h, h2⟩)
        · exact Or.inl h
        · subst h; exact absurd hk h2
        · exact Or.inr ⟨h, h2⟩
    · have hk : w ∉ tb.keys := by rwa [← Table.get_isSome_iff]
      simp only [hw, if_false, ih, List.mem_cons, Bool.false_eq_true]
      by_cases hm : w ∈ acc
      · simp only [hm, if_true]
        constructor
        · rintro (h | ⟨h, h2⟩)
          · exact Or.inl h
          · exact Or.inr ⟨Or.inr h, h2⟩
        · rintro (h | ⟨h | h, h2⟩)
          · exact Or.inl h
          · subst h; exact Or.inl hm
          · exact Or.inr ⟨h, h2⟩
      · simp only [hm, if_false, List.mem_append, List.mem_singleton]
        constructor
        · rintro ((h | h) | ⟨h, h2⟩)
          · exact Or.inl h
          · subst h; exact Or.inr ⟨Or.inl rfl, hk⟩
          · exact Or.inr ⟨Or.inr h, h2⟩
        · rintro (h | ⟨h | h, h2⟩)
          · exact Or.inl (Or.inl h)
          · exact Or.inl (Or.inr h)
          · exact Or.inr ⟨h, h2⟩

theorem missingOf_nodup (tb : Table) (ws acc : List String) (h : acc.Nodup) :
    (missingOf tb ws acc).Nodup := by
  induction ws generalizing acc with
  | nil => exact h
  | cons w ws ih =>
    unfold missingOf
    split
    · exact ih _ h
    · apply ih
      split
      · exact h
      · rename_i hm
        rw [List.nodup_append]
        refine ⟨h, by simp, ?_⟩
        intro a ha hb
        simp only [List.mem_singleton] at hb
        subst hb
        exact hm ha

theorem mem_notExisting_iff (tb : Table) (l : List (String × task)) (acc : List String)
    (x : String) :
    x ∈ notExisting tb l acc ↔ x ∈ acc ∨ (∃ e ∈ l, x ∈ e.2.waitFor) ∧ x ∉ tb.keys := by
  induction l generalizing acc with
  | nil => simp [notExisting]
  | cons e r ih =>
    obtain ⟨k, t⟩ := e
    simp only [notExisting, ih, mem_missingOf_iff, List.mem_cons, exists_eq_or_imp]
    constructor
    · rintro ((h | ⟨h, h2⟩) | ⟨h, h2⟩)
      · exact Or.inl h
      · exact Or.inr ⟨Or.inl h, h2⟩
      · exact Or.inr ⟨Or.inr h, h2⟩
    · rintro (h | ⟨h | h, h2⟩)
      · exact Or.inl (Or.inl h)
      · exact Or.inl (Or.inr ⟨h, h2⟩)
      · exact Or.inr ⟨h, h2⟩

theorem notExisting_nodup (tb : Table) (l : List (String × task)) (acc : List String)
    (h : acc.Nodup) : (notExisting tb l acc).Nodup := by
  induction l generalizing acc with
  | nil => exact h
  | cons e r ih =>
    obtain ⟨k, t⟩ := e
    exact ih _ (missingOf_nodup tb _ _ h)

theorem waitsForItself_eq_decide :
    waitsForItself = fun t => decide (t.Id ∈ t.WaitFor) := by
  funext t
  by_cases h : t.Id ∈ t.WaitFor
  · simp [h, (waitsForItself_iff t).2 h]
  · simp [h, (waitsForItself_eq_false_iff t).2 h]

theorem filter_not_self_of_none (ts : List Task) (h : ∀ t ∈ ts, t.Id ∉ t.WaitFor) :
    ts.filter (fun t => !waitsForItself t) = ts ∧ ts.filter waitsForItself = [] := by
  constructor
  · rw [List.filter_eq_self]
    intro t ht
    simp [(waitsForItself_eq_false_iff t).2 (h t ht)]
  · rw [List.filter_eq_nil_iff]
    intro t ht
    simp [(waitsForItself_eq_false_iff t).2 (h t ht)]

/-- The result of the constructor when the duplicate check never fires. -/
theorem NewHandler_of_not_dup (f : String → Option String) (ts : List Task)
    (h : ¬ DupInserted ts) :
    NewHandler (some f) ts =
      if !(ts.any (fun t => decide (t.WaitFor = []))) then (none, some noRootMsg)
      else if ((ts.filter waitsForItself).map Task.Id).length > 0 then
        (none, some (selfWaitMsg ((ts.filter waitsForItself).map Task.Id)))
      else if (notExisting ((ts.filter (fun t => !waitsForItself t)).map entryOf)
          ((ts.filter (fun t => !waitsForItself t)).map entryOf) []).length > 0 then
        (none, some (missingMsg
          (notExisting ((ts.filter (fun t => !waitsForItself t)).map entryOf)
            ((ts.filter (fun t => !waitsForItself t)).map entryOf) [])))
      else (some ⟨f, (ts.filter (fun t => !waitsForItself t)).map entryOf, [], 0⟩, none) := by
  have hb := buildTasks_ok_of_not_dup ts [] false [] h (by simp [Table.keys])
  simp only [List.nil_append, Bool.false_or] at hb
  simp only [NewHandler, hb, noRootMsg, selfWaitMsg, missingMsg]

theorem NewHandler_first_duplicate (f : String → Option String) (pre post : List Task)
    (t : Task) (hnd : ¬ DupInserted pre)
    (hdup : ∃ u ∈ pre, u.Id = t.Id ∧ u.Id ∉ u.WaitFor) :
    NewHandler (some f) (pre ++ t :: post) = (none, some (duplicateMsg t.Id)) := by
  have hb := buildTasks_ok_of_not_dup pre [] false [] hnd (by simp [Table.keys])
  have ha := buildTasks_append pre (t :: post) [] false [] _ hb
  simp only [List.nil_append] at ha
  have hk : (Table.get ((pre.filter (fun t => !waitsForItself t)).map entryOf) t.Id).isSome
      = true := by
    rw [Table.get_isSome_iff, keys_map_entryOf]
    obtain ⟨u, hu, hid, hns⟩ := hdup
    rw [← hid]
    apply List.mem_map_of_mem
    rw [List.mem_filter]
    exact ⟨hu, by simp [(waitsForItself_eq_false_iff u).2 hns]⟩
  rw [buildTasks_cons] at ha
  simp only [hk, if_true] at ha
  simp only [NewHandler, ha, duplicateMsg]

theorem not_dupInserted_of_nodup (ts : List Task) (hn : (ts.map Task.Id).Nodup) :
    ¬ DupInserted ts := by
  rintro ⟨pre, t1, mid, t2, post, he, hid, _⟩
  rw [he] at hn
  simp only [List.map_append, List.map_cons, List.nodup_append, List.nodup_cons,
    List.mem_append, List.mem_cons] at hn
  exact hn.2.1.1 (Or.inr (Or.inl hid))

theorem missing_of_no_self (ts : List Task) (w : String) :
    w ∈ notExisting (ts.map entryOf) (ts.map entryOf) [] ↔
      (∃ t ∈ ts, w ∈ t.WaitFor) ∧ ∀ u ∈ ts, u.Id ≠ w := by
  rw [mem_notExisting_iff, keys_map_entryOf]
  simp only [List.not_mem_nil, false_or, List.mem_map, exists_exists_and_eq_and, entryOf,
    not_exists, not_and]

/-! ## Claims on the errors of the constructor -/

/-- C11 (as stated, refuted): the only task waits for itself, and the
constructor reports that no task can start, not the self-wait error. -/
theorem NewHandler_self_wait_counterexample :
    (⟨"X", ["X"], false⟩ : Task).Id ∈ (⟨"X", ["X"], false⟩ : Task).WaitFor ∧
    NewHandler (some okFunc) [⟨"X", ["X"], false⟩] = (none, some noRootMsg) ∧
    ∀ ids, NewHandler (some okFunc) [⟨"X", ["X"], false⟩] ≠ (none, some (selfWaitMsg ids)) := by
  have h : NewHandler (some okFunc) [⟨"X", ["X"], false⟩] = (none, some noRootMsg) := by rfl
  refine ⟨by decide, h, ?_⟩
  intro ids hc
  rw [h] at hc
  simp only [Prod.mk.injEq, Option.some.injEq, true_and] at hc
  have := congrArg String.data hc
  simp [noRootMsg, selfWaitMsg] at this

/-- C11 (amended): when a task waits for itself, no task has the id of an
earlier task that does not wait for itself, and some task has an empty
`WaitFor`, `NewHandler` fails with the self-wait error, whose message lists the
ids of the self-waiting tasks joined by `','`, that task's id among them. -/
theorem NewHandler_self_wait (f : String → Option String) (ts : List Task) (t : Task)
    (ht : t ∈ ts) (hself : t.Id ∈ t.WaitFor) (hnd : ¬ DupInserted ts)
    (hroot : ∃ r ∈ ts, r.WaitFor = []) :
    ∃ ids, t.Id ∈ ids ∧
      NewHandler (some f) ts =
        (none, some ("tasks cannot wit for themselves, please check task(s) '" ++
          String.intercalate "','" ids ++ "'")) := by
  refine ⟨(ts.filter waitsForItself).map Task.Id, ?_, ?_⟩
  · apply List.mem_map_of_mem
    rw [List.mem_filter]
    exact ⟨ht, (waitsForItself_iff t).2 hself⟩
  · rw [NewHandler_of_not_dup f ts hnd]
    have hcs : ts.any (fun t => decide (t.WaitFor = [])) = true := by
      obtain ⟨r, hr, he⟩ := hroot
      simp only [List.any_eq_true]
      exact ⟨r, hr, by simp [he]⟩
    have hlen : ((ts.filter waitsForItself).map Task.Id).length > 0 := by
      apply List.length_pos_of_mem (a := t.Id)
      apply List.mem_map_of_mem
      rw [List.mem_filter]
      exact ⟨ht, (waitsForItself_iff t).2 hself⟩
    simp only [hcs, Bool.not_true, Bool.false_eq_true, if_false, hlen, if_true, selfWaitMsg]

theorem NewHandler_self_wait_witness :
    ∃ ids, "B" ∈ ids ∧
      NewHandler (some okFunc) [⟨"A", [], false⟩, ⟨"B", ["B"], false⟩] =
        (none, some ("tasks cannot wit for themselves, please check task(s) '" ++
          String.intercalate "','" ids ++ "'")) :=
  NewHandler_self_wait okFunc [⟨"A", [], false⟩, ⟨"B", ["B"], false⟩] ⟨"B", ["B"], false⟩
    (by decide) (by decide) (not_dupInserted_of_nodup _ (by decide))
    ⟨⟨"A", [], false⟩, by decide, rfl⟩

theorem any_root_iff (ts : List Task) :
    ts.any (fun t => decide (t.WaitFor = [])) = true ↔ ∃ t ∈ ts, t.WaitFor = [] := by
  simp [List.any_eq_true]

theorem NewHandler_missing_core (f : String → Option String) (ts : List Task)
    (hnd : ¬ DupInserted ts) (hs : ∀ t ∈ ts, t.Id ∉ t.WaitFor)
    (hroot : ∃ r ∈ ts, r.WaitFor = [])
    (hmiss : ∃ t ∈ ts, ∃ w ∈ t.WaitFor, ∀ u ∈ ts, u.Id ≠ w) :
    (notExisting (ts.map entryOf) (ts.map entryOf) []).Nodup ∧
    (∀ w, w ∈ notExisting (ts.map entryOf) (ts.map entryOf) [] ↔
      (∃ t ∈ ts, w ∈ t.WaitFor) ∧ ∀ u ∈ ts, u.Id ≠ w) ∧
    NewHandler (some f) ts =
      (none, some (missingMsg (notExisting (ts.map entryOf) (ts.map entryOf) []))) := by
  refine ⟨notExisting_nodup _ _ _ (by simp), missing_of_no_self ts, ?_⟩
  rw [NewHandler_of_not_dup f ts hnd]
  obtain ⟨e1, e2⟩ := filter_not_self_of_none ts hs
  have hcs := (any_root_iff ts).2 hroot
  have hlen : (notExisting (ts.map entryOf) (ts.map entryOf) []).length > 0 := by
    obtain ⟨t, ht, w, hw, hu⟩ := hmiss
    apply List.length_pos_of_mem (a := w)
    rw [missing_of_no_self]
    exact ⟨⟨t, ht, hw⟩, hu⟩
  simp only [e1, e2, hcs, Bool.not_true, Bool.false_eq_true, if_false, List.map_nil,
    List.length_nil, gt_iff_lt, Nat.lt_irrefl, hlen, if_true]

/-- C12 (as stated, refuted): the only task waits for an id that is not a task,
and the constructor reports that no task can start, not the missing-dependency
error. -/
theorem NewHandler_missing_counterexample :
    (∀ u ∈ ([⟨"A", ["Z"], false⟩] : List Task), u.Id ≠ "Z") ∧
    NewHandler (some okFunc) [⟨"A", ["Z"], false⟩] = (none, some noRootMsg) ∧
    ∀ ids, NewHandler (some okFunc) [⟨"A", ["Z"], false⟩] ≠ (none, some (missingMsg ids)) := by
  have h : NewHandler (some okFunc) [⟨"A", ["Z"], false⟩] = (none, some noRootMsg) := by rfl
  refine ⟨by decide, h, ?_⟩
  intro ids hc
  rw [h] at hc
  simp only [Prod.mk.injEq, Option.some.injEq, true_and] at hc
  have := congrArg String.data hc
  simp [noRootMsg, missingMsg] at this

/-- C12 (amended): when the ids are pairwise distinct, no task waits for
itself, some task has an empty `WaitFor`, and some awaited id is not the id of
a task, `NewHandler` fails with the missing-dependency error, whose message
lists the missing ids joined by a comma and a blank, that id among them. -/
theorem NewHandler_missing (f : String → Option String) (ts : List Task)
    (hn : (ts.map Task.Id).Nodup) (hs : ∀ t ∈ ts, t.Id ∉ t.WaitFor)
    (hroot : ∃ r ∈ ts, r.WaitFor = []) (t : Task) (ht : t ∈ ts) (w : String)
    (hw : w ∈ t.WaitFor) (hu : ∀ u ∈ ts, u.Id ≠ w) :
    ∃ ids, w ∈ ids ∧
      NewHandler (some f) ts =
        (none, some ("the following tasks do not exist but are referred to in waitFor of other tasks : " ++
          String.intercalate ", " ids)) := by
  obtain ⟨_, h2, h3⟩ := NewHandler_missing_core f ts (not_dupInserted_of_nodup ts hn) hs hroot
    ⟨t, ht, w, hw, hu⟩
  exact ⟨_, (h2 w).2 ⟨⟨t, ht, hw⟩, hu⟩, by rw [h3]; rfl⟩

theorem NewHandler_missing_witness :
    ∃ ids, "Z" ∈ ids ∧
      NewHandler (some okFunc) [⟨"A", [], false⟩, ⟨"B", ["A", "Z"], false⟩] =
        (none, some ("the following tasks do not exist but are referred to in waitFor of other tasks : " ++
          String.intercalate ", " ids)) :=
  NewHandler_missing okFunc [⟨"A", [], false⟩, ⟨"B", ["A", "Z"], false⟩] (by decide)
    (by decide) ⟨⟨"A", [], false⟩, by decide, rfl⟩ ⟨"B", ["A", "Z"], false⟩ (by decide) "Z"
    (by decide) (by decide)

/-- C14: with a callback that is not nil, the error of `NewHandler` is that of
the first failing check in the order: (1) duplicate, naming the first task
whose id is that of an earlier task that does not wait for itself; (2) no task
with an empty `WaitFor`; (3) self-wait, listing the ids of the self-waiting
tasks in input order joined by `','`; (4) missing dependency, listing without
repetition exactly the awaited ids that are not ids of tasks. -/
theorem NewHandler_error_order (f : String → Option String) (ts : List Task) :
    (∀ pre t post, ts = pre ++ t :: post → ¬ DupInserted pre →
      (∃ u ∈ pre, u.Id = t.Id ∧ u.Id ∉ u.WaitFor) →
      NewHandler (some f) ts = (none, some ("multiple tasks with id '" ++ t.Id ++ "'"))) ∧
    (¬ DupInserted ts → (∀ t ∈ ts, t.WaitFor ≠ []) →
      NewHandler (some f) ts = (none,
        some "tasks must include at least one task that has not to wait for other tasks")) ∧
    (¬ DupInserted ts → (∃ t ∈ ts, t.WaitFor = []) → (∃ t ∈ ts, t.Id ∈ t.WaitFor) →
      NewHandler (some f) ts = (none,
        some ("tasks cannot wit for themselves, please check task(s) '" ++
          String.intercalate "','"
            ((ts.filter (fun t => decide (t.Id ∈ t.WaitFor))).map Task.Id) ++ "'"))) ∧
    (¬ DupInserted ts → (∃ t ∈ ts, t.WaitFor = []) → (∀ t ∈ ts, t.Id ∉ t.WaitFor) →
      (∃ t ∈ ts, ∃ w ∈ t.WaitFor, ∀ u ∈ ts, u.Id ≠ w) →
      ∃ ne, ne.Nodup ∧ (∀ w, w ∈ ne ↔ (∃ t ∈ ts, w ∈ t.WaitFor) ∧ ∀ u ∈ ts, u.Id ≠ w) ∧
        NewHandler (some f) ts = (none,
          some ("the following tasks do not exist but are referred to in waitFor of other tasks : " ++
            String.intercalate ", " ne))) := by
  refine ⟨?_, ?_, ?_, ?_⟩
  · intro pre t post he hnd hdup
    subst he
    exact NewHandler_first_duplicate f pre post t hnd hdup
  · intro hnd hall
    rw [NewHandler_of_not_dup f ts hnd]
    have hcs : ts.any (fun t => decide (t.WaitFor = [])) = false := by
      cases hc : ts.any (fun t => decide (t.WaitFor = []))
      · rfl
      · obtain ⟨t, ht, he⟩ := (any_root_iff ts).1 hc
        exact absurd he (hall t ht)
    simp only [hcs, Bool.not_false, if_true, noRootMsg]
  · intro hnd hroot hself
    rw [NewHandler_of_not_dup f ts hnd, ← waitsForItself_eq_decide]
    have hcs := (any_root_iff ts).2 hroot
    have hlen : ((ts.filter waitsForItself).map Task.Id).length > 0 := by
      obtain ⟨t, ht, hs⟩ := hself
      apply List.length_pos_of_mem (a := t.Id)
      apply List.mem_map_of_mem
      rw [List.mem_filter]
      exact ⟨ht, (waitsForItself_iff t).2 hs⟩
    simp only [hcs, Bool.not_true, Bool.false_eq_true, if_false, hlen, if_true, selfWaitMsg]
  · intro hnd hroot hs hmiss
    obtain ⟨h1, h2, h3⟩ := NewHandler_missing_core f ts hnd hs hroot hmiss
    exact ⟨_, h1, h2, by rw [h3]; rfl⟩

theorem NewHandler_error_order_witness :
    NewHandler (some okFunc)
        [⟨"A", [], false⟩, ⟨"B", ["B"], false⟩, ⟨"C", ["Z", "C"], false⟩] =
      (none, some "tasks cannot wit for themselves, please check task(s) 'B','C'") :=
  (NewHandler_error_order okFunc
    [⟨"A", [], false⟩, ⟨"B", ["B"], false⟩, ⟨"C", ["Z", "C"], false⟩]).2.2.1
    (not_dupInserted_of_nodup _ (by decide)) ⟨⟨"A", [], false⟩, by decide, rfl⟩
    ⟨⟨"B", ["B"], false⟩, by decide, by decide⟩

/-! ## Claims on the ids of the goroutines -/

/-- C17: in every state of a run of a handler built by `NewHandler`, the keys
of the table are those of the constructed table; the id of every launched
goroutine, which is the id it passes to `execute` and to `setDone`, is a key,
so that `execute` takes the branch of the callback; and every error of the
error list is an error that the callback returns for some id. -/
theorem keys_fixed (f : String → Option String) (ts : List Task) (h : Handler)
    (hr : NewHandler (some f) ts = (some h, none))
    (acts : List Act) (s : State) (hrun : run (initState h) acts = some s) :
    s.h.tasks.keys = h.tasks.keys ∧
    (∀ u ∈ s.units, u.id ∈ s.h.tasks.keys ∧ (s.h.tasks.get u.id).isSome = true ∧
      execute s.h u.id = f u.id ∧ (setDone s.h.tasks u.id).keys = s.h.tasks.keys) ∧
    (∀ e ∈ s.h.errors, ∃ id, f id = some e) := by
  obtain ⟨_, _, g, hg, rfl⟩ := wellFormed_of_NewHandler (some f) ts h none hr
  simp only [Option.some.injEq] at hg
  subst hg
  have I := inv_of_run f _ acts s hrun
  refine ⟨I.keys, ?_, I.errs⟩
  intro u hu
  have hk : u.id ∈ s.h.tasks.keys := by rw [I.keys]; exact (I.unitKeys u hu).1
  refine ⟨hk, (Table.get_isSome_iff _ _).2 hk, ?_, setDone_keys _ _ hk⟩
  rw [execute_of_mem _ _ hk, I.func]

theorem keys_fixed_witness :
    pairFailed.h.tasks.keys = Table.keys (pairTasks.map entryOf) ∧
    (∀ u ∈ pairFailed.units, u.id ∈ pairFailed.h.tasks.keys ∧
      (pairFailed.h.tasks.get u.id).isSome = true ∧
      execute pairFailed.h u.id = failOnA u.id ∧
      (setDone pairFailed.h.tasks u.id).keys = pairFailed.h.tasks.keys) ∧
    (∀ e ∈ pairFailed.h.errors, ∃ id, failOnA id = some e) :=
  keys_fixed failOnA pairTasks ⟨failOnA, pairTasks.map entryOf, [], 0⟩ (by rfl)
    pairFailActs pairFailed (by rfl)

/-- C19: `NewHandler` accepts a root `A`, a skipped task `S` that waits for `A`
and a task `B` that waits for `S`; `tryStart` returns `true` for `B` in the
initial state, and there is a run in which the callback of `B` has returned
while the goroutine of `A` has not yet called `execute`. -/
theorem skip_breaks_order :
    NewHandler (some okFunc) skipTasks = (some ⟨okFunc, skipTasks.map entryOf, [], 0⟩, none) ∧
    (tryStart (skipTasks.map entryOf) "B").2 = true ∧
    run (initState ⟨okFunc, skipTasks.map entryOf, [], 0⟩) skipActs = some skipState ∧
    skipState.units[0]? = some ⟨"A", .exec⟩ ∧
    skipState.units[1]? = some ⟨"B", .deferred⟩ ∧
    (skipState.h.tasks.getD "A").done = false ∧
    runR (initR ⟨okFunc, skipTasks.map entryOf, [], 0⟩) [Ev.start "B"] =
      some ⟨[("A", ⟨[], false, false⟩), ("S", ⟨["A"], true, true⟩),
        ("B", ⟨["S"], true, false⟩)], ["B"]⟩ :=
  ⟨by rfl, by decide, by rfl, by rfl, by rfl, by decide, by decide⟩

/-! ## After an error of the callback -/

theorem run_append (s : State) (as bs : List Act) :
    run s (as ++ bs) = (run s as).bind (fun s1 => run s1 bs) := by
  induction as generalizing s with
  | nil => simp [run]
  | cons a as ih =>
    simp only [List.cons_append, run]
    cases step s a with
    | none => rfl
    | some s1 => exact ih s1

theorem unitRel_id (h h1 : Handler) (u u1 : Routine) (new : List Routine)
    (hr : UnitRel h u h1 u1 new) : u1.id = u.id := by
  cases hr <;> rfl

/-- A step keeps every launched goroutine at its index, with its id. -/
theorem stepRel_units (s s1 : State) (hs : StepRel s s1) (i : Nat) (u : Routine)
    (hu : s.units[i]? = some u) : ∃ u1, s1.units[i]? = some u1 ∧ u1.id = u.id := by
  have hlt : i < s.units.length := by
    rw [List.getElem?_eq_some] at hu
    exact hu.1
  cases hs with
  | main h1 m1 new hm =>
    refine ⟨u, ?_, rfl⟩
    simp only
    rw [List.getElem?_append_left hlt]
    exact hu
  | unit j v v1 h1 new hv hr =>
    simp only
    rw [List.getElem?_append_left (by simpa using hlt)]
    by_cases hij : j = i
    · subst hij
      rw [hu] at hv
      cases hv
      exact ⟨v1, by simp [List.getElem?_set_self, hlt], unitRel_id _ _ _ _ _ hr⟩
    · exact ⟨u, by rw [List.getElem?_set_ne hij]; exact hu, rfl⟩

theorem run_units (s s2 : State) (acts : List Act) (h : run s acts = some s2) (i : Nat)
    (u : Routine) (hu : s.units[i]? = some u) :
    ∃ u2, s2.units[i]? = some u2 ∧ u2.id = u.id := by
  induction acts generalizing s u with
  | nil =>
    simp only [run, Option.some.injEq] at h
    subst h
    exact ⟨u, hu, rfl⟩
  | cons a as ih =>
    simp only [run] at h
    cases hs : step s a with
    | none => simp [hs] at h
    | some s1 =>
      simp only [hs] at h
      obtain ⟨u1, hu1, hid⟩ := stepRel_units s s1 (step_rel _ _ _ hs) i u hu
      obtain ⟨u2, hu2, hid2⟩ := ih s1 h u1 hu1
      exact ⟨u2, hu2, hid2.trans hid⟩

theorem errors_nil_of_head (l : List String) (h : none = l.head?) : l = [] := by
  cases l with
  | nil => rfl
  | cons a t => simp at h

theorem scanRel_new (h h1 : Handler) (sc : Scan) (new : List Routine)
    (out : Scan ⊕ Option String) (hr : ScanRel h sc h1 new out) :
    ∀ x ∈ new, x.pc = .exec :=
  fun x hx => ((scanRel_facts _ _ _ _ _ hr).2.2.2.2.1 x hx).1

theorem mainRel_new (h h1 : Handler) (m m1 : MainPc) (new : List Routine)
    (hr : MainRel h m h1 m1 new) : ∀ x ∈ new, x.pc = .exec := by
  cases hr with
  | scan sc sc1 _ _ hs => exact scanRel_new _ _ _ _ _ hs
  | retErr sc _ _ e hs => exact scanRel_new _ _ _ _ _ hs
  | toWait sc _ _ hs => exact scanRel_new _ _ _ _ _ hs
  | woke hw => simp

theorem unitRel_new (h h1 : Handler) (u u1 : Routine) (new : List Routine)
    (hr : UnitRel h u h1 u1 new) : ∀ x ∈ new, x.pc = .exec := by
  cases hr with
  | scan id sc sc1 _ _ hs => exact scanRel_new _ _ _ _ _ hs
  | scanErr id sc _ _ e hs => exact scanRel_new _ _ _ _ _ hs
  | scanOk id sc _ _ hs => exact scanRel_new _ _ _ _ _ hs
  | execErr id e he => simp
  | execOk id he => simp
  | record id e => simp
  | setDone id => simp
  | report id e => simp
  | signal id => simp

/-- A goroutine reaches `h.wg.Done()` only if the callback succeeds on its
id. -/
theorem done_only_ok (f : String → Option String) (tb0 : Table) (acts : List Act) (s : State)
    (h : run (initState ⟨f, tb0, [], 0⟩) acts = some s) :
    ∀ u ∈ s.units, u.pc = .signal ∨ u.pc = .exited → f u.id = none := by
  induction acts using List.reverseRecOn generalizing s with
  | nil =>
    simp only [run, Option.some.injEq] at h
    subst h
    simp [initState]
  | append_singleton acts a ih =>
    obtain ⟨s1, h1, h2⟩ := run_snoc_some _ _ _ _ h
    have K := ih s1 h1
    have J := inv2_of_run f tb0 acts s1 h1
    cases step_rel _ _ _ h2 with
    | main h1 m1 new hm =>
      intro x hx hpc
      simp only [List.mem_append] at hx
      rcases hx with hx | hx
      · exact K x hx hpc
      · rw [mainRel_new _ _ _ _ _ hm x hx] at hpc
        simp at hpc
    | unit i u u1 h1 new hu hr =>
      have hmem := mem_of_getElem_some _ _ _ hu
      intro x hx hpc
      rcases mem_set_append _ _ _ _ _ hx with hx1 | hx2 | hx3
      · subst hx1
        cases hr with
        | execErr id e he => simp at hpc
        | execOk id he => simp at hpc
        | record id e => simp at hpc
        | setDone id => simp at hpc
        | scan id sc sc1 _ _ hsr => simp at hpc
        | scanErr id sc _ _ e hsr => simp at hpc
        | scanOk id sc _ _ hsr =>
          have hnil := errors_nil_of_head _ ((scanRel_facts _ _ _ _ _ hsr).2.2.2.2.2.2.1 _ rfl)
          cases hf : f id with
          | none => rfl
          | some e =>
            have := J.recorded _ hmem e hf (by simp) (by simp)
            rw [hnil] at this
            simp at this
        | report id e => simp at hpc
        | signal id => exact K ⟨id, .signal⟩ hmem (Or.inl rfl)
      · exact K x hx2 hpc
      · rw [unitRel_new _ _ _ _ _ hr x hx3] at hpc
        simp at hpc

theorem exited_of_wg_zero (us : List Routine) (h : (us.map wgUnit).sum = 0) :
    ∀ u ∈ us, u.pc = .exited := by
  intro u hu
  have := le_sum_of_mem wgUnit us u hu
  rw [h] at this
  obtain ⟨id, pc⟩ := u
  cases pc <;> simp [wgUnit] at this ⊢

theorem mainRel_returned_nil (h h1 : Handler) (m m1 : MainPc) (new : List Routine)
    (hr : MainRel h m h1 m1 new) (hm : m1 = .returned none) :
    m = .wait ∧ h.wg = 0 ∧ new = [] := by
  cases hr with
  | scan sc sc1 _ _ hs => cases hm
  | retErr sc _ _ e hs => cases hm
  | toWait sc _ _ hs => cases hm
  | woke hw => exact ⟨rfl, hw, rfl⟩

theorem unitRel_not_exited (h h1 : Handler) (u u1 : Routine) (new : List Routine)
    (hr : UnitRel h u h1 u1 new) : u.pc ≠ .exited := by
  cases hr <;> simp

/-- Once `Run` has passed `Wait`, every launched goroutine has called `Done`
and no launch is under way. -/
theorem returned_nil_quiet (f : String → Option String) (tb0 : Table) (acts : List Act)
    (s : State) (h : run (initState ⟨f, tb0, [], 0⟩) acts = some s)
    (hm : s.main = .returned none) : tot wgMain wgUnit s = 0 := by
  induction acts using List.reverseRecOn generalizing s with
  | nil =>
    simp only [run, Option.some.injEq] at h
    subst h
    simp [initState] at hm
  | append_singleton acts a ih =>
    obtain ⟨s1, hr1, h2⟩ := run_snoc_some _ _ _ _ h
    have I := inv_of_run f tb0 acts s1 hr1
    cases step_rel _ _ _ h2 with
    | main h1 m1 new hrel =>
      simp only at hm
      obtain ⟨e1, e2, e3⟩ := mainRel_returned_nil _ _ _ _ _ hrel hm
      have hw := I.wg
      rw [e2] at hw
      simp only [tot, e1, wgMain] at hw
      simp only [tot, hm, e3, List.append_nil, wgMain]
      omega
    | unit i u u1 h1 new hu hr =>
      simp only at hm
      have hz := ih s1 hr1 hm
      have hex := exited_of_wg_zero s1.units (by simp only [tot] at hz; omega) u
        (mem_of_getElem_some _ _ _ hu)
      exact absurd hex (unitRel_not_exited _ _ _ _ _ hr)

theorem step_unit_rel (s s1 : State) (j : Nat) (key : String)
    (hs : step s (.unit j key) = some s1) :
    ∃ u u1 h1 new, s.units[j]? = some u ∧ UnitRel s.h u h1 u1 new ∧
      s1 = ⟨h1, s.main, s.units.set j u1 ++ new⟩ := by
  simp only [step, stepUnit] at hs
  cases hu : s.units[j]? with
  | none => simp [hu] at hs
  | some u =>
    obtain ⟨id, pc⟩ := u
    simp only [hu] at hs
    cases pc with
    | exec =>
      simp only at hs
      cases he : execute s.h id with
      | none =>
        simp only [he, Option.some.injEq] at hs
        exact ⟨_, _, _, [], rfl, UnitRel.execOk id he, by simp [← hs]⟩
      | some e =>
        simp only [he, Option.some.injEq] at hs
        exact ⟨_, _, _, [], rfl, UnitRel.execErr id e he, by simp [← hs]⟩
    | failed e =>
      simp only [Option.some.injEq] at hs
      exact ⟨_, _, _, [], rfl, UnitRel.record id e, by simp [← hs]⟩
    | deferred =>
      simp only [Option.some.injEq] at hs
      exact ⟨_, _, _, [], rfl, UnitRel.setDone id, by simp [← hs]⟩
    | scan sc =>
      simp only at hs
      cases hsc : scanStep s.h sc key with
      | none => simp [hsc] at hs
      | some r =>
        obtain ⟨h1, new, out⟩ := r
        have hr := scanStep_rel _ _ _ _ _ _ hsc
        simp only [hsc] at hs
        cases out with
        | inl sc1 =>
          simp only [Option.some.injEq] at hs
          exact ⟨_, _, _, _, rfl, UnitRel.scan _ _ _ _ _ hr, hs.symm⟩
        | inr r =>
          cases r with
          | none =>
            simp only [Option.some.injEq] at hs
            exact ⟨_, _, _, _, rfl, UnitRel.scanOk _ _ _ _ hr, hs.symm⟩
          | some e =>
            simp only [Option.some.injEq] at hs
            exact ⟨_, _, _, _, rfl, UnitRel.scanErr _ _ _ _ _ hr, hs.symm⟩
    | report e =>
      simp only [Option.some.injEq] at hs
      exact ⟨_, _, _, [], rfl, UnitRel.report id e, by simp [← hs]⟩
    | stopped => simp at hs
    | signal =>
      simp only [Option.some.injEq] at hs
      exact ⟨_, _, _, [], rfl, UnitRel.signal id, by simp [← hs]⟩
    | exited => simp at hs

/-- Once the error list is not empty, a step of a goroutine that is not yet
before `h.wg.Done()` does not bring it there. -/
theorem no_signal_after_error (s s1 : State) (j : Nat) (key : String) (v : Routine)
    (herr : s.h.errors ≠ []) (hv : s.units[j]? = some v) (hpc : v.pc ≠ .signal)
    (hs : step s (.unit j key) = some s1) :
    ∃ v1, s1.units[j]? = some v1 ∧ v1.pc ≠ .signal ∧ v1.pc ≠ .exited := by
  obtain ⟨u, u1, h1, new, hu, hr, rfl⟩ := step_unit_rel s s1 j key hs
  rw [hv] at hu
  cases hu
  have hlt : j < s.units.length := by
    rw [List.getElem?_eq_some] at hv
    exact hv.1
  refine ⟨u1, ?_, ?_⟩
  · simp only
    rw [List.getElem?_append_left (by simpa using hlt)]
    simp [List.getElem?_set_self, hlt]
  · cases hr with
    | execErr id e he => simp
    | execOk id he => simp
    | record id e => simp
    | setDone id => simp
    | scan id sc sc1 _ _ hsr => simp
    | scanErr id sc _ _ e hsr => simp
    | scanOk id sc _ _ hsr =>
      exact absurd (errors_nil_of_head _ ((scanRel_facts _ _ _ _ _ hsr).2.2.2.2.2.2.1 _ rfl))
        herr
    | report id e => simp
    | signal id => simp at hpc

/-! ## Claims on the wait counter after an error -/

/-- C13 (as stated, refuted): with two roots `A` and `D` and a callback that
fails on `A`, there is a run in which the callback of `A` has returned its
error while the goroutine of `D` has not yet called `execute`; the goroutine of
`D` then runs up to `h.wg.Done()`, the error of `A` is recorded, and the
goroutine of `D` calls `h.wg.Done()`, which lowers the counter from 2 to 1. -/
theorem done_after_error_counterexample :
    NewHandler (some failOnA) rootsTasks =
      (some ⟨failOnA, rootsTasks.map entryOf, [], 0⟩, none) ∧
    run (initState ⟨failOnA, rootsTasks.map entryOf, [], 0⟩) rootsActs = some rootsFailed ∧
    rootsFailed.units[0]? = some ⟨"A", .failed "boom"⟩ ∧
    rootsFailed.units[1]? = some ⟨"D", .exec⟩ ∧
    run rootsFailed rootsMore = some rootsRecorded ∧
    rootsRecorded.h.errors = ["boom"] ∧
    rootsRecorded.units[1]? = some ⟨"D", .signal⟩ ∧
    rootsRecorded.h.wg = 2 ∧
    step rootsRecorded (.unit 1 "") = some rootsAfter ∧
    rootsAfter.units[1]? = some ⟨"D", .exited⟩ ∧
    rootsAfter.h.wg = 1 :=
  ⟨by rfl, by rfl, by rfl, by rfl, by rfl, by rfl, by rfl, by rfl, by rfl, by rfl, by rfl⟩

/-- C13 (amended): in a run of a handler built by `NewHandler`, from the launch
of a goroutine for a task on which the callback returns an error, in every
later state: that goroutine is neither before nor after `h.wg.Done()`, and the
error list is not empty while it is in its re-scan; the wait counter is not
zero; `Run` has not returned from `Wait`; and once the error list is not empty,
no goroutine that is not yet before `h.wg.Done()` gets there by a step. -/
theorem no_done_after_error (f : String → Option String) (ts : List Task) (h : Handler)
    (hr : NewHandler (some f) ts = (some h, none))
    (acts : List Act) (s : State) (hrun : run (initState h) acts = some s)
    (i : Nat) (u : Routine) (hu : s.units[i]? = some u) (e : String)
    (hfe : f u.id = some e)
    (acts2 : List Act) (s2 : State) (hrun2 : run s acts2 = some s2) :
    (∃ u2, s2.units[i]? = some u2 ∧ u2.id = u.id ∧ u2.pc ≠ .signal ∧ u2.pc ≠ .exited ∧
      ∀ sc, u2.pc = .scan sc → s2.h.errors ≠ []) ∧
    s2.h.wg ≠ 0 ∧
    s2.main ≠ .returned none ∧
    (s2.h.errors ≠ [] → ∀ j v key s3, s2.units[j]? = some v → v.pc ≠ .signal →
      step s2 (.unit j key) = some s3 →
      ∃ v1, s3.units[j]? = some v1 ∧ v1.pc ≠ .signal ∧ v1.pc ≠ .exited) := by
  obtain ⟨_, _, g, hg, rfl⟩ := wellFormed_of_NewHandler (some f) ts h none hr
  simp only [Option.some.injEq] at hg
  subst hg
  have hrun3 : run (initState ⟨f, ts.map entryOf, [], 0⟩) (acts ++ acts2) = some s2 := by
    rw [run_append, hrun]
    exact hrun2
  have I := inv_of_run f _ _ s2 hrun3
  have J := inv2_of_run f _ _ s2 hrun3
  have K := done_only_ok f _ _ s2 hrun3
  obtain ⟨u2, hu2, hid⟩ := run_units s s2 acts2 hrun2 i u hu
  have hmem := mem_of_getElem_some _ _ _ hu2
  have hf2 : f u2.id = some e := by rw [hid]; exact hfe
  have hns : u2.pc ≠ .signal := by
    intro hc
    have := K u2 hmem (Or.inl hc)
    rw [hf2] at this
    cases this
  have hne : u2.pc ≠ .exited := by
    intro hc
    have := K u2 hmem (Or.inr hc)
    rw [hf2] at this
    cases this
  have hpos : 1 ≤ tot wgMain wgUnit s2 := by
    have h1 := le_sum_of_mem wgUnit s2.units u2 hmem
    have h2 : 1 ≤ wgUnit u2 := by
      obtain ⟨id, pc⟩ := u2
      cases pc <;> simp [wgUnit] at hne ⊢
    simp only [tot]
    omega
  refine ⟨⟨u2, hu2, hid, hns, hne, ?_⟩, ?_, ?_, ?_⟩
  · intro sc hsc hnil
    have := J.recorded u2 hmem e hf2 (by rw [hsc]; simp) (by rw [hsc]; simp)
    rw [hnil] at this
    simp at this
  · rw [I.wg]
    omega
  · intro hm
    have := returned_nil_quiet f _ _ s2 hrun3 hm
    omega
  · intro herr j v key s3 hv hpc hs
    exact no_signal_after_error s2 s3 j key v herr hv hpc hs

theorem no_done_after_error_witness :
    (∃ u2, rootsAfter.units[0]? = some u2 ∧ u2.id = "A" ∧ u2.pc ≠ .signal ∧ u2.pc ≠ .exited ∧
      ∀ sc, u2.pc = .scan sc → rootsAfter.h.errors ≠ []) ∧
    rootsAfter.h.wg ≠ 0 ∧
    rootsAfter.main ≠ .returned none ∧
    (rootsAfter.h.errors ≠ [] → ∀ j v key s3, rootsAfter.units[j]? = some v →
      v.pc ≠ .signal → step rootsAfter (.unit j key) = some s3 →
      ∃ v1, s3.units[j]? = some v1 ∧ v1.pc ≠ .signal ∧ v1.pc ≠ .exited) :=
  no_done_after_error failOnA rootsTasks ⟨failOnA, rootsTasks.map entryOf, [], 0⟩ (by rfl)
    rootsActs rootsFailed (by rfl) 0 ⟨"A", .failed "boom"⟩ (by rfl) "boom" (by rfl)
    (rootsMore ++ [.unit 1 ""]) rootsAfter (by rfl)

/-! ## Every started task has its goroutine -/

/-- A step never lowers the number of goroutines and launches of a task. -/
theorem own_step (s s1 : State) (hs : StepRel s s1) (id : String) :
    tot (ownMain id) (ownUnit id) s ≤ tot (ownMain id) (ownUnit id) s1 := by
  have scanGe : ∀ (sc : Scan) (h1 : Handler) (new : List Routine) (out : Scan ⊕ Option String),
      ScanRel s.h sc h1 new out → sc.owns id ≤ outOwns id out + (new.map (ownUnit id)).sum := by
    intro sc h1 new out hr
    rcases (scanRel_facts2 _ _ _ _ _ hr).2.2.2 id with h | ⟨h, _⟩ <;> omega
  have plain : ∀ i u, s.units[i]? = some u → ∀ pc1, pcOwns id u.pc = 0 → pcOwns id pc1 = 0 →
      ((s.units.set i ⟨u.id, pc1⟩).map (ownUnit id)).sum = (s.units.map (ownUnit id)).sum := by
    intro i u hu pc1 h0 h1
    have := sum_map_set (ownUnit id) s.units i _ ⟨u.id, pc1⟩ hu
    simp only [ownUnit, h0, h1] at this
    omega
  have scanU : ∀ i uid sc, s.units[i]? = some ⟨uid, .scan sc⟩ → ∀ pc1 out,
      pcOwns id pc1 = outOwns id out →
      ((s.units.set i ⟨uid, pc1⟩).map (ownUnit id)).sum + sc.owns id =
        (s.units.map (ownUnit id)).sum + outOwns id out := by
    intro i uid sc hu pc1 out ho
    have := sum_map_set (ownUnit id) s.units i _ ⟨uid, pc1⟩ hu
    simp only [ownUnit, ho] at this
    simp only [pcOwns] at this
    omega
  cases hs with
  | main h1 m1 new hm =>
    cases hm0 : s.main with
    | scan sc =>
      rw [hm0] at hm
      cases hm with
      | scan _ sc1 _ _ hr =>
        have := scanGe _ _ _ _ hr
        simp only [tot, hm0, ownMain, List.map_append, List.sum_append]
        simp only [outOwns] at this
        omega
      | retErr _ _ _ e hr =>
        have := scanGe _ _ _ _ hr
        simp only [tot, hm0, ownMain, List.map_append, List.sum_append]
        simp only [outOwns] at this
        omega
      | toWait _ _ _ hr =>
        have := scanGe _ _ _ _ hr
        simp only [tot, hm0, ownMain, List.map_append, List.sum_append]
        simp only [outOwns] at this
        omega
    | wait =>
      rw [hm0] at hm
      cases hm with
      | woke hw => simp [tot, hm0, ownMain]
    | returned r =>
      rw [hm0] at hm
      cases hm
  | unit i u u1 h1 new hu hr =>
    cases hr with
    | execErr uid e he =>
      have := plain i _ hu (.failed e) rfl rfl
      dsimp only at this
      simp only [tot, List.append_nil]
      omega
    | execOk uid he =>
      have := plain i _ hu .deferred rfl rfl
      dsimp only at this
      simp only [tot, List.append_nil]
      omega
    | record uid e =>
      have := plain i _ hu .deferred rfl rfl
      dsimp only at this
      simp only [tot, List.append_nil]
      omega
    | setDone uid =>
      have := plain i _ hu (.scan (.loop (Table.keys (setDone s.h.tasks uid)))) rfl
        (by simp [pcOwns, Scan.owns, Scan.pending])
      dsimp only at this
      simp only [tot, List.append_nil]
      omega
    | scan uid sc sc1 _ _ hsr =>
      have h1 := scanGe _ _ _ _ hsr
      have h2 := scanU i uid sc hu (.scan sc1) (.inl sc1) rfl
      simp only [tot, List.map_append, List.sum_append]
      omega
    | scanErr uid sc _ _ e hsr =>
      have h1 := scanGe _ _ _ _ hsr
      have h2 := scanU i uid sc hu (.report e) (.inr (some e)) rfl
      simp only [tot, List.map_append, List.sum_append]
      omega
    | scanOk uid sc _ _ hsr =>
      have h1 := scanGe _ _ _ _ hsr
      have h2 := scanU i uid sc hu .signal (.inr none) rfl
      simp only [tot, List.map_append, List.sum_append]
      omega
    | report uid e =>
      have := plain i _ hu .stopped rfl rfl
      dsimp only at this
      simp only [tot, List.append_nil]
      omega
    | signal uid =>
      have := plain i _ hu .exited rfl rfl
      dsimp only at this
      simp only [tot, List.append_nil]
      omega

theorem pre_le_own (id : String) (s : State) :
    tot (ownMain id) (preUnit id) s ≤ tot (ownMain id) (ownUnit id) s := by
  have := sum_pre_le_own id s.units
  simp only [tot]
  omega

/-- A task that is started and was not started by the constructor has a
goroutine or a launch under way. -/
theorem started_owned (f : String → Option String) (tb0 : Table) (acts : List Act) (s : State)
    (h : run (initState ⟨f, tb0, [], 0⟩) acts = some s) (id : String)
    (hst : (s.h.tasks.getD id).started = true) :
    (tb0.getD id).started = true ∨ 1 ≤ tot (ownMain id) (ownUnit id) s := by
  induction acts using List.reverseRecOn generalizing s with
  | nil =>
    simp only [run, Option.some.injEq] at h
    subst h
    exact Or.inl hst
  | append_singleton acts a ih =>
    obtain ⟨s1, h1, h2⟩ := run_snoc_some _ _ _ _ h
    have J := inv2_of_run f tb0 acts s1 h1
    have hrel := step_rel _ _ _ h2
    have hmono := own_step s1 s hrel id
    have keep : (s1.h.tasks.getD id).started = true →
        (tb0.getD id).started = true ∨ 1 ≤ tot (ownMain id) (ownUnit id) s := by
      intro h3
      rcases ih s1 h1 h3 with h4 | h4
      · exact Or.inl h4
      · exact Or.inr (by omega)
    rcases pre_step f s1 s J hrel with ⟨e1, _⟩ | ⟨key, hk, e1, e2⟩ | ⟨uid, _, e1, _⟩
    · rw [e1] at hst
      exact keep hst
    · rw [e1, tryStart_getD] at hst
      by_cases hid : key = id
      · right
        have h5 := e2 id
        have h6 := pre_le_own id s
        simp only [hid, if_true] at h5
        omega
      · simp only [hid, and_false, if_false] at hst
        exact keep hst
    · rw [e1, setDone_getD] at hst
      apply keep
      by_cases hid : uid = id
      · simpa [hid] using hst
      · simpa [hid] using hst

theorem sum_ownUnit (id : String) (us : List Routine) :
    (us.map (ownUnit id)).sum =
      (us.map Routine.id).count id + (us.map (fun u => pcOwns id u.pc)).sum := by
  induction us with
  | nil => simp
  | cons u r ih =>
    simp only [List.map_cons, List.sum_cons, List.count_cons, ih, ownUnit]
    by_cases h : u.id = id
    · simp [h]; omega
    · simp [h]; omega

theorem sum_pcOwns_le_pre (id : String) (us : List Routine) :
    (us.map (fun u => pcOwns id u.pc)).sum ≤ (us.map (preUnit id)).sum := by
  induction us with
  | nil => simp
  | cons u r ih =>
    simp only [List.map_cons, List.sum_cons, preUnit]
    omega

theorem done_started_of_run (f : String → Option String) (ts : List Task) (acts : List Act)
    (s : State) (h : run (initState ⟨f, ts.map entryOf, [], 0⟩) acts = some s) (id : String)
    (hd : (s.h.tasks.getD id).done = true) : (s.h.tasks.getD id).started = true := by
  obtain ⟨evs, r, hr, ht, _⟩ := run_refines f _ acts s h
  have I := rinv_of_run _ _ _ hr
  rw [← ht] at hd ⊢
  have h1 := I.started id
  have h2 := I.done id
  have h3 := getD_entryOf_flags ts id
  rw [hd] at h2
  rw [h1, h3]
  cases h0 : (Table.getD (ts.map entryOf) id).done
  · rw [h0] at h2
    have hf : Ev.finish id ∈ evs := by simpa using h2.symm
    simp [I.finished id hf]
  · simp

/-! ## Claims on completion of acyclic task lists -/

/-- C18: for a task list that `NewHandler` accepts and whose dependency
relation is acyclic (every awaited id has a smaller rank than the task that
waits for it), in every state of a run of `Run` in which no task is started
and not done and `tryStart` would return `false` for every id, every task is
done, and every task with `Skip = false` has exactly one goroutine, which has
called the callback and run `setDone`; this holds whatever the callback
returns. -/
theorem drained_run_all_done (f : String → Option String) (ts : List Task) (h : Handler)
    (hr : NewHandler (some f) ts = (some h, none))
    (rank : String → Nat) (hrank : ∀ t ∈ ts, ∀ w ∈ t.WaitFor, rank w < rank t.Id)
    (acts : List Act) (s : State) (hrun : run (initState h) acts = some s)
    (hidle : ∀ id, ¬ ((s.h.tasks.getD id).started = true ∧ (s.h.tasks.getD id).done = false))
    (hno : ∀ id, (tryStart s.h.tasks id).2 = false) :
    (∀ t ∈ ts, (s.h.tasks.getD t.Id).done = true) ∧
    (∀ t ∈ ts, t.Skip = false →
      (s.units.map Routine.id).count t.Id = 1 ∧
      ∀ u ∈ s.units, u.id = t.Id → u.pc.early = false) := by
  obtain ⟨hw, _, g, hg, rfl⟩ := wellFormed_of_NewHandler (some f) ts h none hr
  simp only [Option.some.injEq] at hg
  subst hg
  have I := inv_of_run f _ acts s hrun
  have J := inv2_of_run f _ acts s hrun
  have hdone : ∀ n, ∀ t ∈ ts, rank t.Id < n → (s.h.tasks.getD t.Id).done = true := by
    intro n
    induction n with
    | zero => intro t _ hlt; omega
    | succ n ih =>
      intro t ht hlt
      have hg0 := getD_map_entryOf ts hw.1 t ht
      have hk : t.Id ∈ s.h.tasks.keys := by
        rw [I.keys, keys_map_entryOf]
        exact List.mem_map_of_mem _ ht
      have hget := get_of_mem_keys _ _ hk
      by_contra hnd
      have hnd2 : (s.h.tasks.getD t.Id).done = false := by simpa using hnd
      have hns : (s.h.tasks.getD t.Id).started = false := by
        cases h5 : (s.h.tasks.getD t.Id).started
        · rfl
        · exact absurd ⟨h5, hnd2⟩ (hidle t.Id)
      have hall : allDone s.h.tasks (s.h.tasks.getD t.Id).waitFor = true := by
        rw [allDone_iff]
        intro w hwt
        rw [I.waitFor, hg0] at hwt
        obtain ⟨u, hu, rfl⟩ := hw.2.2.2 t ht w hwt
        apply ih u hu
        have := hrank t ht _ hwt
        omega
      have := (tryStart_true_iff s.h.tasks t.Id).2 ⟨_, hget, hnd2, hns, hall⟩
      rw [hno] at this
      simp at this
  have hall : ∀ t ∈ ts, (s.h.tasks.getD t.Id).done = true :=
    fun t ht => hdone (rank t.Id + 1) t ht (by omega)
  refine ⟨hall, ?_⟩
  intro t ht hsk
  have hd := hall t ht
  have hst := done_started_of_run f ts acts s hrun t.Id hd
  have hown : 1 ≤ tot (ownMain t.Id) (ownUnit t.Id) s := by
    rcases started_owned f _ acts s hrun t.Id hst with h1 | h1
    · rw [getD_map_entryOf ts hw.1 t ht] at h1
      simp only at h1
      rw [hsk] at h1
      cases h1
    · exact h1
  have hle := (J.own t.Id).1
  have hpre : tot (ownMain t.Id) (preUnit t.Id) s = 0 := by
    by_contra hc
    have := J.pre t.Id (by omega)
    rw [hd] at this
    cases this
  have h1 := sum_ownUnit t.Id s.units
  have h2 := sum_pcOwns_le_pre t.Id s.units
  simp only [tot] at hown hle hpre
  constructor
  · omega
  · intro u hu hid
    cases he : u.pc.early
    · rfl
    · have := le_sum_of_mem (preUnit t.Id) s.units u hu
      simp only [preUnit, hid, he, and_self, if_true] at this
      omega

theorem drained_run_all_done_witness :
    (∀ t ∈ pairTasks, (pairDone.h.tasks.getD t.Id).done = true) ∧
    (∀ t ∈ pairTasks, t.Skip = false →
      (pairDone.units.map Routine.id).count t.Id = 1 ∧
      ∀ u ∈ pairDone.units, u.id = t.Id → u.pc.early = false) :=
  drained_run_all_done okFunc pairTasks ⟨okFunc, pairTasks.map entryOf, [], 0⟩ (by rfl)
    (fun id => if id = "A" then 0 else 1) (by decide) pairActs pairDone (by rfl)
    (by
      intro id
      by_cases h : id ∈ pairDone.h.tasks.keys
      · have h2 : id = "A" ∨ id = "B" := by simpa [pairDone, Table.keys] using h
        rcases h2 with rfl | rfl <;> decide
      · have hn := (Table.get_eq_none_iff _ _).2 h
        simp [Table.getD, hn, task.zero])
    (by
      intro id
      by_cases h : id ∈ pairDone.h.tasks.keys
      · have h2 : id = "A" ∨ id = "B" := by simpa [pairDone, Table.keys] using h
        rcases h2 with rfl | rfl <;> decide
      · exact tryStart_false_of_not_mem _ _ h)

end Tasks
